import Mathlib

/-!
# confconv: a verification development of the conversion engine

The repository converts configuration documents between JSON, YAML and TOML,
validates syntax, and reformats documents.  The code in `src/` (the `Format`
enum, extension inference, the error taxonomy, and the `convert` / `validate`
/ `format` compositions) is embedded directly.  The per-format decoders and
encoders live in third-party crates (`serde_json`, `serde_yml`, `toml`) whose
sources are not part of the repository; they are modelled from the
specification's decode/encode contracts, as executable Lean functions, and
the embedded operations are built from those models exactly as the Rust code
composes the library calls.
-/

set_option maxHeartbeats 1600000
set_option synthInstance.maxHeartbeats 1000000
set_option linter.unusedVariables false

namespace Confconv

/-! ## Character and token layer -/

/-- Whitespace characters accepted between JSON tokens. -/
def isWs (c : Char) : Bool :=
  c = ' ' || c = '\n' || c = '\t' || c = '\r'

/-- ASCII decimal digit test. -/
def isDigitCh (c : Char) : Bool :=
  '0' ≤ c && c ≤ '9'

/-- The character for a decimal digit value. -/
def digitChar (d : Nat) : Char := Char.ofNat (48 + d)

/-- The numeric value of a decimal digit character. -/
def digitVal (c : Char) : Nat := c.toNat - 48

/-- Decimal digit string of a natural number, most significant digit first.
The fuel argument bounds the number of digits. -/
def natCharsF : Nat → Nat → List Char
  | 0, _ => []
  | fuel+1, n =>
    if n < 10 then [digitChar n]
    else natCharsF fuel (n / 10) ++ [digitChar (n % 10)]

/-- Decimal digit string of a natural number. -/
def natChars (n : Nat) : List Char := natCharsF (n + 1) n

/-- Accumulate a digit-character list into a natural number. -/
def foldDigits (ds : List Char) : Nat :=
  ds.foldl (fun a c => a * 10 + digitVal c) 0

/-- Split a leading run of digits off a character list. -/
def spanDigits (s : List Char) : List Char × List Char :=
  (s.takeWhile isDigitCh, s.dropWhile isDigitCh)

theorem digitChar_spec : ∀ d : Fin 10,
    isDigitCh (digitChar d.val) = true ∧ digitVal (digitChar d.val) = d.val := by
  decide

theorem digitChar_digit {d : Nat} (h : d < 10) : isDigitCh (digitChar d) = true :=
  (digitChar_spec ⟨d, h⟩).1

theorem digitVal_digitChar {d : Nat} (h : d < 10) : digitVal (digitChar d) = d :=
  (digitChar_spec ⟨d, h⟩).2

theorem natCharsF_ne_nil (fuel n : Nat) (h : n ≤ fuel) : natCharsF (fuel + 1) n ≠ [] := by
  simp only [natCharsF]
  split
  · simp
  · simp

theorem natChars_ne_nil (n : Nat) : natChars n ≠ [] :=
  natCharsF_ne_nil n n le_rfl

theorem natCharsF_digits (fuel : Nat) : ∀ n, n ≤ fuel →
    ∀ c ∈ natCharsF (fuel + 1) n, isDigitCh c = true := by
  induction fuel with
  | zero =>
    intro n hn c hc
    interval_cases n
    all_goals (simp [natCharsF] at hc; subst hc; exact digitChar_digit (by omega))
  | succ fuel ih =>
    intro n hn c hc
    simp only [natCharsF] at hc
    split at hc
    · next h =>
      simp only [List.mem_singleton] at hc
      subst hc
      exact digitChar_digit h
    · next h =>
      rw [List.mem_append] at hc
      rcases hc with hc | hc
      · exact ih (n / 10) (by omega) c hc
      · simp only [List.mem_singleton] at hc
        subst hc
        exact digitChar_digit (Nat.mod_lt _ (by omega))

theorem natChars_digits (n : Nat) : ∀ c ∈ natChars n, isDigitCh c = true :=
  natCharsF_digits n n le_rfl

theorem foldDigits_from (ds : List Char) (a : Nat) :
    ds.foldl (fun a c => a * 10 + digitVal c) a =
      a * 10 ^ ds.length + ds.foldl (fun a c => a * 10 + digitVal c) 0 := by
  induction ds generalizing a with
  | nil => simp
  | cons c t ih =>
    simp only [List.foldl_cons, List.length_cons]
    rw [ih (a * 10 + digitVal c), ih (0 * 10 + digitVal c)]
    ring

theorem foldDigits_natCharsF (fuel : Nat) : ∀ n, n ≤ fuel →
    foldDigits (natCharsF (fuel + 1) n) = n := by
  induction fuel with
  | zero =>
    intro n hn
    interval_cases n
    all_goals simp [natCharsF, foldDigits, digitVal, digitChar]
  | succ fuel ih =>
    intro n hn
    rw [show natCharsF (fuel + 1 + 1) n =
        if n < 10 then [digitChar n] else natCharsF (fuel + 1) (n / 10) ++ [digitChar (n % 10)]
      from rfl]
    split
    · next h =>
      simp [foldDigits, digitVal_digitChar h]
    · next h =>
      simp only [foldDigits, List.foldl_append, List.foldl_cons, List.foldl_nil]
      have hrec := ih (n / 10) (by omega)
      simp only [foldDigits] at hrec
      rw [hrec, digitVal_digitChar (Nat.mod_lt _ (by omega))]
      omega

theorem foldDigits_natChars (n : Nat) : foldDigits (natChars n) = n :=
  foldDigits_natCharsF n n le_rfl

/-- Head-of-list predicate: the first character (if any) fails `p`. -/
def headNot (p : Char → Bool) : List Char → Prop
  | [] => True
  | c :: _ => p c = false

theorem takeWhile_all_append {p : Char → Bool} {l rest : List Char}
    (hl : ∀ c ∈ l, p c = true) (hr : headNot p rest) :
    (l ++ rest).takeWhile p = l ∧ (l ++ rest).dropWhile p = rest := by
  induction l with
  | nil =>
    simp only [List.nil_append]
    cases rest with
    | nil => simp
    | cons c t =>
      simp only [headNot] at hr
      simp [List.takeWhile, List.dropWhile, hr]
  | cons c t ih =>
    have hc := hl c (by simp)
    have ht : ∀ x ∈ t, p x = true := fun x hx => hl x (by simp [hx])
    have := ih ht
    simp [List.takeWhile, List.dropWhile, hc, this.1, this.2]

theorem spanDigits_append {l rest : List Char}
    (hl : ∀ c ∈ l, isDigitCh c = true) (hr : headNot isDigitCh rest) :
    spanDigits (l ++ rest) = (l, rest) := by
  have := takeWhile_all_append hl hr
  simp [spanDigits, this.1, this.2]

/-! ## String escaping

Both the JSON codec's string literals and the quoted scalars/keys of the
modelled YAML and TOML codecs use the JSON escape set: `\"`, `\\`, `\n`,
`\t`, `\r`, and `\u00XX` for the remaining control characters. -/

/-- Lower-case hexadecimal digit character for a value below 16. -/
def hexDigitChar (d : Nat) : Char :=
  if d < 10 then digitChar d else Char.ofNat (87 + d)

/-- Value of a lower-case hexadecimal digit character. -/
def hexVal (c : Char) : Nat :=
  if isDigitCh c then digitVal c else c.toNat - 87

theorem hexVal_hexDigitChar : ∀ d : Fin 16, hexVal (hexDigitChar d.val) = d.val := by
  decide

/-- Escape one character for inclusion in a double-quoted string literal. -/
def escChar (c : Char) : List Char :=
  if c = '"' then ['\\', '"']
  else if c = '\\' then ['\\', '\\']
  else if c = '\n' then ['\\', 'n']
  else if c = '\t' then ['\\', 't']
  else if c = '\r' then ['\\', 'r']
  else if c.toNat < 32 then
    ['\\', 'u', '0', '0', hexDigitChar (c.toNat / 16), hexDigitChar (c.toNat % 16)]
  else [c]

/-- Escape a whole string body. -/
def escStr (s : List Char) : List Char :=
  s.foldr (fun c acc => escChar c ++ acc) []

/-- A double-quoted string literal. -/
def quoteStr (s : List Char) : List Char :=
  '"' :: escStr s ++ ['"']

/-- Resolve a single-character escape. -/
def unescChar (c : Char) : Option Char :=
  if c = '"' then some '"'
  else if c = '\\' then some '\\'
  else if c = '/' then some '/'
  else if c = 'n' then some '\n'
  else if c = 't' then some '\t'
  else if c = 'r' then some '\r'
  else if c = 'b' then some '\x08'
  else if c = 'f' then some '\x0c'
  else none

/-- Parse the body of a double-quoted string literal after the opening quote,
returning the unescaped content and the characters after the closing quote.
The fuel argument bounds the number of decoded characters. -/
def parseStrBody : Nat → List Char → Option (List Char × List Char)
  | 0, _ => none
  | n+1, s =>
    match s with
    | [] => none
    | c :: rest =>
      if c = '"' then some ([], rest)
      else if c = '\\' then
        match rest with
        | 'u' :: h1 :: h2 :: h3 :: h4 :: r2 =>
          (parseStrBody n r2).map fun p =>
            (Char.ofNat (((hexVal h1 * 16 + hexVal h2) * 16 + hexVal h3) * 16 + hexVal h4)
              :: p.1, p.2)
        | e :: r2 =>
          match unescChar e with
          | some u => (parseStrBody n r2).map fun p => (u :: p.1, p.2)
          | none => none
        | [] => none
      else (parseStrBody n rest).map fun p => (c :: p.1, p.2)

theorem parseStrBody_escStr (s : List Char) : ∀ (n : Nat) (rest : List Char),
    s.length < n → parseStrBody n (escStr s ++ '"' :: rest) = some (s, rest) := by
  induction s with
  | nil =>
    intro n rest hn
    match n, hn with
    | n+1, _ => simp [escStr, parseStrBody]
  | cons c t ih =>
    intro n rest hn
    match n, hn with
    | n+1, hn =>
    have hn' : t.length < n := by simp at hn; omega
    have hesc : escStr (c :: t) = escChar c ++ escStr t := rfl
    rw [hesc, List.append_assoc]
    unfold escChar
    by_cases h1 : c = '"'
    · subst h1; simp [parseStrBody, unescChar, ih n rest hn']
    · by_cases h2 : c = '\\'
      · subst h2; simp [parseStrBody, unescChar, ih n rest hn']
      · by_cases h3 : c = '\n'
        · subst h3; simp [parseStrBody, unescChar, ih n rest hn']
        · by_cases h4 : c = '\t'
          · subst h4; simp [parseStrBody, unescChar, ih n rest hn']
          · by_cases h5 : c = '\r'
            · subst h5; simp [parseStrBody, unescChar, ih n rest hn']
            · by_cases h6 : c.toNat < 32
              · simp only [h1, h2, h3, h4, h5, h6, if_false, ite_false, if_true, ite_true]
                simp only [List.cons_append, List.nil_append]
                simp only [parseStrBody, ih n rest hn']
                have hdiv : c.toNat / 16 < 16 := by omega
                have hmod : c.toNat % 16 < 16 := by omega
                have h16 : hexVal (hexDigitChar (c.toNat / 16)) = c.toNat / 16 :=
                  hexVal_hexDigitChar ⟨_, hdiv⟩
                have h16b : hexVal (hexDigitChar (c.toNat % 16)) = c.toNat % 16 :=
                  hexVal_hexDigitChar ⟨_, hmod⟩
                have hv1 : hexVal '0' = 0 := by decide
                simp only [hv1, h16, h16b, Option.map_some]
                have hval : ((0 * 16 + 0) * 16 + c.toNat / 16) * 16 + c.toNat % 16 = c.toNat := by
                  omega
                have hval2 : c.toNat / 16 * 16 + c.toNat % 16 = c.toNat := by omega
                have hchar : Char.ofNat (c.toNat / 16 * 16 + c.toNat % 16) = c := by
                  rw [hval2, Char.ofNat_toNat]
                simp [hchar]
              · simp only [h1, h2, h3, h4, h5, h6, if_false, ite_false]
                simp only [List.cons_append, List.nil_append]
                simp [parseStrBody, h1, h2, ih n rest hn']

theorem escChar_length_pos (c : Char) : 0 < (escChar c).length := by
  unfold escChar
  split
  · simp
  all_goals split
  all_goals first
    | simp
    | (split
       all_goals first
         | simp
         | (split
            all_goals first
              | simp
              | (split
                 all_goals first
                   | simp
                   | (split <;> simp))))

theorem escStr_length_ge (s : List Char) : s.length ≤ (escStr s).length := by
  induction s with
  | nil => simp [escStr]
  | cons c t ih =>
    have : escStr (c :: t) = escChar c ++ escStr t := rfl
    rw [this]
    simp only [List.length_append, List.length_cons]
    have := escChar_length_pos c
    omega

/-! ## Number tokens

The Value model keeps the spec's integer/float distinction.  Floats are
modelled as signed decimal literals (integer part plus fractional digit
string), matching the textual form the encoders emit and the decoders
consume. -/

/-- A decimal floating-point literal: sign, integer part, fractional digits. -/
structure JFloat where
  neg : Bool
  ip : Nat
  frac : List Nat
  deriving DecidableEq

/-- Well-formed float literal: nonempty fractional part, digits below 10. -/
def floatWF (f : JFloat) : Bool :=
  !f.frac.isEmpty && f.frac.all (fun d => d < 10)

/-- Decimal character string of an integer. -/
def intChars (z : Int) : List Char :=
  if z < 0 then '-' :: natChars (-z).toNat else natChars z.toNat

/-- Decimal character string of a float literal. -/
def floatChars (f : JFloat) : List Char :=
  (if f.neg then ['-'] else []) ++ natChars f.ip ++ '.' :: f.frac.map digitChar

/-- Parse a decimal number token: optional minus sign, digit run, and an
optional fractional part introduced by a dot.  Returns the unconsumed rest. -/
def parseNumRaw (s : List Char) : Option ((Int ⊕ JFloat) × List Char) :=
  match s with
  | [] => none
  | c :: t =>
    let pr := if c = '-' then (true, t) else (false, s)
    let ds := (spanDigits pr.2).1
    let r1 := (spanDigits pr.2).2
    if ds.isEmpty then none
    else
      let intRes : Option ((Int ⊕ JFloat) × List Char) :=
        some (.inl (if pr.1 then -(foldDigits ds : Int) else (foldDigits ds : Int)), r1)
      match r1 with
      | [] => intRes
      | c2 :: r2 =>
        if c2 = '.' then
          let fs := (spanDigits r2).1
          let r3 := (spanDigits r2).2
          if fs.isEmpty then none
          else some (.inr ⟨pr.1, foldDigits ds, fs.map digitVal⟩, r3)
        else intRes

/-- The characters after a complete number token may not begin with a digit
or a dot (which would extend the token). -/
def numStop : List Char → Prop
  | [] => True
  | c :: _ => isDigitCh c = false ∧ c ≠ '.'

/-- The characters after a fractional digit run may not begin with a digit. -/
def digStop : List Char → Prop
  | [] => True
  | c :: _ => isDigitCh c = false

theorem digit_ne_minus {c : Char} (h : isDigitCh c = true) : c ≠ '-' := by
  intro hc; subst hc; exact absurd h (by decide)

theorem digit_ne_quote {c : Char} (h : isDigitCh c = true) : c ≠ '"' := by
  intro hc; subst hc; exact absurd h (by decide)

theorem parseNumRaw_int (z : Int) (rest : List Char) (hr : numStop rest) :
    parseNumRaw (intChars z ++ rest) = some (.inl z, rest) := by
  have hrHead : headNot isDigitCh rest := by
    cases rest with
    | nil => trivial
    | cons c t => exact hr.1
  obtain ⟨c, cs, hcons⟩ : ∃ c cs, natChars z.natAbs = c :: cs := by
    cases hnc : natChars z.natAbs with
    | nil => exact absurd hnc (natChars_ne_nil _)
    | cons c cs => exact ⟨c, cs, rfl⟩
  have hcdig : isDigitCh c = true := by
    have := natChars_digits z.natAbs c
    rw [hcons] at this
    exact this (by simp)
  have hspan : spanDigits (natChars z.natAbs ++ rest) = (natChars z.natAbs, rest) :=
    spanDigits_append (natChars_digits _) hrHead
  rw [hcons] at hspan
  simp only [List.cons_append] at hspan
  have hfold : foldDigits (c :: cs) = z.natAbs := by
    rw [← hcons]; exact foldDigits_natChars _
  by_cases hz : z < 0
  · have harg : (-z).toNat = z.natAbs := by omega
    have hch : intChars z = '-' :: natChars z.natAbs := by
      simp only [intChars, if_pos hz, harg]
    rw [hch, hcons]
    cases rest with
    | nil =>
      simp only [List.cons_append, List.append_nil, parseNumRaw, if_pos rfl] at hspan ⊢
      simp [hspan, hfold]
      rw [abs_of_neg hz, neg_neg]
    | cons c2 t =>
      simp only [List.cons_append, parseNumRaw, if_pos rfl]
      simp [hspan, hfold, hr.2]
      rw [abs_of_neg hz, neg_neg]
  · have harg : z.toNat = z.natAbs := by omega
    have hch : intChars z = natChars z.natAbs := by
      simp only [intChars, if_neg hz, harg]
    rw [hch, hcons]
    cases rest with
    | nil =>
      simp only [List.cons_append, List.append_nil, parseNumRaw] at hspan ⊢
      rw [if_neg (digit_ne_minus hcdig)]
      simp [hspan, hfold]
      omega
    | cons c2 t =>
      simp only [List.cons_append, parseNumRaw]
      rw [if_neg (digit_ne_minus hcdig)]
      simp [hspan, hfold, hr.2]
      omega

theorem map_digitVal_digitChar {ds : List Nat} (h : ∀ d ∈ ds, d < 10) :
    (ds.map digitChar).map digitVal = ds := by
  rw [List.map_map]
  have : ∀ d ∈ ds, (digitVal ∘ digitChar) d = id d := by
    intro d hd
    simp [Function.comp, digitVal_digitChar (h d hd)]
  rw [List.map_congr_left this, List.map_id]

theorem parseNumRaw_float (f : JFloat) (rest : List Char)
    (hwf : floatWF f = true) (hr : digStop rest) :
    parseNumRaw (floatChars f ++ rest) = some (.inr f, rest) := by
  have hwf1 : f.frac ≠ [] := by
    simp [floatWF, List.isEmpty_iff] at hwf
    exact hwf.1
  have hwf2 : ∀ d ∈ f.frac, d < 10 := by
    simp [floatWF] at hwf
    intro d hd
    exact hwf.2 d hd
  have hrHead : headNot isDigitCh rest := by
    cases rest with
    | nil => trivial
    | cons c t => exact hr
  obtain ⟨c, cs, hcons⟩ : ∃ c cs, natChars f.ip = c :: cs := by
    cases hnc : natChars f.ip with
    | nil => exact absurd hnc (natChars_ne_nil _)
    | cons c cs => exact ⟨c, cs, rfl⟩
  have hcdig : isDigitCh c = true := by
    have := natChars_digits f.ip c
    rw [hcons] at this
    exact this (by simp)
  have hfdig : ∀ x ∈ f.frac.map digitChar, isDigitCh x = true := by
    intro x hx
    rw [List.mem_map] at hx
    obtain ⟨d, hd, hdx⟩ := hx
    subst hdx
    exact digitChar_digit (hwf2 d hd)
  have hspanF : spanDigits (f.frac.map digitChar ++ rest) = (f.frac.map digitChar, rest) :=
    spanDigits_append hfdig hrHead
  have hspanI : spanDigits (natChars f.ip ++ '.' :: (f.frac.map digitChar ++ rest)) =
      (natChars f.ip, '.' :: (f.frac.map digitChar ++ rest)) :=
    spanDigits_append (natChars_digits _) (by simp [headNot, isDigitCh])
  rw [hcons] at hspanI
  simp only [List.cons_append] at hspanI
  have hfold : foldDigits (c :: cs) = f.ip := by
    rw [← hcons]; exact foldDigits_natChars _
  have hfne : (f.frac.map digitChar).isEmpty = false := by
    simp [List.isEmpty_iff, hwf1]
  have hmap : (f.frac.map digitChar).map digitVal = f.frac := map_digitVal_digitChar hwf2
  have hshape : floatChars f ++ rest =
      (if f.neg then ['-'] else []) ++ (natChars f.ip ++ '.' :: (f.frac.map digitChar ++ rest)) := by
    simp [floatChars]
  rw [hshape]
  by_cases hneg : f.neg = true
  · simp only [hneg, if_pos rfl, List.cons_append, List.nil_append]
    rw [hcons]
    simp only [List.cons_append, parseNumRaw, if_pos rfl]
    simp [hspanI, hspanF, hfold, hfne, hmap, hneg]
    rw [← hneg]
  · have hnegf : f.neg = false := by simpa using hneg
    simp only [hnegf, Bool.false_eq_true, if_false, ite_false, List.nil_append]
    rw [hcons]
    simp only [List.cons_append, parseNumRaw]
    rw [if_neg (digit_ne_minus hcdig)]
    simp [hspanI, hspanF, hfold, hfne, hmap, hnegf]
    rw [← hnegf]

/-! ## The intermediate Value model

Modelled from the spec: the pivot representation (`serde_json::Value` in the
code, whose crate source is not part of the repository) — a tagged union over
Null, Boolean, Number (integer and floating-point subvariants), String,
Sequence and insertion-order-preserving string-keyed Mapping. -/

/-- The universal document value: the pivot of every conversion. -/
inductive Value where
  | null
  | bool (b : Bool)
  | int (n : Int)
  | float (f : JFloat)
  | str (s : List Char)
  | arr (vs : List Value)
  | obj (kvs : List (List Char × Value))

mutual

/-- Parser fuel consumed by a value. -/
def vsize : Value → Nat
  | .arr vs => 1 + lsize vs
  | .obj kvs => 1 + msize kvs
  | _ => 1

def lsize : List Value → Nat
  | [] => 1
  | v :: vs => 1 + vsize v + lsize vs

def msize : List (List Char × Value) → Nat
  | [] => 1
  | (k, v) :: kvs => 2 + vsize v + msize kvs

end

/-- Well-formedness of a value: float literals carry nonempty digit strings
with digits below 10, and mapping keys are unique (the spec's "keys unique"
invariant of the Value model). -/
inductive WfV : Value → Prop
  | null : WfV .null
  | bool (b : Bool) : WfV (.bool b)
  | int (n : Int) : WfV (.int n)
  | float (f : JFloat) (h : floatWF f = true) : WfV (.float f)
  | str (s : List Char) : WfV (.str s)
  | arr (vs : List Value) (h : ∀ v ∈ vs, WfV v) : WfV (.arr vs)
  | obj (kvs : List (List Char × Value)) (hnd : (kvs.map Prod.fst).Nodup)
      (h : ∀ kv ∈ kvs, WfV kv.2) : WfV (.obj kvs)

/-- Insert a key/value pair into an association list, last write wins: an
existing binding keeps its position but receives the new value; a fresh key
is appended.  This is the map-insertion behaviour the spec ascribes to the
decoders ("object key order is preserved as encountered, duplicate keys
resolved last-write-wins"). -/
def insLWW : List (List Char × Value) → List Char → Value → List (List Char × Value)
  | [], k, v => [(k, v)]
  | kv :: t, k, v => if kv.1 = k then (k, v) :: t else kv :: insLWW t k v

/-- Fold a parsed member list into a mapping with last-write-wins insertion. -/
def buildObj (kvs : List (List Char × Value)) : List (List Char × Value) :=
  kvs.foldl (fun a kv => insLWW a kv.1 kv.2) []

/-- Drop leading whitespace. -/
def skipWs (s : List Char) : List Char := s.dropWhile isWs

theorem skipWs_cons_notWs {c : Char} {t : List Char} (h : isWs c = false) :
    skipWs (c :: t) = c :: t := by
  simp [skipWs, List.dropWhile, h]

theorem ws_cases {c : Char} (h : isWs c = true) :
    c = ' ' ∨ c = '\n' ∨ c = '\t' ∨ c = '\r' := by
  simp [isWs] at h
  tauto

theorem digit_not_ws {c : Char} (h : isDigitCh c = true) : isWs c = false := by
  by_contra hw
  simp only [Bool.not_eq_false] at hw
  rcases ws_cases hw with h1 | h1 | h1 | h1 <;> (subst h1; exact absurd h (by decide))

theorem digit_ne {c x : Char} (h : isDigitCh c = true) (hx : isDigitCh x = false) :
    c ≠ x := by
  intro hc
  subst hc
  rw [h] at hx
  cases hx

theorem skipWs_append {w s : List Char} (hw : ∀ c ∈ w, isWs c = true) :
    skipWs (w ++ s) = skipWs s := by
  induction w with
  | nil => simp
  | cons c t ih =>
    have hc := hw c (by simp)
    have ht : ∀ x ∈ t, isWs x = true := fun x hx => hw x (by simp [hx])
    show skipWs (c :: (t ++ s)) = skipWs s
    rw [skipWs, List.dropWhile_cons, if_pos hc]
    have := ih ht
    rw [skipWs] at this
    exact this

theorem replicate_ws (n : Nat) : ∀ c ∈ List.replicate n ' ', isWs c = true := by
  intro c hc
  rw [List.eq_of_mem_replicate hc]
  decide

/-! ## The JSON codec

Modelled from the spec: `serde_json` (not part of the repository).  The
encoder has a compact mode (no added whitespace) and a pretty mode
(recursive indentation with a configurable indent width, newline after each
structural element); the decoder parses the strict JSON grammar, preserving
object key order as encountered with last-write-wins duplicate resolution. -/

mutual

/-- Literal scalar tokens shared by the encoders. -/
def nullTok : List Char := ['n', 'u', 'l', 'l']

def trueTok : List Char := ['t', 'r', 'u', 'e']

def falseTok : List Char := ['f', 'a', 'l', 's', 'e']

/-- Pretty JSON encoder at indent width `i` and current depth `d`. -/
def jencP (i d : Nat) : Value → List Char
  | .null => nullTok
  | .bool true => trueTok
  | .bool false => falseTok
  | .int z => intChars z
  | .float f => floatChars f
  | .str s => quoteStr s
  | .arr [] => ['[', ']']
  | .arr (v :: vs) =>
    '[' :: '\n' :: (List.replicate (i * (d+1)) ' ' ++ (jencP i (d+1) v ++
      (jencPElems i (d+1) vs ++ ('\n' :: (List.replicate (i * d) ' ' ++ [']'])))))
  | .obj [] => ['\x7b', '\x7d']
  | .obj ((k, v) :: kvs) =>
    '\x7b' :: '\n' :: (List.replicate (i * (d+1)) ' ' ++ (quoteStr k ++ (':' :: ' ' ::
      (jencP i (d+1) v ++ (jencPMems i (d+1) kvs ++
        ('\n' :: (List.replicate (i * d) ' ' ++ ['\x7d'])))))))

def jencPElems (i d : Nat) : List Value → List Char
  | [] => []
  | v :: vs =>
    ',' :: '\n' :: (List.replicate (i * d) ' ' ++ (jencP i d v ++ jencPElems i d vs))

def jencPMems (i d : Nat) : List (List Char × Value) → List Char
  | [] => []
  | (k, v) :: kvs =>
    ',' :: '\n' :: (List.replicate (i * d) ' ' ++ (quoteStr k ++ (':' :: ' ' ::
      (jencP i d v ++ jencPMems i d kvs))))

end

mutual

/-- Compact JSON encoder (`serde_json::to_string`). -/
def jencC : Value → List Char
  | .null => nullTok
  | .bool true => trueTok
  | .bool false => falseTok
  | .int z => intChars z
  | .float f => floatChars f
  | .str s => quoteStr s
  | .arr [] => ['[', ']']
  | .arr (v :: vs) => '[' :: (jencC v ++ (jencCElems vs ++ [']']))
  | .obj [] => ['\x7b', '\x7d']
  | .obj ((k, v) :: kvs) =>
    '\x7b' :: (quoteStr k ++ (':' :: (jencC v ++ (jencCMems kvs ++ ['\x7d']))))

def jencCElems : List Value → List Char
  | [] => []
  | v :: vs => ',' :: (jencC v ++ jencCElems vs)

def jencCMems : List (List Char × Value) → List Char
  | [] => []
  | (k, v) :: kvs => ',' :: (quoteStr k ++ (':' :: (jencC v ++ jencCMems kvs)))

end

mutual

/-- JSON parser: one value, returning the unconsumed rest.  Fuel bounds the
total number of parsed nodes. -/
def parseJV : Nat → List Char → Option (Value × List Char)
  | 0, _ => none
  | n+1, s =>
    match skipWs s with
    | [] => none
    | c :: t =>
      if c = 'n' then
        match t with
        | 'u' :: 'l' :: 'l' :: r => some (.null, r)
        | _ => none
      else if c = 't' then
        match t with
        | 'r' :: 'u' :: 'e' :: r => some (.bool true, r)
        | _ => none
      else if c = 'f' then
        match t with
        | 'a' :: 'l' :: 's' :: 'e' :: r => some (.bool false, r)
        | _ => none
      else if c = '"' then
        (parseStrBody (t.length + 1) t).map fun p => (.str p.1, p.2)
      else if c = '[' then
        match skipWs t with
        | [] => none
        | c1 :: r =>
          if c1 = ']' then some (.arr [], r)
          else
            match parseJV n (c1 :: r) with
            | none => none
            | some (v, r1) =>
              match parseJElems n r1 with
              | none => none
              | some (vs, r2) => some (.arr (v :: vs), r2)
      else if c = '\x7b' then
        match skipWs t with
        | [] => none
        | c1 :: r =>
          if c1 = '\x7d' then some (.obj [], r)
          else
            match parseJMem n (c1 :: r) with
            | none => none
            | some (kv, r1) =>
              match parseJMems n r1 with
              | none => none
              | some (kvs, r2) => some (.obj (buildObj (kv :: kvs)), r2)
      else
        match parseNumRaw (c :: t) with
        | some (.inl z, r) => some (.int z, r)
        | some (.inr f, r) => some (.float f, r)
        | none => none

def parseJMem : Nat → List Char → Option ((List Char × Value) × List Char)
  | 0, _ => none
  | n+1, s =>
    match skipWs s with
    | [] => none
    | c :: t =>
      if c = '"' then
        match parseStrBody (t.length + 1) t with
        | none => none
        | some (k, r1) =>
          match skipWs r1 with
          | [] => none
          | c2 :: r2 =>
            if c2 = ':' then (parseJV n r2).map fun p => ((k, p.1), p.2)
            else none
      else none

def parseJElems : Nat → List Char → Option (List Value × List Char)
  | 0, _ => none
  | n+1, s =>
    match skipWs s with
    | [] => none
    | c :: t =>
      if c = ']' then some ([], t)
      else if c = ',' then
        match parseJV n t with
        | none => none
        | some (v, r1) =>
          match parseJElems n r1 with
          | none => none
          | some (vs, r2) => some (v :: vs, r2)
      else none

def parseJMems : Nat → List Char → Option (List (List Char × Value) × List Char)
  | 0, _ => none
  | n+1, s =>
    match skipWs s with
    | [] => none
    | c :: t =>
      if c = '\x7d' then some ([], t)
      else if c = ',' then
        match parseJMem n t with
        | none => none
        | some (kv, r1) =>
          match parseJMems n r1 with
          | none => none
          | some (kvs, r2) => some (kv :: kvs, r2)
      else none

end

/-- JSON decode (`serde_json::from_str` targeting a Value): parse one value,
then require only trailing whitespace. -/
def jdecode (s : List Char) : Except (List Char) Value :=
  match parseJV (s.length + 1) s with
  | none => .error ['s', 'y', 'n', 't', 'a', 'x']
  | some (v, rest) =>
    match skipWs rest with
    | [] => .ok v
    | _ => .error ['t', 'r', 'a', 'i', 'l']

/-! ## JSON round-trip -/

theorem vsize_pos (v : Value) : 1 ≤ vsize v := by
  cases v <;> simp [vsize]

theorem lsize_pos (vs : List Value) : 1 ≤ lsize vs := by
  cases vs
  · simp [lsize]
  · simp [lsize]
    omega

theorem msize_pos (kvs : List (List Char × Value)) : 1 ≤ msize kvs := by
  cases kvs with
  | nil => simp [msize]
  | cons kv t =>
    obtain ⟨k, v⟩ := kv
    simp [msize]
    omega

theorem WfV_arr {vs : List Value} (h : WfV (.arr vs)) : ∀ v ∈ vs, WfV v := by
  cases h with
  | arr _ h => exact h

theorem WfV_obj {kvs : List (List Char × Value)} (h : WfV (.obj kvs)) :
    (kvs.map Prod.fst).Nodup ∧ ∀ kv ∈ kvs, WfV kv.2 := by
  cases h with
  | obj _ hnd h => exact ⟨hnd, h⟩

theorem insLWW_fresh {acc : List (List Char × Value)} {k : List Char} {v : Value}
    (h : k ∉ acc.map Prod.fst) : insLWW acc k v = acc ++ [(k, v)] := by
  induction acc with
  | nil => rfl
  | cons kv t ih =>
    simp only [List.map_cons, List.mem_cons] at h
    push_neg at h
    simp only [insLWW]
    rw [if_neg (fun he => h.1 he.symm)]
    rw [ih h.2]
    simp

theorem foldl_insLWW {kvs acc : List (List Char × Value)}
    (hdis : ∀ kv ∈ kvs, kv.1 ∉ acc.map Prod.fst)
    (hnd : (kvs.map Prod.fst).Nodup) :
    kvs.foldl (fun a kv => insLWW a kv.1 kv.2) acc = acc ++ kvs := by
  induction kvs generalizing acc with
  | nil => simp
  | cons kv t ih =>
    obtain ⟨k, v⟩ := kv
    simp only [List.foldl_cons]
    rw [insLWW_fresh (hdis (k, v) (by simp))]
    simp only [List.map_cons, List.nodup_cons] at hnd
    rw [ih]
    · simp
    · intro kv hkv
      simp only [List.map_append, List.map_cons, List.map_nil, List.mem_append,
        List.mem_singleton]
      push_neg
      refine ⟨hdis kv (by simp [hkv]), ?_⟩
      intro he
      exact hnd.1 (he ▸ (List.mem_map_of_mem Prod.fst hkv))
    · exact hnd.2

theorem buildObj_nodup {kvs : List (List Char × Value)}
    (hnd : (kvs.map Prod.fst).Nodup) : buildObj kvs = kvs := by
  unfold buildObj
  rw [foldl_insLWW (by simp) hnd]
  simp

/-- Heads a JSON-encoded value can start with. -/
def jheadOK (c : Char) : Prop :=
  c = 'n' ∨ c = 't' ∨ c = 'f' ∨ c = '"' ∨ c = '[' ∨ c = '\x7b' ∨ c = '-' ∨
    isDigitCh c = true

theorem intChars_head (z : Int) :
    ∃ c t, intChars z = c :: t ∧ (c = '-' ∨ isDigitCh c = true) := by
  by_cases hz : z < 0
  · exact ⟨'-', natChars (-z).toNat, by simp [intChars, hz], Or.inl rfl⟩
  · obtain ⟨c, cs, hcons⟩ : ∃ c cs, natChars z.toNat = c :: cs := by
      cases hnc : natChars z.toNat with
      | nil => exact absurd hnc (natChars_ne_nil _)
      | cons c cs => exact ⟨c, cs, rfl⟩
    refine ⟨c, cs, by simp [intChars, hz, hcons], Or.inr ?_⟩
    have := natChars_digits z.toNat c
    rw [hcons] at this
    exact this (by simp)

theorem floatChars_head (f : JFloat) :
    ∃ c t, floatChars f = c :: t ∧ (c = '-' ∨ isDigitCh c = true) := by
  by_cases hneg : f.neg = true
  · refine ⟨'-', natChars f.ip ++ '.' :: f.frac.map digitChar, ?_, Or.inl rfl⟩
    simp [floatChars, hneg]
  · obtain ⟨c, cs, hcons⟩ : ∃ c cs, natChars f.ip = c :: cs := by
      cases hnc : natChars f.ip with
      | nil => exact absurd hnc (natChars_ne_nil _)
      | cons c cs => exact ⟨c, cs, rfl⟩
    have hnegf : f.neg = false := by simpa using hneg
    refine ⟨c, cs ++ '.' :: f.frac.map digitChar, ?_, Or.inr ?_⟩
    · simp [floatChars, hnegf, hcons]
    · have := natChars_digits f.ip c
      rw [hcons] at this
      exact this (by simp)

theorem jencP_head (i d : Nat) (v : Value) :
    ∃ c t, jencP i d v = c :: t ∧ jheadOK c := by
  cases v with
  | null => exact ⟨'n', _, rfl, Or.inl rfl⟩
  | bool b =>
    cases b with
    | true => exact ⟨'t', _, rfl, Or.inr (Or.inl rfl)⟩
    | false => exact ⟨'f', _, rfl, Or.inr (Or.inr (Or.inl rfl))⟩
  | int z =>
    obtain ⟨c, t, h, hc⟩ := intChars_head z
    refine ⟨c, t, by simp [jencP, h], ?_⟩
    rcases hc with hc | hc
    · exact Or.inr (Or.inr (Or.inr (Or.inr (Or.inr (Or.inr (Or.inl hc))))))
    · exact Or.inr (Or.inr (Or.inr (Or.inr (Or.inr (Or.inr (Or.inr hc))))))
  | float f =>
    obtain ⟨c, t, h, hc⟩ := floatChars_head f
    refine ⟨c, t, by simp [jencP, h], ?_⟩
    rcases hc with hc | hc
    · exact Or.inr (Or.inr (Or.inr (Or.inr (Or.inr (Or.inr (Or.inl hc))))))
    · exact Or.inr (Or.inr (Or.inr (Or.inr (Or.inr (Or.inr (Or.inr hc))))))
  | str s => exact ⟨'"', _, rfl, Or.inr (Or.inr (Or.inr (Or.inl rfl)))⟩
  | arr vs =>
    cases vs with
    | nil => exact ⟨'[', _, rfl, Or.inr (Or.inr (Or.inr (Or.inr (Or.inl rfl))))⟩
    | cons v vs => exact ⟨'[', _, rfl, Or.inr (Or.inr (Or.inr (Or.inr (Or.inl rfl))))⟩
  | obj kvs =>
    cases kvs with
    | nil => exact ⟨'\x7b', _, rfl, Or.inr (Or.inr (Or.inr (Or.inr (Or.inr (Or.inl rfl)))))⟩
    | cons kv kvs =>
      obtain ⟨k, v⟩ := kv
      exact ⟨'\x7b', _, rfl, Or.inr (Or.inr (Or.inr (Or.inr (Or.inr (Or.inl rfl)))))⟩

theorem jheadOK_not_ws {c : Char} (h : jheadOK c) : isWs c = false := by
  rcases h with h | h | h | h | h | h | h | h
  · subst h; decide
  · subst h; decide
  · subst h; decide
  · subst h; decide
  · subst h; decide
  · subst h; decide
  · subst h; decide
  · exact digit_not_ws h

theorem jheadOK_ne {c x : Char} (h : jheadOK c) (hx1 : isDigitCh x = false)
    (hx2 : x ≠ 'n') (hx3 : x ≠ 't') (hx4 : x ≠ 'f') (hx5 : x ≠ '"')
    (hx6 : x ≠ '[') (hx7 : x ≠ '\x7b') (hx8 : x ≠ '-') : c ≠ x := by
  rcases h with h | h | h | h | h | h | h | h
  · subst h; exact fun he => hx2 he.symm
  · subst h; exact fun he => hx3 he.symm
  · subst h; exact fun he => hx4 he.symm
  · subst h; exact fun he => hx5 he.symm
  · subst h; exact fun he => hx6 he.symm
  · subst h; exact fun he => hx7 he.symm
  · subst h; exact fun he => hx8 he.symm
  · exact digit_ne h hx1

theorem ws_numStop {w rest : List Char} {c0 : Char} (hw : ∀ c ∈ w, isWs c = true)
    (h1 : isDigitCh c0 = false) (h2 : c0 ≠ '.') : numStop (w ++ c0 :: rest) := by
  cases w with
  | nil => exact ⟨h1, h2⟩
  | cons c t =>
    have hc := hw c (by simp)
    constructor
    · rcases ws_cases hc with h | h | h | h <;> (subst h; decide)
    · rcases ws_cases hc with h | h | h | h <;> (subst h; decide)

theorem parseJV_skip {n : Nat} {w s : List Char} (hw : ∀ c ∈ w, isWs c = true) :
    parseJV n (w ++ s) = parseJV n s := by
  cases n with
  | zero => rfl
  | succ n =>
    simp only [parseJV]
    rw [skipWs_append hw]

theorem parseJMem_skip {n : Nat} {w s : List Char} (hw : ∀ c ∈ w, isWs c = true) :
    parseJMem n (w ++ s) = parseJMem n s := by
  cases n with
  | zero => rfl
  | succ n =>
    simp only [parseJMem]
    rw [skipWs_append hw]

theorem parseJElems_skip {n : Nat} {w s : List Char} (hw : ∀ c ∈ w, isWs c = true) :
    parseJElems n (w ++ s) = parseJElems n s := by
  cases n with
  | zero => rfl
  | succ n =>
    simp only [parseJElems]
    rw [skipWs_append hw]

theorem parseJMems_skip {n : Nat} {w s : List Char} (hw : ∀ c ∈ w, isWs c = true) :
    parseJMems n (w ++ s) = parseJMems n s := by
  cases n with
  | zero => rfl
  | succ n =>
    simp only [parseJMems]
    rw [skipWs_append hw]

theorem numHead_ne {c x : Char} (hc : c = '-' ∨ isDigitCh c = true)
    (hx1 : x ≠ '-') (hx2 : isDigitCh x = false) : c ≠ x := by
  rcases hc with hc | hc
  · subst hc; exact fun he => hx1 he.symm
  · exact digit_ne hc hx2

theorem numHead_not_ws {c : Char} (hc : c = '-' ∨ isDigitCh c = true) :
    isWs c = false := by
  rcases hc with hc | hc
  · subst hc; decide
  · exact digit_not_ws hc

theorem numHeadOK {c : Char} (hc : c = '-' ∨ isDigitCh c = true) : jheadOK c := by
  rcases hc with hc | hc
  · exact Or.inr (Or.inr (Or.inr (Or.inr (Or.inr (Or.inr (Or.inl hc))))))
  · exact Or.inr (Or.inr (Or.inr (Or.inr (Or.inr (Or.inr (Or.inr hc))))))

theorem numStop_digStop {r : List Char} (h : numStop r) : digStop r := by
  cases r with
  | nil => trivial
  | cons c t => exact h.1

theorem numStop_elems (vs : List Value) (i d : Nat) (w rest : List Char)
    (hw : ∀ c ∈ w, isWs c = true) :
    numStop (jencPElems i d vs ++ (w ++ (']' :: rest))) := by
  cases vs with
  | nil =>
    simp only [jencPElems, List.nil_append]
    exact ws_numStop hw (by decide) (by decide)
  | cons v vs' =>
    simp only [jencPElems, List.cons_append]
    exact ⟨by decide, by decide⟩

theorem numStop_mems (kvs : List (List Char × Value)) (i d : Nat) (w rest : List Char)
    (hw : ∀ c ∈ w, isWs c = true) :
    numStop (jencPMems i d kvs ++ (w ++ ('\x7d' :: rest))) := by
  cases kvs with
  | nil =>
    simp only [jencPMems, List.nil_append]
    exact ws_numStop hw (by decide) (by decide)
  | cons kv kvs' =>
    obtain ⟨k, v⟩ := kv
    simp only [jencPMems, List.cons_append]
    exact ⟨by decide, by decide⟩

theorem dropWhile_ws_replicate (m : Nat) (s : List Char) :
    List.dropWhile isWs (List.replicate m ' ' ++ s) = List.dropWhile isWs s := by
  have := skipWs_append (w := List.replicate m ' ') (s := s) (replicate_ws m)
  simpa [skipWs] using this

theorem parseJ_rt : ∀ n : Nat,
    (∀ v i d rest, WfV v → vsize v ≤ n → numStop rest →
      parseJV n (jencP i d v ++ rest) = some (v, rest)) ∧
    (∀ k v i d rest, WfV v → vsize v + 1 ≤ n → numStop rest →
      parseJMem n (quoteStr k ++ (':' :: ' ' :: (jencP i d v ++ rest))) = some ((k, v), rest)) ∧
    (∀ vs i d w rest, (∀ v ∈ vs, WfV v) → lsize vs ≤ n → (∀ c ∈ w, isWs c = true) →
      parseJElems n (jencPElems i d vs ++ (w ++ (']' :: rest))) = some (vs, rest)) ∧
    (∀ kvs i d w rest, (∀ kv ∈ kvs, WfV kv.2) → msize kvs ≤ n → (∀ c ∈ w, isWs c = true) →
      parseJMems n (jencPMems i d kvs ++ (w ++ ('\x7d' :: rest))) = some (kvs, rest)) := by
  intro n
  induction n using Nat.strong_induction_on with
  | _ n ih =>
  cases n with
  | zero =>
    refine ⟨?_, ?_, ?_, ?_⟩
    · intro v i d rest hwf hsz hstop
      have := vsize_pos v
      omega
    · intro k v i d rest hwf hsz hstop
      have := vsize_pos v
      omega
    · intro vs i d w rest hwf hsz hw
      have := lsize_pos vs
      omega
    · intro kvs i d w rest hwf hsz hw
      have := msize_pos kvs
      omega
  | succ n =>
    obtain ⟨ihv, ihm, ihe, ihms⟩ := ih n (by omega)
    refine ⟨?_, ?_, ?_, ?_⟩
    · -- a single value
      intro v i d rest hwf hsz hstop
      cases v with
      | null =>
        simp only [jencP, List.cons_append, List.nil_append]
        rfl
      | bool b =>
        cases b with
        | false =>
          simp only [jencP, List.cons_append, List.nil_append]
          rfl
        | true =>
          simp only [jencP, List.cons_append, List.nil_append]
          rfl
      | int z =>
        simp only [jencP]
        obtain ⟨c, t, hct, hc⟩ := intChars_head z
        rw [hct, List.cons_append]
        simp only [parseJV]
        rw [skipWs_cons_notWs (numHead_not_ws hc)]
        have h1 : c ≠ 'n' := numHead_ne hc (by decide) (by decide)
        have h2 : c ≠ 't' := numHead_ne hc (by decide) (by decide)
        have h3 : c ≠ 'f' := numHead_ne hc (by decide) (by decide)
        have h4 : c ≠ '"' := numHead_ne hc (by decide) (by decide)
        have h5 : c ≠ '[' := numHead_ne hc (by decide) (by decide)
        have h6 : c ≠ '\x7b' := numHead_ne hc (by decide) (by decide)
        have hnum : parseNumRaw (c :: (t ++ rest)) = some (.inl z, rest) := by
          rw [← List.cons_append, ← hct]
          exact parseNumRaw_int z rest hstop
        simp [h1, h2, h3, h4, h5, h6, hnum]
      | float f =>
        cases hwf with
        | float _ hf =>
        simp only [jencP]
        obtain ⟨c, t, hct, hc⟩ := floatChars_head f
        rw [hct, List.cons_append]
        simp only [parseJV]
        rw [skipWs_cons_notWs (numHead_not_ws hc)]
        have h1 : c ≠ 'n' := numHead_ne hc (by decide) (by decide)
        have h2 : c ≠ 't' := numHead_ne hc (by decide) (by decide)
        have h3 : c ≠ 'f' := numHead_ne hc (by decide) (by decide)
        have h4 : c ≠ '"' := numHead_ne hc (by decide) (by decide)
        have h5 : c ≠ '[' := numHead_ne hc (by decide) (by decide)
        have h6 : c ≠ '\x7b' := numHead_ne hc (by decide) (by decide)
        have hnum : parseNumRaw (c :: (t ++ rest)) = some (.inr f, rest) := by
          rw [← List.cons_append, ← hct]
          exact parseNumRaw_float f rest hf (numStop_digStop hstop)
        simp [h1, h2, h3, h4, h5, h6, hnum]
      | str s =>
        have hstr : parseStrBody ((escStr s).length + (rest.length + 1) + 1)
            (escStr s ++ '"' :: rest) = some (s, rest) :=
          parseStrBody_escStr s _ rest (by have := escStr_length_ge s; omega)
        simp +decide [jencP, quoteStr, parseJV, skipWs, List.dropWhile, isWs, hstr]
      | arr vs =>
        cases vs with
        | nil =>
          simp only [jencP, List.cons_append, List.nil_append]
          rfl
        | cons v vs' =>
          have hl := WfV_arr hwf
          have hwv : WfV v := hl v (by simp)
          have hwvs : ∀ x ∈ vs', WfV x := fun x hx => hl x (by simp [hx])
          have hszv : vsize v ≤ n := by
            simp only [vsize, lsize] at hsz
            have := lsize_pos vs'
            omega
          have hszl : lsize vs' ≤ n := by
            simp only [vsize, lsize] at hsz
            have := vsize_pos v
            omega
          obtain ⟨c1, t1, hv1, hok1⟩ := jencP_head i (d+1) v
          have hc1ws : isWs c1 = false := jheadOK_not_ws hok1
          have hne : c1 ≠ ']' := jheadOK_ne hok1 (by decide) (by decide) (by decide)
            (by decide) (by decide) (by decide) (by decide) (by decide)
          have hstopX : numStop (jencPElems i (d+1) vs' ++
              (('\n' :: List.replicate (i * d) ' ') ++ (']' :: rest))) :=
            numStop_elems vs' i (d+1) _ rest (by
              intro c hc
              cases hc with
              | head => decide
              | tail _ h => exact replicate_ws _ c h)
          have hparse : parseJV n (c1 :: (t1 ++ (jencPElems i (d+1) vs' ++
              (('\n' :: List.replicate (i * d) ' ') ++ (']' :: rest))))) =
              some (v, jencPElems i (d+1) vs' ++
                (('\n' :: List.replicate (i * d) ' ') ++ (']' :: rest))) := by
            rw [← List.cons_append, ← hv1]
            exact ihv v i (d+1) _ hwv hszv hstopX
          have helems : parseJElems n (jencPElems i (d+1) vs' ++
              (('\n' :: List.replicate (i * d) ' ') ++ (']' :: rest))) =
              some (vs', rest) :=
            ihe vs' i (d+1) _ rest hwvs hszl (by
              intro c hc
              cases hc with
              | head => decide
              | tail _ h => exact replicate_ws _ c h)
          simp only [List.cons_append, List.append_assoc] at hparse helems
          simp +decide [jencP, parseJV, skipWs, List.dropWhile,
            dropWhile_ws_replicate, hv1, hc1ws, hne, hparse, helems,
            show isWs '[' = false from rfl, show isWs '\n' = true from rfl]
      | obj kvs =>
        obtain ⟨hnd, hall⟩ := WfV_obj hwf
        cases kvs with
        | nil =>
          simp only [jencP, List.cons_append, List.nil_append]
          rfl
        | cons kv kvs' =>
          obtain ⟨k, v⟩ := kv
          have hwv : WfV v := hall (k, v) (by simp)
          have hwvs : ∀ x ∈ kvs', WfV x.2 := fun x hx => hall x (by simp [hx])
          have hszv : vsize v + 1 ≤ n := by
            simp only [vsize, msize] at hsz
            have := msize_pos kvs'
            omega
          have hszm : msize kvs' ≤ n := by
            simp only [vsize, msize] at hsz
            have := vsize_pos v
            omega
          have hstopX : numStop (jencPMems i (d+1) kvs' ++
              (('\n' :: List.replicate (i * d) ' ') ++ ('\x7d' :: rest))) :=
            numStop_mems kvs' i (d+1) _ rest (by
              intro c hc
              cases hc with
              | head => decide
              | tail _ h => exact replicate_ws _ c h)
          have hmem : parseJMem n (quoteStr k ++ (':' :: ' ' :: (jencP i (d+1) v ++
              (jencPMems i (d+1) kvs' ++
                (('\n' :: List.replicate (i * d) ' ') ++ ('\x7d' :: rest)))))) =
              some ((k, v), jencPMems i (d+1) kvs' ++
                (('\n' :: List.replicate (i * d) ' ') ++ ('\x7d' :: rest))) :=
            ihm k v i (d+1) _ hwv hszv hstopX
          have hmems : parseJMems n (jencPMems i (d+1) kvs' ++
              (('\n' :: List.replicate (i * d) ' ') ++ ('\x7d' :: rest))) =
              some (kvs', rest) :=
            ihms kvs' i (d+1) _ rest hwvs hszm (by
              intro c hc
              cases hc with
              | head => decide
              | tail _ h => exact replicate_ws _ c h)
          have hbo : buildObj ((k, v) :: kvs') = (k, v) :: kvs' := buildObj_nodup hnd
          simp only [quoteStr, List.cons_append, List.nil_append, List.append_assoc] at hmem hmems
          simp +decide [jencP, parseJV, skipWs, List.dropWhile,
            dropWhile_ws_replicate, quoteStr, hmem, hmems, hbo,
            show isWs '\x7b' = false from rfl, show isWs '\n' = true from rfl,
            show isWs '"' = false from rfl]
    · -- a single member
      intro k v i d rest hwf hsz hstop
      have hkey : parseStrBody
          ((escStr k).length + ((jencP i d v).length + rest.length + 3) + 1)
          (escStr k ++ '"' :: (':' :: ' ' :: (jencP i d v ++ rest))) =
          some (k, ':' :: ' ' :: (jencP i d v ++ rest)) :=
        parseStrBody_escStr k _ _ (by have := escStr_length_ge k; omega)
      have hparse : parseJV n (' ' :: (jencP i d v ++ rest)) = some (v, rest) := by
        rw [show (' ' :: (jencP i d v ++ rest)) = [' '] ++ (jencP i d v ++ rest) from rfl]
        rw [parseJV_skip (by intro c hc; simp at hc; subst hc; decide)]
        exact ihv v i d rest hwf (by omega) hstop
      simp only [quoteStr, List.cons_append, List.append_assoc] at hkey ⊢
      simp +decide [parseJMem, skipWs, List.dropWhile, hkey, hparse,
        show isWs '"' = false from rfl, show isWs ':' = false from rfl]
    · -- array elements
      intro vs i d w rest hwf hsz hw
      cases vs with
      | nil =>
        have hws : skipWs (w ++ (']' :: rest)) = ']' :: rest := by
          rw [skipWs_append hw, skipWs_cons_notWs (by decide)]
        simp only [jencPElems, List.nil_append]
        simp +decide [parseJElems, hws]
      | cons v vs' =>
        have hwv : WfV v := hwf v (by simp)
        have hwvs : ∀ x ∈ vs', WfV x := fun x hx => hwf x (by simp [hx])
        have hszv : vsize v ≤ n := by
          simp only [lsize] at hsz
          have := lsize_pos vs'
          omega
        have hszl : lsize vs' ≤ n := by
          simp only [lsize] at hsz
          have := vsize_pos v
          omega
        have hstopX : numStop (jencPElems i d vs' ++ (w ++ (']' :: rest))) :=
          numStop_elems vs' i d w rest hw
        have hparse : parseJV n ('\n' :: (List.replicate (i * d) ' ' ++
            (jencP i d v ++ (jencPElems i d vs' ++ (w ++ (']' :: rest)))))) =
            some (v, jencPElems i d vs' ++ (w ++ (']' :: rest))) := by
          rw [show ('\n' :: (List.replicate (i * d) ' ' ++
              (jencP i d v ++ (jencPElems i d vs' ++ (w ++ (']' :: rest)))))) =
            ('\n' :: List.replicate (i * d) ' ') ++
              (jencP i d v ++ (jencPElems i d vs' ++ (w ++ (']' :: rest)))) by simp]
          rw [parseJV_skip (by
            intro c hc
            cases hc with
            | head => decide
            | tail _ h => exact replicate_ws _ c h)]
          exact ihv v i d _ hwv hszv hstopX
        have helems : parseJElems n (jencPElems i d vs' ++ (w ++ (']' :: rest))) =
            some (vs', rest) := ihe vs' i d w rest hwvs hszl hw
        simp only [List.cons_append, List.append_assoc] at hparse helems
        simp +decide [jencPElems, parseJElems, skipWs, List.dropWhile,
          hparse, helems, show isWs ',' = false from rfl]
    · -- object members
      intro kvs i d w rest hwf hsz hw
      cases kvs with
      | nil =>
        have hws : skipWs (w ++ ('\x7d' :: rest)) = '\x7d' :: rest := by
          rw [skipWs_append hw, skipWs_cons_notWs (by decide)]
        simp only [jencPMems, List.nil_append]
        simp +decide [parseJMems, hws]
      | cons kv kvs' =>
        obtain ⟨k, v⟩ := kv
        have hwv : WfV v := hwf (k, v) (by simp)
        have hwvs : ∀ x ∈ kvs', WfV x.2 := fun x hx => hwf x (by simp [hx])
        have hszv : vsize v + 1 ≤ n := by
          simp only [msize] at hsz
          have := msize_pos kvs'
          omega
        have hszm : msize kvs' ≤ n := by
          simp only [msize] at hsz
          have := vsize_pos v
          omega
        have hstopX : numStop (jencPMems i d kvs' ++ (w ++ ('\x7d' :: rest))) :=
          numStop_mems kvs' i d w rest hw
        have hmem : parseJMem n ('\n' :: (List.replicate (i * d) ' ' ++
            (quoteStr k ++ (':' :: ' ' :: (jencP i d v ++
              (jencPMems i d kvs' ++ (w ++ ('\x7d' :: rest)))))))) =
            some ((k, v), jencPMems i d kvs' ++ (w ++ ('\x7d' :: rest))) := by
          rw [show ('\n' :: (List.replicate (i * d) ' ' ++
              (quoteStr k ++ (':' :: ' ' :: (jencP i d v ++
                (jencPMems i d kvs' ++ (w ++ ('\x7d' :: rest)))))))) =
            ('\n' :: List.replicate (i * d) ' ') ++
              (quoteStr k ++ (':' :: ' ' :: (jencP i d v ++
                (jencPMems i d kvs' ++ (w ++ ('\x7d' :: rest)))))) by simp]
          rw [parseJMem_skip (by
            intro c hc
            cases hc with
            | head => decide
            | tail _ h => exact replicate_ws _ c h)]
          exact ihm k v i d _ hwv hszv hstopX
        have hmems : parseJMems n (jencPMems i d kvs' ++ (w ++ ('\x7d' :: rest))) =
            some (kvs', rest) := ihms kvs' i d w rest hwvs hszm hw
        simp only [quoteStr, List.cons_append, List.nil_append, List.append_assoc] at hmem hmems
        simp +decide [jencPMems, parseJMems, skipWs, List.dropWhile,
          quoteStr, hmem, hmems, show isWs ',' = false from rfl]

theorem jenc_len : ∀ N : Nat,
    (∀ v i d, vsize v ≤ N → vsize v ≤ (jencP i d v).length + 1) ∧
    (∀ vs i d, lsize vs ≤ N → lsize vs ≤ (jencPElems i d vs).length + 1) ∧
    (∀ kvs i d, msize kvs ≤ N → msize kvs ≤ (jencPMems i d kvs).length + 1) := by
  intro N
  induction N using Nat.strong_induction_on with
  | _ N ih =>
  refine ⟨?_, ?_, ?_⟩
  · intro v i d hN
    cases v with
    | null => simp [jencP, vsize]
    | bool b => cases b <;> simp [jencP, vsize]
    | int z => simp [jencP, vsize]
    | float f => simp [jencP, vsize]
    | str s => simp [jencP, vsize, quoteStr]
    | arr vs =>
      cases vs with
      | nil => simp [jencP, vsize, lsize]
      | cons v vs' =>
        have h1 : vsize v ≤ (jencP i (d+1) v).length + 1 := by
          have hlt : vsize v < N := by
            simp only [vsize, lsize] at hN
            have := lsize_pos vs'
            omega
          exact (ih _ hlt).1 v i (d+1) le_rfl
        have h2 : lsize vs' ≤ (jencPElems i (d+1) vs').length + 1 := by
          have hlt : lsize vs' < N := by
            simp only [vsize, lsize] at hN
            have := vsize_pos v
            omega
          exact (ih _ hlt).2.1 vs' i (d+1) le_rfl
        simp only [vsize, lsize, jencP, List.length_cons, List.length_append,
          List.length_replicate]
        omega
    | obj kvs =>
      cases kvs with
      | nil => simp [jencP, vsize, msize]
      | cons kv kvs' =>
        obtain ⟨k, v⟩ := kv
        have h1 : vsize v ≤ (jencP i (d+1) v).length + 1 := by
          have hlt : vsize v < N := by
            simp only [vsize, msize] at hN
            have := msize_pos kvs'
            omega
          exact (ih _ hlt).1 v i (d+1) le_rfl
        have h2 : msize kvs' ≤ (jencPMems i (d+1) kvs').length + 1 := by
          have hlt : msize kvs' < N := by
            simp only [vsize, msize] at hN
            have := vsize_pos v
            omega
          exact (ih _ hlt).2.2 kvs' i (d+1) le_rfl
        simp only [vsize, msize, jencP, quoteStr, List.length_cons, List.length_append,
          List.length_replicate]
        omega
  · intro vs i d hN
    cases vs with
    | nil => simp [jencPElems, lsize]
    | cons v vs' =>
      have h1 : vsize v ≤ (jencP i d v).length + 1 := by
        have hlt : vsize v < N := by
          simp only [lsize] at hN
          have := lsize_pos vs'
          omega
        exact (ih _ hlt).1 v i d le_rfl
      have h2 : lsize vs' ≤ (jencPElems i d vs').length + 1 := by
        have hlt : lsize vs' < N := by
          simp only [lsize] at hN
          have := vsize_pos v
          omega
        exact (ih _ hlt).2.1 vs' i d le_rfl
      simp only [lsize, jencPElems, List.length_cons, List.length_append,
        List.length_replicate]
      omega
  · intro kvs i d hN
    cases kvs with
    | nil => simp [jencPMems, msize]
    | cons kv kvs' =>
      obtain ⟨k, v⟩ := kv
      have h1 : vsize v ≤ (jencP i d v).length + 1 := by
        have hlt : vsize v < N := by
          simp only [msize] at hN
          have := msize_pos kvs'
          omega
        exact (ih _ hlt).1 v i d le_rfl
      have h2 : msize kvs' ≤ (jencPMems i d kvs').length + 1 := by
        have hlt : msize kvs' < N := by
          simp only [msize] at hN
          have := vsize_pos v
          omega
        exact (ih _ hlt).2.2 kvs' i d le_rfl
      simp only [msize, jencPMems, quoteStr, List.length_cons, List.length_append,
        List.length_replicate]
      omega

/-- Same-format JSON round trip: decoding a pretty-encoded value returns it. -/
theorem jdecode_jencP (i : Nat) (v : Value) (hwf : WfV v) :
    jdecode (jencP i 0 v) = .ok v := by
  have hlen : vsize v ≤ (jencP i 0 v).length + 1 := (jenc_len (vsize v)).1 v i 0 le_rfl
  have hrt := (parseJ_rt ((jencP i 0 v).length + 1)).1 v i 0 [] hwf (by omega) trivial
  rw [List.append_nil] at hrt
  simp [jdecode, hrt, skipWs]

theorem digitVal_lt {c : Char} (h : isDigitCh c = true) : digitVal c < 10 := by
  have h48 : 48 ≤ c.toNat ∧ c.toNat ≤ 57 := by
    simp only [isDigitCh, Bool.and_eq_true, decide_eq_true_eq, Char.le_def,
      UInt32.le_def, BitVec.le_def] at h
    exact h
  simp only [digitVal]
  omega

theorem frac_map_wf {fs : List Char} (hne : ¬ fs.isEmpty = true)
    (hdig : ∀ c ∈ fs, isDigitCh c = true) :
    (!(fs.map digitVal).isEmpty && (fs.map digitVal).all (fun d => d < 10)) = true := by
  cases fs with
  | nil => exact absurd rfl hne
  | cons c t =>
    simp only [List.map_cons, List.isEmpty_cons, Bool.not_false, Bool.true_and, List.all_cons,
      Bool.and_eq_true, decide_eq_true_eq]
    refine ⟨digitVal_lt (hdig c (by simp)), ?_⟩
    rw [List.all_eq_true]
    intro d hd
    rw [List.mem_map] at hd
    obtain ⟨ch, hch, hchd⟩ := hd
    subst hchd
    simp only [decide_eq_true_eq]
    exact digitVal_lt (hdig ch (by simp [hch]))

theorem parseNumRaw_float_wf {s : List Char} {f : JFloat} {r : List Char}
    (h : parseNumRaw s = some (.inr f, r)) : floatWF f = true := by
  unfold parseNumRaw at h
  cases s with
  | nil => cases h
  | cons c t =>
    simp only at h
    split at h <;>
    · split at h
      · cases h
      · split at h
        · exact absurd h (by simp)
        · split at h
          · split at h
            · cases h
            · rename_i hfs
              simp only [Option.some.injEq, Prod.mk.injEq, Sum.inr.injEq] at h
              obtain ⟨hf, hr⟩ := h
              subst hf
              have := frac_map_wf hfs (fun c hc => List.mem_takeWhile_imp hc)
              simpa [floatWF] using this
          · exact absurd h (by simp)

theorem insLWW_mem {acc : List (List Char × Value)} {k : List Char} {v : Value}
    {kv : List Char × Value} (h : kv ∈ insLWW acc k v) : kv ∈ acc ∨ kv = (k, v) := by
  induction acc with
  | nil =>
    simp only [insLWW, List.mem_singleton] at h
    exact Or.inr h
  | cons kv0 t ih =>
    simp only [insLWW] at h
    split at h
    · rcases List.mem_cons.mp h with h | h
      · exact Or.inr h
      · exact Or.inl (List.mem_cons_of_mem _ h)
    · rcases List.mem_cons.mp h with h | h
      · exact Or.inl (h ▸ List.mem_cons_self _ _)
      · rcases ih h with h | h
        · exact Or.inl (List.mem_cons_of_mem _ h)
        · exact Or.inr h

theorem insLWW_keys_sub {acc : List (List Char × Value)} {k : List Char} {v : Value}
    {x : List Char} (h : x ∈ (insLWW acc k v).map Prod.fst) :
    x ∈ acc.map Prod.fst ∨ x = k := by
  rw [List.mem_map] at h
  obtain ⟨kv, hkv, hx⟩ := h
  subst hx
  rcases insLWW_mem hkv with h | h
  · exact Or.inl (List.mem_map_of_mem _ h)
  · exact Or.inr (by rw [h])

theorem insLWW_keys_nodup {acc : List (List Char × Value)} {k : List Char} {v : Value}
    (h : (acc.map Prod.fst).Nodup) : ((insLWW acc k v).map Prod.fst).Nodup := by
  induction acc with
  | nil => simp [insLWW]
  | cons kv0 t ih =>
    simp only [List.map_cons, List.nodup_cons] at h
    simp only [insLWW]
    split
    · next heq =>
      simp only [List.map_cons, List.nodup_cons]
      exact ⟨heq ▸ h.1, h.2⟩
    · next hne =>
      simp only [List.map_cons, List.nodup_cons]
      refine ⟨fun hmem => ?_, ih h.2⟩
      rcases insLWW_keys_sub hmem with hm | hm
      · exact h.1 hm
      · exact hne (hm ▸ rfl)

theorem insLWW_vals_wf {acc : List (List Char × Value)} {k : List Char} {v : Value}
    (hacc : ∀ kv ∈ acc, WfV kv.2) (hv : WfV v) :
    ∀ kv ∈ insLWW acc k v, WfV kv.2 := by
  intro kv hkv
  rcases insLWW_mem hkv with h | h
  · exact hacc kv h
  · rw [h]
    exact hv

theorem buildObj_fold_wf : ∀ (kvs acc : List (List Char × Value)),
    (∀ kv ∈ kvs, WfV kv.2) → (acc.map Prod.fst).Nodup → (∀ kv ∈ acc, WfV kv.2) →
    ((kvs.foldl (fun a kv => insLWW a kv.1 kv.2) acc).map Prod.fst).Nodup ∧
    ∀ kv ∈ kvs.foldl (fun a kv => insLWW a kv.1 kv.2) acc, WfV kv.2 := by
  intro kvs
  induction kvs with
  | nil =>
    intro acc _ h1 h2
    exact ⟨h1, h2⟩
  | cons kv t ih =>
    intro acc hall h1 h2
    simp only [List.foldl_cons]
    exact ih _ (fun x hx => hall x (by simp [hx])) (insLWW_keys_nodup h1)
      (insLWW_vals_wf h2 (hall kv (by simp)))

theorem buildObj_wf {kvs : List (List Char × Value)} (hall : ∀ kv ∈ kvs, WfV kv.2) :
    ((buildObj kvs).map Prod.fst).Nodup ∧ ∀ kv ∈ buildObj kvs, WfV kv.2 :=
  buildObj_fold_wf kvs [] hall (by simp) (by simp)

theorem parseJ_wf : ∀ n : Nat,
    (∀ s v rest, parseJV n s = some (v, rest) → WfV v) ∧
    (∀ s kv rest, parseJMem n s = some (kv, rest) → WfV kv.2) ∧
    (∀ s vs rest, parseJElems n s = some (vs, rest) → ∀ v ∈ vs, WfV v) ∧
    (∀ s kvs rest, parseJMems n s = some (kvs, rest) → ∀ kv ∈ kvs, WfV kv.2) := by
  intro n
  induction n using Nat.strong_induction_on with
  | _ n ih =>
  cases n with
  | zero =>
    refine ⟨?_, ?_, ?_, ?_⟩ <;> (intro s x rest h; cases h)
  | succ n =>
    obtain ⟨ihv, ihm, ihe, ihms⟩ := ih n (by omega)
    refine ⟨?_, ?_, ?_, ?_⟩
    · intro s v rest h
      simp only [parseJV] at h
      split at h
      · cases h
      · split at h
        · split at h
          · simp only [Option.some.injEq, Prod.mk.injEq] at h
            rw [← h.1]
            exact WfV.null
          · cases h
        · split at h
          · split at h
            · simp only [Option.some.injEq, Prod.mk.injEq] at h
              rw [← h.1]
              exact WfV.bool _
            · cases h
          · split at h
            · split at h
              · simp only [Option.some.injEq, Prod.mk.injEq] at h
                rw [← h.1]
                exact WfV.bool _
              · cases h
            · split at h
              · rw [Option.map_eq_some'] at h
                obtain ⟨p, hp, hmap⟩ := h
                injection hmap with h1 h2
                rw [← h1]
                exact WfV.str _
              · split at h
                · split at h
                  · cases h
                  · split at h
                    · simp only [Option.some.injEq, Prod.mk.injEq] at h
                      rw [← h.1]
                      exact WfV.arr [] (by simp)
                    · split at h
                      · cases h
                      · split at h
                        · cases h
                        · simp only [Option.some.injEq, Prod.mk.injEq] at h
                          rw [← h.1]
                          refine WfV.arr _ ?_
                          intro x hx
                          rcases List.mem_cons.mp hx with hx | hx
                          · subst hx
                            exact ihv _ _ _ (by assumption)
                          · exact ihe _ _ _ (by assumption) x hx
                · split at h
                  · split at h
                    · cases h
                    · split at h
                      · simp only [Option.some.injEq, Prod.mk.injEq] at h
                        rw [← h.1]
                        exact WfV.obj [] (by simp) (by simp)
                      · split at h
                        · cases h
                        · split at h
                          · cases h
                          · simp only [Option.some.injEq, Prod.mk.injEq] at h
                            rw [← h.1]
                            refine WfV.obj _ (buildObj_wf ?_).1 (buildObj_wf ?_).2 <;>
                              (intro x hx
                               rcases List.mem_cons.mp hx with hx | hx
                               · subst hx
                                 exact ihm _ _ _ (by assumption)
                               · exact ihms _ _ _ (by assumption) x hx)
                  · split at h
                    · simp only [Option.some.injEq, Prod.mk.injEq] at h
                      rw [← h.1]
                      exact WfV.int _
                    · simp only [Option.some.injEq, Prod.mk.injEq] at h
                      rw [← h.1]
                      exact WfV.float _ (parseNumRaw_float_wf (by assumption))
                    · cases h
    · intro s kv rest h
      simp only [parseJMem] at h
      split at h
      · cases h
      · split at h
        · split at h
          · cases h
          · split at h
            · cases h
            · split at h
              · rw [Option.map_eq_some'] at h
                obtain ⟨p, hp, hmap⟩ := h
                injection hmap with h1 h2
                rw [← h1]
                exact ihv _ _ _ hp
              · cases h
        · cases h
    · intro s vs rest h
      simp only [parseJElems] at h
      split at h
      · cases h
      · split at h
        · simp only [Option.some.injEq, Prod.mk.injEq] at h
          rw [← h.1]
          simp
        · split at h
          · split at h
            · cases h
            · split at h
              · cases h
              · simp only [Option.some.injEq, Prod.mk.injEq] at h
                rw [← h.1]
                intro x hx
                rcases List.mem_cons.mp hx with hx | hx
                · subst hx
                  exact ihv _ _ _ (by assumption)
                · exact ihe _ _ _ (by assumption) x hx
          · cases h
    · intro s kvs rest h
      simp only [parseJMems] at h
      split at h
      · cases h
      · split at h
        · simp only [Option.some.injEq, Prod.mk.injEq] at h
          rw [← h.1]
          simp
        · split at h
          · split at h
            · cases h
            · split at h
              · cases h
              · simp only [Option.some.injEq, Prod.mk.injEq] at h
                rw [← h.1]
                intro x hx
                rcases List.mem_cons.mp hx with hx | hx
                · subst hx
                  exact ihm _ _ _ (by assumption)
                · exact ihms _ _ _ (by assumption) x hx
          · cases h

/-! ## The TOML codec

Modelled from the spec: the `toml` crate (not part of the repository).  The
TOML-native tree mirrors the Value model minus Null (TOML has no null);
datetimes are out of scope of the Value pivot.  Compact encoding renders
nested tables inline; pretty encoding renders the top level's table-valued
keys as multi-line `[section]` tables (spec §4.3: "Pretty vs compact
controls inline-table vs multi-line table rendering"). -/

/-- The TOML-native value tree. -/
inductive TValue where
  | bool (b : Bool)
  | int (n : Int)
  | float (f : JFloat)
  | str (s : List Char)
  | array (vs : List TValue)
  | table (kvs : List (List Char × TValue))

/-- A Value containing Null somewhere: no TOML representation exists. -/
inductive ContainsNull : Value → Prop
  | here : ContainsNull .null
  | arr {v : Value} {vs : List Value} (hv : v ∈ vs) (h : ContainsNull v) :
      ContainsNull (.arr vs)
  | obj {kv : List Char × Value} {kvs : List (List Char × Value)} (hkv : kv ∈ kvs)
      (h : ContainsNull kv.2) : ContainsNull (.obj kvs)

mutual

/-- Bridge a Value into the TOML tree (the `serde_json` → `toml::Value`
deserialization step of the code); Null has no TOML counterpart and fails. -/
def jsonToToml : Value → Except (List Char) TValue
  | .null => .error ['n', 'u', 'l', 'l']
  | .bool b => .ok (.bool b)
  | .int n => .ok (.int n)
  | .float f => .ok (.float f)
  | .str s => .ok (.str s)
  | .arr vs =>
    match jsonToTomlL vs with
    | .error e => .error e
    | .ok tvs => .ok (.array tvs)
  | .obj kvs =>
    match jsonToTomlM kvs with
    | .error e => .error e
    | .ok tkvs => .ok (.table tkvs)

def jsonToTomlL : List Value → Except (List Char) (List TValue)
  | [] => .ok []
  | v :: vs =>
    match jsonToToml v with
    | .error e => .error e
    | .ok tv =>
      match jsonToTomlL vs with
      | .error e => .error e
      | .ok tvs => .ok (tv :: tvs)

def jsonToTomlM : List (List Char × Value) → Except (List Char) (List (List Char × TValue))
  | [] => .ok []
  | (k, v) :: kvs =>
    match jsonToToml v with
    | .error e => .error e
    | .ok tv =>
      match jsonToTomlM kvs with
      | .error e => .error e
      | .ok tkvs => .ok ((k, tv) :: tkvs)

end

mutual

/-- Map the TOML tree back into the Value model (`serde_json::to_value`). -/
def tomlToJson : TValue → Value
  | .bool b => .bool b
  | .int n => .int n
  | .float f => .float f
  | .str s => .str s
  | .array vs => .arr (tomlToJsonL vs)
  | .table kvs => .obj (tomlToJsonM kvs)

def tomlToJsonL : List TValue → List Value
  | [] => []
  | v :: vs => tomlToJson v :: tomlToJsonL vs

def tomlToJsonM : List (List Char × TValue) → List (List Char × Value)
  | [] => []
  | (k, v) :: kvs => (k, tomlToJson v) :: tomlToJsonM kvs

end

/-- Well-formed TOML tree: floats carry digit strings, table keys unique. -/
inductive TWf : TValue → Prop
  | bool (b : Bool) : TWf (.bool b)
  | int (n : Int) : TWf (.int n)
  | float (f : JFloat) (h : floatWF f = true) : TWf (.float f)
  | str (s : List Char) : TWf (.str s)
  | array (vs : List TValue) (h : ∀ v ∈ vs, TWf v) : TWf (.array vs)
  | table (kvs : List (List Char × TValue)) (hnd : (kvs.map Prod.fst).Nodup)
      (h : ∀ kv ∈ kvs, TWf kv.2) : TWf (.table kvs)

/-- Characters allowed in a bare TOML key. -/
def isBareKeyChar (c : Char) : Bool :=
  ('A' ≤ c && c ≤ 'Z') || ('a' ≤ c && c ≤ 'z') || isDigitCh c || c = '_' || c = '-'

/-- Render a key: bare when possible, else a quoted string. -/
def tkeyChars (k : List Char) : List Char :=
  if !k.isEmpty && k.all isBareKeyChar then k else quoteStr k

mutual

/-- Inline TOML rendering of a value. -/
def tinline : TValue → List Char
  | .bool true => ['t', 'r', 'u', 'e']
  | .bool false => ['f', 'a', 'l', 's', 'e']
  | .int n => intChars n
  | .float f => floatChars f
  | .str s => quoteStr s
  | .array [] => ['[', ']']
  | .array (v :: vs) => '[' :: (tinline v ++ (tinlineArr vs ++ [']']))
  | .table [] => ['\x7b', '\x7d']
  | .table ((k, v) :: kvs) =>
    '\x7b' :: (tkeyChars k ++ (' ' :: '=' :: ' ' :: (tinline v ++ (tinlineMems kvs ++ ['\x7d']))))

def tinlineArr : List TValue → List Char
  | [] => []
  | v :: vs => ',' :: ' ' :: (tinline v ++ tinlineArr vs)

def tinlineMems : List (List Char × TValue) → List Char
  | [] => []
  | (k, v) :: kvs =>
    ',' :: ' ' :: (tkeyChars k ++ (' ' :: '=' :: ' ' :: (tinline v ++ tinlineMems kvs)))

end

/-- One `key = value` line per entry. -/
def tserCLines : List (List Char × TValue) → List (List Char)
  | [] => []
  | (k, v) :: kvs => (tkeyChars k ++ (' ' :: '=' :: ' ' :: tinline v)) :: tserCLines kvs

/-- Render lines, each terminated by a newline. -/
def renderLines (ls : List (List Char)) : List Char :=
  ls.foldr (fun l acc => l ++ '\n' :: acc) []

/-- Compact TOML serialization (`toml::to_string`): requires a table root;
every entry rendered inline on one `key = value` line. -/
def tserC : TValue → Except (List Char) (List Char)
  | .table kvs => .ok (renderLines (tserCLines kvs))
  | _ => .error ['r', 'o', 'o', 't']

/-- Is this TOML value a table? -/
def isTTable : TValue → Bool
  | .table _ => true
  | _ => false

/-- Entry lines of one section body. -/
def tsectionBody : TValue → List (List Char)
  | .table kvs => tserCLines kvs
  | _ => []

/-- Pretty TOML serialization (`toml::to_string_pretty`): requires a table
root; non-table entries first as `key = value` lines, then each table-valued
entry as a `[key]` section followed by its entries. -/
def tserP : TValue → Except (List Char) (List Char)
  | .table kvs =>
    .ok (renderLines (tserCLines (kvs.filter fun kv => !isTTable kv.2) ++
      (kvs.filter fun kv => isTTable kv.2).flatMap fun kv =>
        ('[' :: (tkeyChars kv.1 ++ [']'])) :: tsectionBody kv.2))
  | _ => .error ['r', 'o', 'o', 't']

/-- Drop leading spaces (inline TOML whitespace). -/
def skipSp (s : List Char) : List Char := s.dropWhile (fun c => c = ' ')

/-- Split a character list on newlines. -/
def splitNl : List Char → List (List Char)
  | [] => [[]]
  | c :: t =>
    if c = '\n' then [] :: splitNl t
    else
      match splitNl t with
      | [] => [[c]]
      | l :: ls => (c :: l) :: ls

/-- Parse a TOML key: quoted string or nonempty bare-character run. -/
def parseTKey (s : List Char) : Option (List Char × List Char) :=
  match s with
  | [] => none
  | c :: t =>
    if c = '"' then parseStrBody (t.length + 1) t
    else
      let bare := s.takeWhile isBareKeyChar
      if bare.isEmpty then none else some (bare, s.dropWhile isBareKeyChar)

mutual

/-- Parse one inline TOML value. -/
def parseTVal : Nat → List Char → Option (TValue × List Char)
  | 0, _ => none
  | n+1, s =>
    match s with
    | [] => none
    | c :: t =>
      if c = 't' then
        match t with
        | 'r' :: 'u' :: 'e' :: r => some (.bool true, r)
        | _ => none
      else if c = 'f' then
        match t with
        | 'a' :: 'l' :: 's' :: 'e' :: r => some (.bool false, r)
        | _ => none
      else if c = '"' then
        (parseStrBody (t.length + 1) t).map fun p => (.str p.1, p.2)
      else if c = '[' then
        match skipSp t with
        | [] => none
        | c1 :: r =>
          if c1 = ']' then some (.array [], r)
          else
            match parseTVal n (c1 :: r) with
            | none => none
            | some (v, r1) =>
              match parseTArr n r1 with
              | none => none
              | some (vs, r2) => some (.array (v :: vs), r2)
      else if c = '\x7b' then
        match skipSp t with
        | [] => none
        | c1 :: r =>
          if c1 = '\x7d' then some (.table [], r)
          else
            match parseTMem n (c1 :: r) with
            | none => none
            | some (kv, r1) =>
              match parseTMems n r1 with
              | none => none
              | some (kvs, r2) =>
                if kv.1 ∈ kvs.map Prod.fst then none
                else some (.table (kv :: kvs), r2)
      else
        match parseNumRaw (c :: t) with
        | some (.inl z, r) => some (.int z, r)
        | some (.inr f, r) => some (.float f, r)
        | none => none

/-- Parse one `key = value` pair inside an inline table. -/
def parseTMem : Nat → List Char → Option ((List Char × TValue) × List Char)
  | 0, _ => none
  | n+1, s =>
    match parseTKey s with
    | none => none
    | some (k, r1) =>
      match skipSp r1 with
      | [] => none
      | c2 :: r2 =>
        if c2 = '=' then
          match parseTVal n (skipSp r2) with
          | none => none
          | some (v, r3) => some ((k, v), r3)
        else none

/-- Parse the remaining elements of an inline array. -/
def parseTArr : Nat → List Char → Option (List TValue × List Char)
  | 0, _ => none
  | n+1, s =>
    match skipSp s with
    | [] => none
    | c :: t =>
      if c = ']' then some ([], t)
      else if c = ',' then
        match parseTVal n (skipSp t) with
        | none => none
        | some (v, r1) =>
          match parseTArr n r1 with
          | none => none
          | some (vs, r2) => some (v :: vs, r2)
      else none

/-- Parse the remaining members of an inline table, rejecting duplicates. -/
def parseTMems : Nat → List Char → Option (List (List Char × TValue) × List Char)
  | 0, _ => none
  | n+1, s =>
    match skipSp s with
    | [] => none
    | c :: t =>
      if c = '\x7d' then some ([], t)
      else if c = ',' then
        match parseTMem n (skipSp t) with
        | none => none
        | some (kv, r1) =>
          match parseTMems n r1 with
          | none => none
          | some (kvs, r2) =>
            if kv.1 ∈ kvs.map Prod.fst then none
            else some (kv :: kvs, r2)
      else none

end

/-- Parse one full `key = value` line. -/
def parseEntryLine (l : List Char) : Option (List Char × TValue) :=
  match parseTMem (l.length + 1) l with
  | none => none
  | some (kv, r) => if (skipSp r).isEmpty then some kv else none

/-- A `[section]` header line. -/
def isSectionLine : List Char → Bool
  | [] => false
  | c :: _ => c = '['

/-- Parse consecutive `key = value` lines, rejecting duplicate keys. -/
def parseEntryLines : List (List Char) → Option (List (List Char × TValue))
  | [] => some []
  | l :: ls =>
    match parseEntryLine l with
    | none => none
    | some kv =>
      match parseEntryLines ls with
      | none => none
      | some kvs =>
        if kv.1 ∈ kvs.map Prod.fst then none else some (kv :: kvs)

/-- Parse `[section]` headers, each followed by its entry lines. -/
def parseSections : Nat → List (List Char) → Option (List (List Char × TValue))
  | 0, _ => none
  | _+1, [] => some []
  | n+1, l :: ls =>
    match l with
    | '[' :: r =>
      match parseTKey r with
      | none => none
      | some (k, r1) =>
        match skipSp r1 with
        | ']' :: r2 =>
          if (skipSp r2).isEmpty then
            match parseEntryLines (ls.takeWhile fun l => !isSectionLine l) with
            | none => none
            | some kvs2 =>
              match parseSections n (ls.dropWhile fun l => !isSectionLine l) with
              | none => none
              | some skvs => some ((k, .table kvs2) :: skvs)
          else none
        | _ => none
    | _ => none

/-- TOML document decode (`toml::from_str`): leading `key = value` lines,
then `[section]` tables; the empty document is the empty table. -/
def tdecode (s : List Char) : Except (List Char) TValue :=
  let ls := (splitNl s).filter fun l => !l.isEmpty
  match parseEntryLines (ls.takeWhile fun l => !isSectionLine l) with
  | none => .error ['e', 'n', 't', 'r', 'y']
  | some kvs =>
    match parseSections (ls.length + 1) (ls.dropWhile fun l => !isSectionLine l) with
    | none => .error ['s', 'e', 'c', 't']
    | some skvs =>
      if ((kvs ++ skvs).map Prod.fst).Nodup then .ok (.table (kvs ++ skvs))
      else .error ['d', 'u', 'p']

/-! ## TOML round-trip -/

mutual

/-- Parser fuel consumed by an inline TOML value. -/
def tsize : TValue → Nat
  | .array vs => 1 + tlsize vs
  | .table kvs => 1 + tmsize kvs
  | _ => 1

def tlsize : List TValue → Nat
  | [] => 1
  | v :: vs => 1 + max (tsize v) (tlsize vs)

def tmsize : List (List Char × TValue) → Nat
  | [] => 1
  | (k, v) :: kvs => 1 + max (tsize v + 1) (tmsize kvs)

end

theorem tsize_pos (v : TValue) : 1 ≤ tsize v := by
  cases v <;> simp [tsize]

theorem tlsize_pos (vs : List TValue) : 1 ≤ tlsize vs := by
  cases vs <;> simp [tlsize]

theorem tmsize_pos (kvs : List (List Char × TValue)) : 1 ≤ tmsize kvs := by
  cases kvs with
  | nil => simp [tmsize]
  | cons kv t =>
    obtain ⟨k, v⟩ := kv
    simp [tmsize]

theorem TWf_array {vs : List TValue} (h : TWf (.array vs)) : ∀ v ∈ vs, TWf v := by
  cases h with
  | array _ h => exact h

theorem TWf_table {kvs : List (List Char × TValue)} (h : TWf (.table kvs)) :
    (kvs.map Prod.fst).Nodup ∧ ∀ kv ∈ kvs, TWf kv.2 := by
  cases h with
  | table _ hnd h => exact ⟨hnd, h⟩

/-- Heads an inline TOML encoding can start with. -/
def theadOK (c : Char) : Prop :=
  c = 't' ∨ c = 'f' ∨ c = '"' ∨ c = '[' ∨ c = '\x7b' ∨ c = '-' ∨ isDigitCh c = true

theorem tkeyChars_head (k : List Char) :
    ∃ c t, tkeyChars k = c :: t ∧ (c = '"' ∨ isBareKeyChar c = true) := by
  unfold tkeyChars
  split
  · next h =>
    simp only [Bool.and_eq_true, Bool.not_eq_true', List.isEmpty_eq_false] at h
    cases k with
    | nil => exact absurd rfl h.1
    | cons c t =>
      refine ⟨c, t, rfl, Or.inr ?_⟩
      have := h.2
      rw [List.all_cons, Bool.and_eq_true] at this
      exact this.1
  · exact ⟨'"', _, rfl, Or.inl rfl⟩

theorem tinline_head (v : TValue) :
    ∃ c t, tinline v = c :: t ∧ theadOK c := by
  cases v with
  | bool b =>
    cases b with
    | true => exact ⟨'t', _, rfl, Or.inl rfl⟩
    | false => exact ⟨'f', _, rfl, Or.inr (Or.inl rfl)⟩
  | int z =>
    obtain ⟨c, t, h, hc⟩ := intChars_head z
    refine ⟨c, t, by simp [tinline, h], ?_⟩
    rcases hc with hc | hc
    · exact Or.inr (Or.inr (Or.inr (Or.inr (Or.inr (Or.inl hc)))))
    · exact Or.inr (Or.inr (Or.inr (Or.inr (Or.inr (Or.inr hc)))))
  | float f =>
    obtain ⟨c, t, h, hc⟩ := floatChars_head f
    refine ⟨c, t, by simp [tinline, h], ?_⟩
    rcases hc with hc | hc
    · exact Or.inr (Or.inr (Or.inr (Or.inr (Or.inr (Or.inl hc)))))
    · exact Or.inr (Or.inr (Or.inr (Or.inr (Or.inr (Or.inr hc)))))
  | str s => exact ⟨'"', _, rfl, Or.inr (Or.inr (Or.inl rfl))⟩
  | array vs =>
    cases vs with
    | nil => exact ⟨'[', _, rfl, Or.inr (Or.inr (Or.inr (Or.inl rfl)))⟩
    | cons v vs => exact ⟨'[', _, rfl, Or.inr (Or.inr (Or.inr (Or.inl rfl)))⟩
  | table kvs =>
    cases kvs with
    | nil => exact ⟨'\x7b', _, rfl, Or.inr (Or.inr (Or.inr (Or.inr (Or.inl rfl))))⟩
    | cons kv kvs =>
      obtain ⟨k, v⟩ := kv
      exact ⟨'\x7b', _, rfl, Or.inr (Or.inr (Or.inr (Or.inr (Or.inl rfl))))⟩

theorem theadOK_ne {c x : Char} (h : theadOK c) (hx1 : isDigitCh x = false)
    (hx2 : x ≠ 't') (hx3 : x ≠ 'f') (hx4 : x ≠ '"') (hx5 : x ≠ '[')
    (hx6 : x ≠ '\x7b') (hx7 : x ≠ '-') : c ≠ x := by
  rcases h with h | h | h | h | h | h | h
  · subst h; exact fun he => hx2 he.symm
  · subst h; exact fun he => hx3 he.symm
  · subst h; exact fun he => hx4 he.symm
  · subst h; exact fun he => hx5 he.symm
  · subst h; exact fun he => hx6 he.symm
  · subst h; exact fun he => hx7 he.symm
  · exact digit_ne h hx1

theorem theadOK_not_sp {c : Char} (h : theadOK c) : (c = ' ') = False := by
  simp only [eq_iff_iff, iff_false]
  rcases h with h | h | h | h | h | h | h
  · subst h; decide
  · subst h; decide
  · subst h; decide
  · subst h; decide
  · subst h; decide
  · subst h; decide
  · exact digit_ne h (by decide)

theorem skipSp_cons_notSp {c : Char} {t : List Char} (h : ¬ c = ' ') :
    skipSp (c :: t) = c :: t := by
  simp [skipSp, List.dropWhile, h]

theorem bare_not_quote {c : Char} (h : isBareKeyChar c = true) : c ≠ '"' := by
  intro hc
  subst hc
  exact absurd h (by decide)

theorem parseTKey_rt (k rest : List Char) (hr : headNot isBareKeyChar rest) :
    parseTKey (tkeyChars k ++ rest) = some (k, rest) := by
  unfold tkeyChars
  split
  · next h =>
    simp only [Bool.and_eq_true, Bool.not_eq_true', List.isEmpty_eq_false] at h
    have hall : ∀ c ∈ k, isBareKeyChar c = true := by
      intro c hc
      have := h.2
      rw [List.all_eq_true] at this
      exact this c hc
    obtain ⟨c, t, hct⟩ : ∃ c t, k = c :: t := by
      cases k with
      | nil => exact absurd rfl h.1
      | cons c t => exact ⟨c, t, rfl⟩
    have hcb : isBareKeyChar c = true := hall c (by rw [hct]; simp)
    have hspan := @takeWhile_all_append isBareKeyChar k rest hall hr
    rw [hct] at hspan ⊢
    simp only [List.cons_append] at hspan ⊢
    have hcq : ¬ c = '"' := bare_not_quote hcb
    simp [parseTKey, hcq, hspan.1, hspan.2]
  · simp only [quoteStr, List.cons_append, List.nil_append, List.append_assoc]
    have hstr : parseStrBody ((escStr k ++ '"' :: rest).length + 1)
        (escStr k ++ '"' :: rest) = some (k, rest) :=
      parseStrBody_escStr k _ rest (by
        have := escStr_length_ge k
        simp only [List.length_append, List.length_cons]
        omega)
    simp only [List.length_append, List.length_cons] at hstr
    simp [parseTKey, hstr]

theorem numStop_tarr (vs : List TValue) (rest : List Char) :
    numStop (tinlineArr vs ++ (']' :: rest)) := by
  cases vs with
  | nil => exact ⟨by decide, by decide⟩
  | cons v vs' => exact ⟨by decide, by decide⟩

theorem numStop_tmems (kvs : List (List Char × TValue)) (rest : List Char) :
    numStop (tinlineMems kvs ++ ('\x7d' :: rest)) := by
  cases kvs with
  | nil => exact ⟨by decide, by decide⟩
  | cons kv kvs' =>
    obtain ⟨k, v⟩ := kv
    exact ⟨by decide, by decide⟩

theorem parseT_rt : ∀ n : Nat,
    (∀ v rest, TWf v → tsize v ≤ n → numStop rest →
      parseTVal n (tinline v ++ rest) = some (v, rest)) ∧
    (∀ k v rest, TWf v → tsize v + 1 ≤ n → numStop rest →
      parseTMem n (tkeyChars k ++ (' ' :: '=' :: ' ' :: (tinline v ++ rest))) =
        some ((k, v), rest)) ∧
    (∀ vs rest, (∀ v ∈ vs, TWf v) → tlsize vs ≤ n →
      parseTArr n (tinlineArr vs ++ (']' :: rest)) = some (vs, rest)) ∧
    (∀ kvs rest, (∀ kv ∈ kvs, TWf kv.2) → (kvs.map Prod.fst).Nodup → tmsize kvs ≤ n →
      parseTMems n (tinlineMems kvs ++ ('\x7d' :: rest)) = some (kvs, rest)) := by
  intro n
  induction n using Nat.strong_induction_on with
  | _ n ih =>
  cases n with
  | zero =>
    refine ⟨?_, ?_, ?_, ?_⟩
    · intro v rest hwf hsz hstop
      have := tsize_pos v
      omega
    · intro k v rest hwf hsz hstop
      have := tsize_pos v
      omega
    · intro vs rest hwf hsz
      have := tlsize_pos vs
      omega
    · intro kvs rest hwf hnd hsz
      have := tmsize_pos kvs
      omega
  | succ n =>
    obtain ⟨ihv, ihm, ihe, ihms⟩ := ih n (by omega)
    refine ⟨?_, ?_, ?_, ?_⟩
    · intro v rest hwf hsz hstop
      cases v with
      | bool b =>
        cases b with
        | false =>
          simp only [tinline, List.cons_append, List.nil_append]
          rfl
        | true =>
          simp only [tinline, List.cons_append, List.nil_append]
          rfl
      | int z =>
        simp only [tinline]
        obtain ⟨c, t, hct, hc⟩ := intChars_head z
        rw [hct, List.cons_append]
        simp only [parseTVal]
        have h1 : c ≠ 't' := numHead_ne hc (by decide) (by decide)
        have h2 : c ≠ 'f' := numHead_ne hc (by decide) (by decide)
        have h3 : c ≠ '"' := numHead_ne hc (by decide) (by decide)
        have h4 : c ≠ '[' := numHead_ne hc (by decide) (by decide)
        have h5 : c ≠ '\x7b' := numHead_ne hc (by decide) (by decide)
        have hnum : parseNumRaw (c :: (t ++ rest)) = some (.inl z, rest) := by
          rw [← List.cons_append, ← hct]
          exact parseNumRaw_int z rest hstop
        simp [h1, h2, h3, h4, h5, hnum]
      | float f =>
        cases hwf with
        | float _ hf =>
        simp only [tinline]
        obtain ⟨c, t, hct, hc⟩ := floatChars_head f
        rw [hct, List.cons_append]
        simp only [parseTVal]
        have h1 : c ≠ 't' := numHead_ne hc (by decide) (by decide)
        have h2 : c ≠ 'f' := numHead_ne hc (by decide) (by decide)
        have h3 : c ≠ '"' := numHead_ne hc (by decide) (by decide)
        have h4 : c ≠ '[' := numHead_ne hc (by decide) (by decide)
        have h5 : c ≠ '\x7b' := numHead_ne hc (by decide) (by decide)
        have hnum : parseNumRaw (c :: (t ++ rest)) = some (.inr f, rest) := by
          rw [← List.cons_append, ← hct]
          exact parseNumRaw_float f rest hf (numStop_digStop hstop)
        simp [h1, h2, h3, h4, h5, hnum]
      | str s =>
        have hstr : parseStrBody ((escStr s).length + (rest.length + 1) + 1)
            (escStr s ++ '"' :: rest) = some (s, rest) :=
          parseStrBody_escStr s _ rest (by have := escStr_length_ge s; omega)
        simp +decide [tinline, quoteStr, parseTVal, hstr]
      | array vs =>
        cases vs with
        | nil =>
          simp only [tinline, List.cons_append, List.nil_append]
          rfl
        | cons v vs' =>
          have hl := TWf_array hwf
          have hwv : TWf v := hl v (by simp)
          have hwvs : ∀ x ∈ vs', TWf x := fun x hx => hl x (by simp [hx])
          have hszv : tsize v ≤ n := by
            simp only [tsize, tlsize] at hsz
            have := tlsize_pos vs'
            omega
          have hszl : tlsize vs' ≤ n := by
            simp only [tsize, tlsize] at hsz
            have := tsize_pos v
            omega
          obtain ⟨c1, t1, hv1, hok1⟩ := tinline_head v
          have hc1sp : (c1 = ' ') = False := theadOK_not_sp hok1
          have hne : c1 ≠ ']' := theadOK_ne hok1 (by decide) (by decide) (by decide)
            (by decide) (by decide) (by decide) (by decide)
          have hparse : parseTVal n (c1 :: (t1 ++ (tinlineArr vs' ++ (']' :: rest)))) =
              some (v, tinlineArr vs' ++ (']' :: rest)) := by
            rw [← List.cons_append, ← hv1]
            exact ihv v _ hwv hszv (numStop_tarr vs' rest)
          have harr : parseTArr n (tinlineArr vs' ++ (']' :: rest)) = some (vs', rest) :=
            ihe vs' rest hwvs hszl
          simp only [List.cons_append, List.append_assoc] at hparse harr
          simp +decide [tinline, parseTVal, skipSp, List.dropWhile, hv1, hc1sp, hne,
            hparse, harr]
      | table kvs =>
        obtain ⟨hnd, hall⟩ := TWf_table hwf
        cases kvs with
        | nil =>
          simp only [tinline, List.cons_append, List.nil_append]
          rfl
        | cons kv kvs' =>
          obtain ⟨k, v⟩ := kv
          have hwv : TWf v := hall (k, v) (by simp)
          have hwvs : ∀ x ∈ kvs', TWf x.2 := fun x hx => hall x (by simp [hx])
          have hszv : tsize v + 1 ≤ n := by
            simp only [tsize, tmsize] at hsz
            have := tmsize_pos kvs'
            omega
          have hszm : tmsize kvs' ≤ n := by
            simp only [tsize, tmsize] at hsz
            have := tsize_pos v
            omega
          simp only [List.map_cons, List.nodup_cons] at hnd
          obtain ⟨c1, t1, hk1, hok1⟩ := tkeyChars_head k
          have hc1sp : (c1 = ' ') = False := by
            simp only [eq_iff_iff, iff_false]
            rcases hok1 with h | h
            · subst h; decide
            · intro hc; subst hc; exact absurd h (by decide)
          have hne : c1 ≠ '\x7d' := by
            rcases hok1 with h | h
            · subst h; decide
            · intro hc; subst hc; exact absurd h (by decide)
          have hmem : parseTMem n (c1 :: (t1 ++ (' ' :: '=' :: ' ' ::
              (tinline v ++ (tinlineMems kvs' ++ ('\x7d' :: rest)))))) =
              some ((k, v), tinlineMems kvs' ++ ('\x7d' :: rest)) := by
            rw [← List.cons_append, ← hk1]
            exact ihm k v _ hwv hszv (numStop_tmems kvs' rest)
          have hmems : parseTMems n (tinlineMems kvs' ++ ('\x7d' :: rest)) =
              some (kvs', rest) := ihms kvs' rest hwvs hnd.2 hszm
          simp only [List.cons_append, List.append_assoc] at hmem hmems
          simp +decide [tinline, parseTVal, skipSp, List.dropWhile, hk1, hc1sp, hne,
            hmem, hmems, hnd.1]
    · intro k v rest hwf hsz hstop
      have hkey : parseTKey (tkeyChars k ++ (' ' :: '=' :: ' ' :: (tinline v ++ rest))) =
          some (k, ' ' :: '=' :: ' ' :: (tinline v ++ rest)) :=
        parseTKey_rt k _ (by exact (by decide : isBareKeyChar ' ' = false))
      obtain ⟨c1, t1, hv1, hok1⟩ := tinline_head v
      have hc1sp : (c1 = ' ') = False := theadOK_not_sp hok1
      have hparse : parseTVal n (tinline v ++ rest) = some (v, rest) :=
        ihv v rest hwf (by omega) hstop
      rw [hv1, List.cons_append] at hparse
      simp only [parseTMem, hkey]
      simp +decide [skipSp, List.dropWhile, hv1, hc1sp, hparse]
    · intro vs rest hwf hsz
      cases vs with
      | nil =>
        simp only [tinlineArr, List.nil_append]
        rfl
      | cons v vs' =>
        have hwv : TWf v := hwf v (by simp)
        have hwvs : ∀ x ∈ vs', TWf x := fun x hx => hwf x (by simp [hx])
        have hszv : tsize v ≤ n := by
          simp only [tlsize] at hsz
          have := tlsize_pos vs'
          omega
        have hszl : tlsize vs' ≤ n := by
          simp only [tlsize] at hsz
          have := tsize_pos v
          omega
        obtain ⟨c1, t1, hv1, hok1⟩ := tinline_head v
        have hc1sp : (c1 = ' ') = False := theadOK_not_sp hok1
        have hparse : parseTVal n (c1 :: (t1 ++ (tinlineArr vs' ++ (']' :: rest)))) =
            some (v, tinlineArr vs' ++ (']' :: rest)) := by
          rw [← List.cons_append, ← hv1]
          exact ihv v _ hwv hszv (numStop_tarr vs' rest)
        have harr : parseTArr n (tinlineArr vs' ++ (']' :: rest)) = some (vs', rest) :=
          ihe vs' rest hwvs hszl
        simp only [List.cons_append, List.append_assoc] at hparse harr
        simp +decide [tinlineArr, parseTArr, skipSp, List.dropWhile, hv1, hc1sp,
          hparse, harr]
    · intro kvs rest hwf hnd hsz
      cases kvs with
      | nil =>
        simp only [tinlineMems, List.nil_append]
        rfl
      | cons kv kvs' =>
        obtain ⟨k, v⟩ := kv
        have hwv : TWf v := hwf (k, v) (by simp)
        have hwvs : ∀ x ∈ kvs', TWf x.2 := fun x hx => hwf x (by simp [hx])
        have hszv : tsize v + 1 ≤ n := by
          simp only [tmsize] at hsz
          have := tmsize_pos kvs'
          omega
        have hszm : tmsize kvs' ≤ n := by
          simp only [tmsize] at hsz
          have := tsize_pos v
          omega
        simp only [List.map_cons, List.nodup_cons] at hnd
        obtain ⟨c1, t1, hk1, hok1⟩ := tkeyChars_head k
        have hc1sp : (c1 = ' ') = False := by
          simp only [eq_iff_iff, iff_false]
          rcases hok1 with h | h
          · subst h; decide
          · intro hc; subst hc; exact absurd h (by decide)
        have hmem : parseTMem n (c1 :: (t1 ++ (' ' :: '=' :: ' ' ::
            (tinline v ++ (tinlineMems kvs' ++ ('\x7d' :: rest)))))) =
            some ((k, v), tinlineMems kvs' ++ ('\x7d' :: rest)) := by
          rw [← List.cons_append, ← hk1]
          exact ihm k v _ hwv hszv (numStop_tmems kvs' rest)
        have hmems : parseTMems n (tinlineMems kvs' ++ ('\x7d' :: rest)) =
            some (kvs', rest) := ihms kvs' rest hwvs hnd.2 hszm
        simp only [List.cons_append, List.append_assoc] at hmem hmems
        simp +decide [tinlineMems, parseTMems, skipSp, List.dropWhile, hk1, hc1sp,
          hmem, hmems, hnd.1]

theorem takeWhile_app_all {α : Type} (p : α → Bool) (l rest : List α)
    (hl : ∀ a ∈ l, p a = true)
    (hr : match rest with | [] => True | a :: _ => p a = false) :
    (l ++ rest).takeWhile p = l ∧ (l ++ rest).dropWhile p = rest := by
  induction l with
  | nil =>
    simp only [List.nil_append]
    cases rest with
    | nil => simp
    | cons a t =>
      simp only at hr
      simp [List.takeWhile, List.dropWhile, hr]
  | cons a t ih =>
    have ha := hl a (by simp)
    have ht : ∀ x ∈ t, p x = true := fun x hx => hl x (by simp [hx])
    have := ih ht
    simp [List.takeWhile, List.dropWhile, ha, this.1, this.2]

theorem hexDigitChar_ne_nl : ∀ d : Fin 16, hexDigitChar d.val ≠ '\n' := by
  decide

theorem escChar_no_nl (c : Char) : '\n' ∉ escChar c := by
  unfold escChar
  split
  · decide
  · split
    · decide
    · split
      · decide
      · split
        · decide
        · split
          · decide
          · split
            · next h1 h2 h3 h4 h5 h6 =>
              intro hmem
              simp only [List.mem_cons, List.mem_singleton] at hmem
              rcases hmem with h | h | h | h | h | h
              · exact absurd h.symm (by decide)
              · exact absurd h.symm (by decide)
              · exact absurd h.symm (by decide)
              · exact absurd h.symm (by decide)
              · exact hexDigitChar_ne_nl ⟨c.toNat / 16, by omega⟩ h.symm
              · simp only [List.not_mem_nil] at *
                rcases h with h | h
                · exact hexDigitChar_ne_nl ⟨c.toNat % 16, by omega⟩ h.symm
                · exact h.elim
            · next h1 h2 h3 h4 h5 h6 =>
              intro hmem
              simp only [List.mem_singleton] at hmem
              exact h3 hmem.symm

theorem escStr_no_nl (s : List Char) : '\n' ∉ escStr s := by
  induction s with
  | nil => simp [escStr]
  | cons c t ih =>
    have : escStr (c :: t) = escChar c ++ escStr t := rfl
    rw [this]
    intro hmem
    rcases List.mem_append.mp hmem with h | h
    · exact escChar_no_nl c h
    · exact ih h

theorem quoteStr_no_nl (s : List Char) : '\n' ∉ quoteStr s := by
  simp only [quoteStr]
  intro hmem
  rcases List.mem_cons.mp hmem with h | h
  · exact absurd h (by decide)
  · rcases List.mem_append.mp h with h | h
    · exact escStr_no_nl s h
    · simp only [List.mem_singleton] at h
      exact absurd h (by decide)

theorem natCharsF_no_nl (fuel : Nat) (n : Nat) (h : n ≤ fuel) :
    '\n' ∉ natCharsF (fuel + 1) n := by
  intro hmem
  have := natCharsF_digits fuel n h '\n' hmem
  exact absurd this (by decide)

theorem intChars_no_nl (z : Int) : '\n' ∉ intChars z := by
  unfold intChars
  split
  · intro hmem
    rcases List.mem_cons.mp hmem with h | h
    · exact absurd h (by decide)
    · exact natCharsF_no_nl _ _ le_rfl h
  · exact natCharsF_no_nl _ _ le_rfl

theorem floatChars_no_nl (f : JFloat) (hwf : floatWF f = true) :
    '\n' ∉ floatChars f := by
  have hdig : ∀ d ∈ f.frac, d < 10 := by
    simp only [floatWF, Bool.and_eq_true, List.all_eq_true, decide_eq_true_eq] at hwf
    exact hwf.2
  unfold floatChars
  intro hmem
  rcases List.mem_append.mp hmem with h | h
  · rcases List.mem_append.mp h with h | h
    · split at h
      · simp only [List.mem_singleton] at h
        exact absurd h (by decide)
      · simp at h
    · exact natCharsF_no_nl _ _ le_rfl h
  · rcases List.mem_cons.mp h with h | h
    · exact absurd h (by decide)
    · rw [List.mem_map] at h
      obtain ⟨d, hd, hdc⟩ := h
      have hd10 : isDigitCh (digitChar d) = true := digitChar_digit (hdig d hd)
      rw [hdc] at hd10
      exact absurd hd10 (by decide)

theorem tkeyChars_no_nl (k : List Char) : '\n' ∉ tkeyChars k := by
  unfold tkeyChars
  split
  · next h =>
    simp only [Bool.and_eq_true, Bool.not_eq_true', List.isEmpty_eq_false] at h
    intro hmem
    have := h.2
    rw [List.all_eq_true] at this
    have := this '\n' hmem
    exact absurd this (by decide)
  · exact quoteStr_no_nl k

theorem tinline_no_nl_all : ∀ N : Nat,
    (∀ v, TWf v → tsize v ≤ N → '\n' ∉ tinline v) ∧
    (∀ vs, (∀ v ∈ vs, TWf v) → tlsize vs ≤ N → '\n' ∉ tinlineArr vs) ∧
    (∀ kvs, (∀ kv ∈ kvs, TWf kv.2) → tmsize kvs ≤ N → '\n' ∉ tinlineMems kvs) := by
  intro N
  induction N using Nat.strong_induction_on with
  | _ N ih =>
  refine ⟨?_, ?_, ?_⟩
  · intro v hwf hN
    cases v with
    | bool b => cases b <;> simp [tinline]
    | int z => simp only [tinline]; exact intChars_no_nl z
    | float f =>
      cases hwf with
      | float _ hf => simp only [tinline]; exact floatChars_no_nl f hf
    | str s => simp only [tinline]; exact quoteStr_no_nl s
    | array vs =>
      cases vs with
      | nil => simp [tinline]
      | cons v vs' =>
        have hl := TWf_array hwf
        have h1 : '\n' ∉ tinline v := by
          have hlt : tsize v < N := by
            simp only [tsize, tlsize] at hN
            have := tlsize_pos vs'
            omega
          exact (ih _ hlt).1 v (hl v (by simp)) le_rfl
        have h2 : '\n' ∉ tinlineArr vs' := by
          have hlt : tlsize vs' < N := by
            simp only [tsize, tlsize] at hN
            have := tsize_pos v
            omega
          exact (ih _ hlt).2.1 vs' (fun x hx => hl x (by simp [hx])) le_rfl
        simp +decide [tinline, eq_false h1, eq_false h2]
    | table kvs =>
      obtain ⟨hnd, hall⟩ := TWf_table hwf
      cases kvs with
      | nil => simp [tinline]
      | cons kv kvs' =>
        obtain ⟨k, v⟩ := kv
        have h1 : '\n' ∉ tinline v := by
          have hlt : tsize v < N := by
            simp only [tsize, tmsize] at hN
            have := tmsize_pos kvs'
            omega
          exact (ih _ hlt).1 v (hall (k, v) (by simp)) le_rfl
        have h2 : '\n' ∉ tinlineMems kvs' := by
          have hlt : tmsize kvs' < N := by
            simp only [tsize, tmsize] at hN
            have := tsize_pos v
            omega
          exact (ih _ hlt).2.2 kvs' (fun x hx => hall x (by simp [hx])) le_rfl
        simp +decide [tinline, eq_false h1, eq_false h2, eq_false (tkeyChars_no_nl k)]
  · intro vs hwf hN
    cases vs with
    | nil => simp [tinlineArr]
    | cons v vs' =>
      have h1 : '\n' ∉ tinline v := by
        have hlt : tsize v < N := by
          simp only [tlsize] at hN
          have := tlsize_pos vs'
          omega
        exact (ih _ hlt).1 v (hwf v (by simp)) le_rfl
      have h2 : '\n' ∉ tinlineArr vs' := by
        have hlt : tlsize vs' < N := by
          simp only [tlsize] at hN
          have := tsize_pos v
          omega
        exact (ih _ hlt).2.1 vs' (fun x hx => hwf x (by simp [hx])) le_rfl
      simp +decide [tinlineArr, eq_false h1, eq_false h2]
  · intro kvs hwf hN
    cases kvs with
    | nil => simp [tinlineMems]
    | cons kv kvs' =>
      obtain ⟨k, v⟩ := kv
      have h1 : '\n' ∉ tinline v := by
        have hlt : tsize v < N := by
          simp only [tmsize] at hN
          have := tmsize_pos kvs'
          omega
        exact (ih _ hlt).1 v (hwf (k, v) (by simp)) le_rfl
      have h2 : '\n' ∉ tinlineMems kvs' := by
        have hlt : tmsize kvs' < N := by
          simp only [tmsize] at hN
          have := tsize_pos v
          omega
        exact (ih _ hlt).2.2 kvs' (fun x hx => hwf x (by simp [hx])) le_rfl
      simp +decide [tinlineMems, eq_false h1, eq_false h2, eq_false (tkeyChars_no_nl k)]

theorem tinline_no_nl (v : TValue) (h : TWf v) : '\n' ∉ tinline v :=
  (tinline_no_nl_all (tsize v)).1 v h le_rfl

theorem tinline_len : ∀ N : Nat,
    (∀ v, tsize v ≤ N → tsize v ≤ (tinline v).length + 1) ∧
    (∀ vs, tlsize vs ≤ N → tlsize vs ≤ (tinlineArr vs).length + 1) ∧
    (∀ kvs, tmsize kvs ≤ N → tmsize kvs ≤ (tinlineMems kvs).length + 1) := by
  intro N
  induction N using Nat.strong_induction_on with
  | _ N ih =>
  refine ⟨?_, ?_, ?_⟩
  · intro v hN
    cases v with
    | bool b => cases b <;> simp [tinline, tsize]
    | int z => simp [tinline, tsize]
    | float f => simp [tinline, tsize]
    | str s => simp [tinline, tsize]
    | array vs =>
      cases vs with
      | nil => simp [tinline, tsize, tlsize]
      | cons v vs' =>
        have h1 : tsize v ≤ (tinline v).length + 1 := by
          have hlt : tsize v < N := by
            simp only [tsize, tlsize] at hN
            have := tlsize_pos vs'
            omega
          exact (ih _ hlt).1 v le_rfl
        have h2 : tlsize vs' ≤ (tinlineArr vs').length + 1 := by
          have hlt : tlsize vs' < N := by
            simp only [tsize, tlsize] at hN
            have := tsize_pos v
            omega
          exact (ih _ hlt).2.1 vs' le_rfl
        simp only [tsize, tlsize, tinline, List.length_cons, List.length_append,
          List.length_singleton]
        omega
    | table kvs =>
      cases kvs with
      | nil => simp [tinline, tsize, tmsize]
      | cons kv kvs' =>
        obtain ⟨k, v⟩ := kv
        have h1 : tsize v ≤ (tinline v).length + 1 := by
          have hlt : tsize v < N := by
            simp only [tsize, tmsize] at hN
            have := tmsize_pos kvs'
            omega
          exact (ih _ hlt).1 v le_rfl
        have h2 : tmsize kvs' ≤ (tinlineMems kvs').length + 1 := by
          have hlt : tmsize kvs' < N := by
            simp only [tsize, tmsize] at hN
            have := tsize_pos v
            omega
          exact (ih _ hlt).2.2 kvs' le_rfl
        simp only [tsize, tmsize, tinline, List.length_cons, List.length_append,
          List.length_singleton]
        omega
  · intro vs hN
    cases vs with
    | nil => simp [tinlineArr, tlsize]
    | cons v vs' =>
      have h1 : tsize v ≤ (tinline v).length + 1 := by
        have hlt : tsize v < N := by
          simp only [tlsize] at hN
          have := tlsize_pos vs'
          omega
        exact (ih _ hlt).1 v le_rfl
      have h2 : tlsize vs' ≤ (tinlineArr vs').length + 1 := by
        have hlt : tlsize vs' < N := by
          simp only [tlsize] at hN
          have := tsize_pos v
          omega
        exact (ih _ hlt).2.1 vs' le_rfl
      simp only [tlsize, tinlineArr, List.length_cons, List.length_append]
      omega
  · intro kvs hN
    cases kvs with
    | nil => simp [tinlineMems, tmsize]
    | cons kv kvs' =>
      obtain ⟨k, v⟩ := kv
      have h1 : tsize v ≤ (tinline v).length + 1 := by
        have hlt : tsize v < N := by
          simp only [tmsize] at hN
          have := tmsize_pos kvs'
          omega
        exact (ih _ hlt).1 v le_rfl
      have h2 : tmsize kvs' ≤ (tinlineMems kvs').length + 1 := by
        have hlt : tmsize kvs' < N := by
          simp only [tmsize] at hN
          have := tsize_pos v
          omega
        exact (ih _ hlt).2.2 kvs' le_rfl
      simp only [tmsize, tinlineMems, List.length_cons, List.length_append]
      omega

theorem splitNl_append_nl (l r : List Char) (h : '\n' ∉ l) :
    splitNl (l ++ '\n' :: r) = l :: splitNl r := by
  induction l with
  | nil => simp [splitNl]
  | cons c t ih =>
    have hc : ¬ c = '\n' := fun hc => h (by simp [hc])
    have ht : '\n' ∉ t := fun hm => h (by simp [hm])
    simp only [List.cons_append, splitNl, if_neg hc, List.append_eq]
    rw [ih ht]

theorem splitNl_renderLines (ls : List (List Char)) (h : ∀ l ∈ ls, '\n' ∉ l) :
    splitNl (renderLines ls) = ls ++ [[]] := by
  induction ls with
  | nil => simp [renderLines, splitNl]
  | cons l ls ih =>
    have hl : '\n' ∉ l := h l (by simp)
    have hls : ∀ x ∈ ls, '\n' ∉ x := fun x hx => h x (by simp [hx])
    have : renderLines (l :: ls) = l ++ '\n' :: renderLines ls := rfl
    rw [this, splitNl_append_nl l _ hl, ih hls]
    simp

theorem parseEntryLine_rt (k : List Char) (v : TValue) (hwf : TWf v) :
    parseEntryLine (tkeyChars k ++ (' ' :: '=' :: ' ' :: tinline v)) = some (k, v) := by
  have hsz : tsize v + 1 ≤ (tkeyChars k ++ (' ' :: '=' :: ' ' :: tinline v)).length + 1 := by
    have := (tinline_len (tsize v)).1 v le_rfl
    simp only [List.length_append, List.length_cons]
    omega
  have hmem := (parseT_rt ((tkeyChars k ++ (' ' :: '=' :: ' ' :: tinline v)).length + 1)).2.1
    k v [] hwf hsz trivial
  simp only [List.append_nil] at hmem
  unfold parseEntryLine
  simp only [List.length_append, List.length_cons] at hmem ⊢
  rw [hmem]
  simp [skipSp]

theorem tserCLines_shape (kvs : List (List Char × TValue))
    (hwf : ∀ kv ∈ kvs, TWf kv.2) :
    ∀ l ∈ tserCLines kvs, l.isEmpty = false ∧ (!isSectionLine l) = true ∧ '\n' ∉ l := by
  induction kvs with
  | nil => simp [tserCLines]
  | cons kv kvs ih =>
    obtain ⟨k, v⟩ := kv
    intro l hl
    simp only [tserCLines, List.mem_cons] at hl
    rcases hl with hl | hl
    · subst hl
      obtain ⟨c, t, hct, hc⟩ := tkeyChars_head k
      refine ⟨?_, ?_, ?_⟩
      · rw [hct]
        simp
      · rw [hct, List.cons_append]
        have hne : c ≠ '[' := by
          rcases hc with h | h
          · subst h; decide
          · intro he; subst he; exact absurd h (by decide)
        simp [isSectionLine, hne]
      · have e1 : ('\n' ∈ tinline v) = False :=
          eq_false (tinline_no_nl v (hwf (k, v) (by simp)))
        simp +decide [e1, eq_false (tkeyChars_no_nl k)]
    · exact ih (fun x hx => hwf x (by simp [hx])) l hl

theorem parseEntryLines_rt (kvs : List (List Char × TValue))
    (hwf : ∀ kv ∈ kvs, TWf kv.2) (hnd : (kvs.map Prod.fst).Nodup) :
    parseEntryLines (tserCLines kvs) = some kvs := by
  induction kvs with
  | nil => simp [tserCLines, parseEntryLines]
  | cons kv kvs ih =>
    obtain ⟨k, v⟩ := kv
    simp only [List.map_cons, List.nodup_cons] at hnd
    have h1 : parseEntryLine (tkeyChars k ++ (' ' :: '=' :: ' ' :: tinline v)) =
        some (k, v) := parseEntryLine_rt k v (hwf (k, v) (by simp))
    have h2 : parseEntryLines (tserCLines kvs) = some kvs :=
      ih (fun x hx => hwf x (by simp [hx])) hnd.2
    simp [tserCLines, parseEntryLines, h1, h2, hnd.1]

theorem flat_sections_shape (tkvs : List (List Char × TValue))
    (h : ∀ kv ∈ tkvs, (∃ m, kv.2 = TValue.table m) ∧ TWf kv.2) :
    ∀ l ∈ (tkvs.flatMap fun kv => ('[' :: (tkeyChars kv.1 ++ [']'])) :: tsectionBody kv.2),
      l.isEmpty = false ∧ '\n' ∉ l := by
  induction tkvs with
  | nil => simp
  | cons kv tkvs ih =>
    obtain ⟨k, v⟩ := kv
    obtain ⟨⟨m, hm⟩, hwf⟩ := h (k, v) (by simp)
    subst hm
    obtain ⟨hnd, hvals⟩ := TWf_table hwf
    intro l hl
    rw [List.flatMap_cons, List.cons_append] at hl
    rcases List.mem_cons.mp hl with hl | hl
    · subst hl
      refine ⟨by simp, ?_⟩
      simp +decide [eq_false (tkeyChars_no_nl k)]
    · rcases List.mem_append.mp hl with hl | hl
      · have := tserCLines_shape m hvals l (by simpa [tsectionBody] using hl)
        exact ⟨this.1, this.2.2⟩
      · exact ih (fun x hx => h x (by simp [hx])) l hl

theorem parseSections_rt (n : Nat) : ∀ (tkvs : List (List Char × TValue)),
    (∀ kv ∈ tkvs, (∃ m, kv.2 = TValue.table m) ∧ TWf kv.2) → tkvs.length < n →
    parseSections n (tkvs.flatMap fun kv =>
      ('[' :: (tkeyChars kv.1 ++ [']'])) :: tsectionBody kv.2) = some tkvs := by
  induction n with
  | zero => intro tkvs h hlen; omega
  | succ n ihn =>
    intro tkvs h hlen
    cases tkvs with
    | nil => simp [parseSections]
    | cons kv tkvs =>
      obtain ⟨k, v⟩ := kv
      obtain ⟨⟨m, hm⟩, hwf⟩ := h (k, v) (by simp)
      subst hm
      obtain ⟨hnd, hvals⟩ := TWf_table hwf
      have hkey : parseTKey (tkeyChars k ++ [']']) = some (k, [']']) :=
        parseTKey_rt k [']'] (by exact (by decide : isBareKeyChar ']' = false))
      have hshape := tserCLines_shape m hvals
      have hsplit := takeWhile_app_all (fun l => !isSectionLine l) (tserCLines m)
        (tkvs.flatMap fun kv => ('[' :: (tkeyChars kv.1 ++ [']'])) :: tsectionBody kv.2)
        (fun a ha => (hshape a ha).2.1)
        (by
          cases tkvs with
          | nil => simp
          | cons kv2 t2 =>
            rw [List.flatMap_cons, List.cons_append]
            simp [isSectionLine])
      have hel : parseEntryLines (tserCLines m) = some m := parseEntryLines_rt m hvals hnd
      have hsec : parseSections n (tkvs.flatMap fun kv =>
          ('[' :: (tkeyChars kv.1 ++ [']'])) :: tsectionBody kv.2) = some tkvs :=
        ihn tkvs (fun x hx => h x (by simp [hx])) (by simp at hlen; omega)
      rw [List.flatMap_cons, List.cons_append]
      have hbody : tsectionBody (TValue.table m) = tserCLines m := rfl
      simp only [parseSections, hbody, hkey]
      simp +decide [skipSp, List.dropWhile, hsplit.1, hsplit.2, hel, hsec]

theorem tdecode_tserC (kvs : List (List Char × TValue)) (hwf : TWf (.table kvs)) :
    tdecode (renderLines (tserCLines kvs)) = .ok (.table kvs) := by
  obtain ⟨hnd, hvals⟩ := TWf_table hwf
  have hshape := tserCLines_shape kvs hvals
  have hsplit : splitNl (renderLines (tserCLines kvs)) = tserCLines kvs ++ [[]] :=
    splitNl_renderLines _ (fun l hl => (hshape l hl).2.2)
  have hfilter : ((tserCLines kvs ++ [[]]).filter fun l => !l.isEmpty) = tserCLines kvs := by
    rw [List.filter_append]
    have h1 : (tserCLines kvs).filter (fun l => !l.isEmpty) = tserCLines kvs :=
      List.filter_eq_self.mpr (fun a ha => by rw [(hshape a ha).1]; rfl)
    simp [h1]
  have htake := takeWhile_app_all (fun l => !isSectionLine l) (tserCLines kvs) []
    (fun a ha => (hshape a ha).2.1) trivial
  rw [List.append_nil] at htake
  have hel : parseEntryLines (tserCLines kvs) = some kvs := parseEntryLines_rt kvs hvals hnd
  simp only [tdecode, hsplit, hfilter, htake.1, htake.2, hel, parseSections]
  simp [hnd]

theorem isTTable_table {v : TValue} (h : isTTable v = true) : ∃ m, v = TValue.table m := by
  cases v with
  | table m => exact ⟨m, rfl⟩
  | bool b => exact absurd h (by simp [isTTable])
  | int z => exact absurd h (by simp [isTTable])
  | float f => exact absurd h (by simp [isTTable])
  | str s => exact absurd h (by simp [isTTable])
  | array vs => exact absurd h (by simp [isTTable])

theorem flatMap_sections_len (tkvs : List (List Char × TValue)) :
    tkvs.length ≤ (tkvs.flatMap fun kv =>
      ('[' :: (tkeyChars kv.1 ++ [']'])) :: tsectionBody kv.2).length := by
  induction tkvs with
  | nil => simp
  | cons kv t ih =>
    rw [List.flatMap_cons]
    simp only [List.length_append, List.length_cons]
    omega

theorem filter_nonempty_lines (L : List (List Char)) (h : ∀ l ∈ L, l.isEmpty = false) :
    ((L ++ [[]]).filter fun l => !l.isEmpty) = L := by
  rw [List.filter_append]
  have h1 : L.filter (fun l => !l.isEmpty) = L :=
    List.filter_eq_self.mpr (fun a ha => by rw [h a ha]; rfl)
  simp [h1]

theorem tdecode_tserP (kvs : List (List Char × TValue)) (hwf : TWf (.table kvs)) :
    tdecode (renderLines (tserCLines (kvs.filter fun kv => !isTTable kv.2) ++
      (kvs.filter fun kv => isTTable kv.2).flatMap fun kv =>
        ('[' :: (tkeyChars kv.1 ++ [']'])) :: tsectionBody kv.2)) =
    .ok (.table ((kvs.filter fun kv => !isTTable kv.2) ++
      kvs.filter fun kv => isTTable kv.2)) := by
  obtain ⟨hnd, hvals⟩ := TWf_table hwf
  have hplainwf : ∀ kv ∈ (kvs.filter fun kv => !isTTable kv.2), TWf kv.2 :=
    fun kv hkv => hvals kv (List.mem_of_mem_filter hkv)
  have hplainnd : (((kvs.filter fun kv => !isTTable kv.2).map Prod.fst)).Nodup :=
    ((List.filter_sublist kvs).map Prod.fst).nodup hnd
  have htabs : ∀ kv ∈ (kvs.filter fun kv => isTTable kv.2),
      (∃ m, kv.2 = TValue.table m) ∧ TWf kv.2 := by
    intro kv hkv
    refine ⟨isTTable_table ?_, hvals kv (List.mem_of_mem_filter hkv)⟩
    exact (List.mem_filter.mp hkv).2
  have hshapeP := tserCLines_shape (kvs.filter fun kv => !isTTable kv.2) hplainwf
  have hshapeF := flat_sections_shape (kvs.filter fun kv => isTTable kv.2) htabs
  have hsplit : splitNl (renderLines (tserCLines (kvs.filter fun kv => !isTTable kv.2) ++
      (kvs.filter fun kv => isTTable kv.2).flatMap fun kv =>
        ('[' :: (tkeyChars kv.1 ++ [']'])) :: tsectionBody kv.2)) =
      (tserCLines (kvs.filter fun kv => !isTTable kv.2) ++
      (kvs.filter fun kv => isTTable kv.2).flatMap fun kv =>
        ('[' :: (tkeyChars kv.1 ++ [']'])) :: tsectionBody kv.2) ++ [[]] := by
    refine splitNl_renderLines _ ?_
    intro l hl
    rcases List.mem_append.mp hl with h | h
    · exact (hshapeP l h).2.2
    · exact (hshapeF l h).2
  have hfilter := filter_nonempty_lines
    (tserCLines (kvs.filter fun kv => !isTTable kv.2) ++
      (kvs.filter fun kv => isTTable kv.2).flatMap fun kv =>
        ('[' :: (tkeyChars kv.1 ++ [']'])) :: tsectionBody kv.2)
    (by
      intro l hl
      rcases List.mem_append.mp hl with h | h
      · exact (hshapeP l h).1
      · exact (hshapeF l h).1)
  have htake := takeWhile_app_all (fun l => !isSectionLine l)
    (tserCLines (kvs.filter fun kv => !isTTable kv.2))
    ((kvs.filter fun kv => isTTable kv.2).flatMap fun kv =>
      ('[' :: (tkeyChars kv.1 ++ [']'])) :: tsectionBody kv.2)
    (fun a ha => (hshapeP a ha).2.1)
    (by
      cases hc : kvs.filter fun kv => isTTable kv.2 with
      | nil => simp
      | cons kv2 t2 =>
        rw [List.flatMap_cons, List.cons_append]
        simp [isSectionLine])
  have hel : parseEntryLines (tserCLines (kvs.filter fun kv => !isTTable kv.2)) =
      some (kvs.filter fun kv => !isTTable kv.2) :=
    parseEntryLines_rt _ hplainwf hplainnd
  have hsec : parseSections ((tserCLines (kvs.filter fun kv => !isTTable kv.2) ++
      (kvs.filter fun kv => isTTable kv.2).flatMap fun kv =>
        ('[' :: (tkeyChars kv.1 ++ [']'])) :: tsectionBody kv.2).length + 1)
      ((kvs.filter fun kv => isTTable kv.2).flatMap fun kv =>
        ('[' :: (tkeyChars kv.1 ++ [']'])) :: tsectionBody kv.2) =
      some (kvs.filter fun kv => isTTable kv.2) := by
    refine parseSections_rt _ _ htabs ?_
    have h1 := flatMap_sections_len (kvs.filter fun kv => isTTable kv.2)
    simp only [List.length_append]
    omega
  have hperm : ((kvs.filter fun kv => !isTTable kv.2) ++
      kvs.filter fun kv => isTTable kv.2).Perm kvs := by
    have := List.filter_append_perm (fun kv => !isTTable kv.2) kvs
    simpa [Bool.not_not] using this
  have hnd2 : (((kvs.filter fun kv => !isTTable kv.2) ++
      kvs.filter fun kv => isTTable kv.2).map Prod.fst).Nodup :=
    ((hperm.map Prod.fst).nodup_iff).mpr hnd
  have hnd3 : (List.map Prod.fst (kvs.filter fun kv => !isTTable kv.2) ++
      List.map Prod.fst (kvs.filter fun kv => isTTable kv.2)).Nodup := by
    simpa using hnd2
  simp only [tdecode, hsplit, hfilter, htake.1, htake.2, hel, hsec]
  simp [hnd3]

theorem jsonToTomlL_err {vs : List Value} {v : Value} (hv : v ∈ vs)
    (h : ∃ e, jsonToToml v = .error e) : ∃ e, jsonToTomlL vs = .error e := by
  induction vs with
  | nil => cases hv
  | cons y ys ih =>
    rcases List.mem_cons.mp hv with he | hv2
    · obtain ⟨e, hee⟩ := h
      rw [he] at hee
      exact ⟨e, by simp [jsonToTomlL, hee]⟩
    · cases hy : jsonToToml y with
      | error e => exact ⟨e, by simp [jsonToTomlL, hy]⟩
      | ok tv =>
        obtain ⟨e, hee⟩ := ih hv2
        exact ⟨e, by simp [jsonToTomlL, hy, hee]⟩

theorem jsonToTomlM_err {kvs : List (List Char × Value)} {kv : List Char × Value}
    (hkv : kv ∈ kvs) (h : ∃ e, jsonToToml kv.2 = .error e) :
    ∃ e, jsonToTomlM kvs = .error e := by
  induction kvs with
  | nil => cases hkv
  | cons y ys ih =>
    obtain ⟨k, v⟩ := y
    rcases List.mem_cons.mp hkv with he | hkv2
    · obtain ⟨e, hee⟩ := h
      rw [he] at hee
      exact ⟨e, by simp [jsonToTomlM, hee]⟩
    · cases hy : jsonToToml v with
      | error e => exact ⟨e, by simp [jsonToTomlM, hy]⟩
      | ok tv =>
        obtain ⟨e, hee⟩ := ih hkv2
        exact ⟨e, by simp [jsonToTomlM, hy, hee]⟩

theorem jsonToToml_err {v : Value} (h : ContainsNull v) :
    ∃ e, jsonToToml v = .error e := by
  induction h with
  | here => exact ⟨_, rfl⟩
  | arr hv _ ih =>
    obtain ⟨e, hee⟩ := jsonToTomlL_err hv ih
    exact ⟨e, by simp [jsonToToml, hee]⟩
  | obj hkv _ ih =>
    obtain ⟨e, hee⟩ := jsonToTomlM_err hkv ih
    exact ⟨e, by simp [jsonToToml, hee]⟩

theorem jsonToToml_ok_all : ∀ N : Nat,
    (∀ v, vsize v ≤ N → ¬ ContainsNull v →
      ∃ tv, jsonToToml v = .ok tv ∧ tomlToJson tv = v ∧ (WfV v → TWf tv)) ∧
    (∀ vs, lsize vs ≤ N → (∀ x ∈ vs, ¬ ContainsNull x) →
      ∃ tvs, jsonToTomlL vs = .ok tvs ∧ tomlToJsonL tvs = vs ∧
        ((∀ x ∈ vs, WfV x) → ∀ t ∈ tvs, TWf t)) ∧
    (∀ kvs, msize kvs ≤ N → (∀ kv ∈ kvs, ¬ ContainsNull kv.2) →
      ∃ tkvs, jsonToTomlM kvs = .ok tkvs ∧ tomlToJsonM tkvs = kvs ∧
        tkvs.map Prod.fst = kvs.map Prod.fst ∧
        ((∀ kv ∈ kvs, WfV kv.2) → ∀ t ∈ tkvs, TWf t.2)) := by
  intro N
  induction N using Nat.strong_induction_on with
  | _ N ih =>
  refine ⟨?_, ?_, ?_⟩
  · intro v hN hnull
    cases v with
    | null => exact absurd ContainsNull.here hnull
    | bool b =>
      exact ⟨.bool b, rfl, rfl, fun _ => TWf.bool b⟩
    | int z =>
      exact ⟨.int z, rfl, rfl, fun _ => TWf.int z⟩
    | float f =>
      refine ⟨.float f, rfl, rfl, fun hw => ?_⟩
      cases hw with
      | float _ hf => exact TWf.float f hf
    | str s =>
      exact ⟨.str s, rfl, rfl, fun _ => TWf.str s⟩
    | arr vs =>
      have hlt : lsize vs < N := by
        simp only [vsize] at hN
        omega
      obtain ⟨tvs, h1, h2, h3⟩ := (ih _ hlt).2.1 vs le_rfl
        (fun x hx hc => hnull (ContainsNull.arr hx hc))
      refine ⟨.array tvs, by simp [jsonToToml, h1], by simp [tomlToJson, h2], fun hw => ?_⟩
      exact TWf.array tvs (h3 (WfV_arr hw))
    | obj kvs =>
      have hlt : msize kvs < N := by
        simp only [vsize] at hN
        omega
      obtain ⟨tkvs, h1, h2, hkeys, h3⟩ := (ih _ hlt).2.2 kvs le_rfl
        (fun kv hkv hc => hnull (ContainsNull.obj hkv hc))
      refine ⟨.table tkvs, by simp [jsonToToml, h1], by simp [tomlToJson, h2], fun hw => ?_⟩
      obtain ⟨hnd, hvals⟩ := WfV_obj hw
      exact TWf.table tkvs (by rw [hkeys]; exact hnd) (h3 hvals)
  · intro vs hN hnull
    cases vs with
    | nil => exact ⟨[], rfl, rfl, fun _ t ht => absurd ht (List.not_mem_nil t)⟩
    | cons v vs' =>
      have hltv : vsize v < N := by
        simp only [lsize] at hN
        have := lsize_pos vs'
        omega
      have hltl : lsize vs' < N := by
        simp only [lsize] at hN
        have := vsize_pos v
        omega
      obtain ⟨tv, h1, h2, h3⟩ := (ih _ hltv).1 v le_rfl (hnull v (by simp))
      obtain ⟨tvs, g1, g2, g3⟩ := (ih _ hltl).2.1 vs' le_rfl
        (fun x hx => hnull x (by simp [hx]))
      refine ⟨tv :: tvs, by simp [jsonToTomlL, h1, g1], by simp [tomlToJsonL, h2, g2],
        fun hw t ht => ?_⟩
      rcases List.mem_cons.mp ht with he | ht2
      · rw [he]
        exact h3 (hw v (by simp))
      · exact g3 (fun x hx => hw x (by simp [hx])) t ht2
  · intro kvs hN hnull
    cases kvs with
    | nil => exact ⟨[], rfl, rfl, rfl, fun _ t ht => absurd ht (List.not_mem_nil t)⟩
    | cons kv kvs' =>
      obtain ⟨k, v⟩ := kv
      have hltv : vsize v < N := by
        simp only [msize] at hN
        have := msize_pos kvs'
        omega
      have hltm : msize kvs' < N := by
        simp only [msize] at hN
        have := vsize_pos v
        omega
      obtain ⟨tv, h1, h2, h3⟩ := (ih _ hltv).1 v le_rfl (hnull (k, v) (by simp))
      obtain ⟨tkvs, g1, g2, gk, g3⟩ := (ih _ hltm).2.2 kvs' le_rfl
        (fun x hx => hnull x (by simp [hx]))
      refine ⟨(k, tv) :: tkvs, by simp [jsonToTomlM, h1, g1],
        by simp [tomlToJsonM, h2, g2], by simp [gk], fun hw t ht => ?_⟩
      rcases List.mem_cons.mp ht with he | ht2
      · rw [he]
        exact h3 (hw (k, v) (by simp))
      · exact g3 (fun x hx => hw x (by simp [hx])) t ht2

theorem jsonToToml_ok {v : Value} (hnull : ¬ ContainsNull v) :
    ∃ tv, jsonToToml v = .ok tv ∧ tomlToJson tv = v ∧ (WfV v → TWf tv) :=
  (jsonToToml_ok_all (vsize v)).1 v le_rfl hnull

theorem parseT_wf : ∀ n : Nat,
    (∀ s v rest, parseTVal n s = some (v, rest) → TWf v) ∧
    (∀ s kv rest, parseTMem n s = some (kv, rest) → TWf kv.2) ∧
    (∀ s vs rest, parseTArr n s = some (vs, rest) → ∀ v ∈ vs, TWf v) ∧
    (∀ s kvs rest, parseTMems n s = some (kvs, rest) →
      (∀ kv ∈ kvs, TWf kv.2) ∧ (kvs.map Prod.fst).Nodup) := by
  intro n
  induction n using Nat.strong_induction_on with
  | _ n ih =>
  cases n with
  | zero =>
    refine ⟨?_, ?_, ?_, ?_⟩ <;> (intro s x rest h; cases h)
  | succ n =>
    obtain ⟨ihv, ihm, ihe, ihms⟩ := ih n (by omega)
    refine ⟨?_, ?_, ?_, ?_⟩
    · intro s v rest h
      simp only [parseTVal] at h
      split at h
      · cases h
      · split at h
        · split at h
          · simp only [Option.some.injEq, Prod.mk.injEq] at h
            rw [← h.1]
            exact TWf.bool _
          · cases h
        · split at h
          · split at h
            · simp only [Option.some.injEq, Prod.mk.injEq] at h
              rw [← h.1]
              exact TWf.bool _
            · cases h
          · split at h
            · rw [Option.map_eq_some'] at h
              obtain ⟨p, hp, hmap⟩ := h
              injection hmap with h1 h2
              rw [← h1]
              exact TWf.str _
            · split at h
              · split at h
                · cases h
                · split at h
                  · simp only [Option.some.injEq, Prod.mk.injEq] at h
                    rw [← h.1]
                    exact TWf.array [] (by simp)
                  · split at h
                    · cases h
                    · split at h
                      · cases h
                      · simp only [Option.some.injEq, Prod.mk.injEq] at h
                        rw [← h.1]
                        refine TWf.array _ ?_
                        intro x hx
                        rcases List.mem_cons.mp hx with hx | hx
                        · subst hx
                          exact ihv _ _ _ (by assumption)
                        · exact ihe _ _ _ (by assumption) x hx
              · split at h
                · split at h
                  · cases h
                  · split at h
                    · simp only [Option.some.injEq, Prod.mk.injEq] at h
                      rw [← h.1]
                      exact TWf.table [] (by simp) (by simp)
                    · split at h
                      · cases h
                      · split at h
                        · cases h
                        · split at h
                          · cases h
                          · simp only [Option.some.injEq, Prod.mk.injEq] at h
                            rw [← h.1]
                            refine TWf.table _ ?_ ?_
                            · rw [List.map_cons]
                              refine List.nodup_cons.mpr ⟨by assumption,
                                (ihms _ _ _ (by assumption)).2⟩
                            · intro x hx
                              rcases List.mem_cons.mp hx with hx | hx
                              · subst hx
                                exact ihm _ _ _ (by assumption)
                              · exact (ihms _ _ _ (by assumption)).1 x hx
                · split at h
                  · simp only [Option.some.injEq, Prod.mk.injEq] at h
                    rw [← h.1]
                    exact TWf.int _
                  · simp only [Option.some.injEq, Prod.mk.injEq] at h
                    rw [← h.1]
                    exact TWf.float _ (parseNumRaw_float_wf (by assumption))
                  · cases h
    · intro s kv rest h
      simp only [parseTMem] at h
      split at h
      · cases h
      · split at h
        · cases h
        · split at h
          · split at h
            · cases h
            · simp only [Option.some.injEq, Prod.mk.injEq] at h
              rw [← h.1]
              exact ihv _ _ _ (by assumption)
          · cases h
    · intro s vs rest h
      simp only [parseTArr] at h
      split at h
      · cases h
      · split at h
        · simp only [Option.some.injEq, Prod.mk.injEq] at h
          rw [← h.1]
          simp
        · split at h
          · split at h
            · cases h
            · split at h
              · cases h
              · simp only [Option.some.injEq, Prod.mk.injEq] at h
                rw [← h.1]
                intro x hx
                rcases List.mem_cons.mp hx with hx | hx
                · subst hx
                  exact ihv _ _ _ (by assumption)
                · exact ihe _ _ _ (by assumption) x hx
          · cases h
    · intro s kvs rest h
      simp only [parseTMems] at h
      split at h
      · cases h
      · split at h
        · simp only [Option.some.injEq, Prod.mk.injEq] at h
          rw [← h.1]
          exact ⟨by simp, by simp⟩
        · split at h
          · split at h
            · cases h
            · split at h
              · cases h
              · split at h
                · cases h
                · simp only [Option.some.injEq, Prod.mk.injEq] at h
                  rw [← h.1]
                  refine ⟨?_, ?_⟩
                  · intro x hx
                    rcases List.mem_cons.mp hx with hx | hx
                    · subst hx
                      exact ihm _ _ _ (by assumption)
                    · exact (ihms _ _ _ (by assumption)).1 x hx
                  · rw [List.map_cons]
                    refine List.nodup_cons.mpr ⟨by assumption,
                      (ihms _ _ _ (by assumption)).2⟩
          · cases h

theorem parseEntryLine_wf {l : List Char} {kv : List Char × TValue}
    (h : parseEntryLine l = some kv) : TWf kv.2 := by
  unfold parseEntryLine at h
  split at h
  · cases h
  · split at h
    · simp only [Option.some.injEq] at h
      rw [← h]
      exact (parseT_wf _).2.1 _ _ _ (by assumption)
    · cases h

theorem parseEntryLines_wf : ∀ (ls : List (List Char)) (kvs : List (List Char × TValue)),
    parseEntryLines ls = some kvs →
    (∀ kv ∈ kvs, TWf kv.2) ∧ (kvs.map Prod.fst).Nodup := by
  intro ls
  induction ls with
  | nil =>
    intro kvs h
    simp only [parseEntryLines, Option.some.injEq] at h
    rw [← h]
    exact ⟨by simp, by simp⟩
  | cons l ls ih =>
    intro kvs h
    simp only [parseEntryLines] at h
    split at h
    · cases h
    · split at h
      · cases h
      · split at h
        · cases h
        · simp only [Option.some.injEq] at h
          rw [← h]
          obtain ⟨h1, h2⟩ := ih _ (by assumption)
          refine ⟨?_, ?_⟩
          · intro x hx
            rcases List.mem_cons.mp hx with hx | hx
            · subst hx
              exact parseEntryLine_wf (by assumption)
            · exact h1 x hx
          · rw [List.map_cons]
            exact List.nodup_cons.mpr ⟨by assumption, h2⟩

theorem parseSections_wf : ∀ (n : Nat) (ls : List (List Char))
    (skvs : List (List Char × TValue)), parseSections n ls = some skvs →
    ∀ kv ∈ skvs, TWf kv.2 := by
  intro n
  induction n with
  | zero => intro ls skvs h; cases h
  | succ n ihn =>
    intro ls skvs h
    cases ls with
    | nil =>
      simp only [parseSections, Option.some.injEq] at h
      rw [← h]
      simp
    | cons l ls =>
      simp only [parseSections] at h
      split at h
      · split at h
        · cases h
        · split at h
          · split at h
            · split at h
              · cases h
              · split at h
                · cases h
                · simp only [Option.some.injEq] at h
                  rw [← h]
                  intro x hx
                  rcases List.mem_cons.mp hx with hx | hx
                  · subst hx
                    obtain ⟨h1, h2⟩ := parseEntryLines_wf _ _ (by assumption)
                    exact TWf.table _ h2 h1
                  · exact ihn _ _ (by assumption) x hx
            · cases h
          · cases h
      · cases h

theorem tdecode_wf {s : List Char} {v : TValue} (h : tdecode s = .ok v) : TWf v := by
  simp only [tdecode] at h
  split at h
  · cases h
  · split at h
    · cases h
    · split at h
      · simp only [Except.ok.injEq] at h
        rw [← h]
        refine TWf.table _ (by assumption) ?_
        intro x hx
        rcases List.mem_append.mp hx with hx | hx
        · exact (parseEntryLines_wf _ _ (by assumption)).1 x hx
        · exact parseSections_wf _ _ _ (by assumption) x hx
      · cases h

theorem tserP_reorder (kvs : List (List Char × TValue)) :
    tserP (.table ((kvs.filter fun kv => !isTTable kv.2) ++
      kvs.filter fun kv => isTTable kv.2)) = tserP (.table kvs) := by
  have hA : (kvs.filter fun kv => !isTTable kv.2).filter (fun kv => !isTTable kv.2) =
      kvs.filter fun kv => !isTTable kv.2 :=
    List.filter_eq_self.mpr (fun a ha => (List.mem_filter.mp ha).2)
  have hB : (kvs.filter fun kv => isTTable kv.2).filter (fun kv => !isTTable kv.2) = [] := by
    rw [List.filter_eq_nil_iff]
    intro a ha
    have := (List.mem_filter.mp ha).2
    simp [this]
  have hC : (kvs.filter fun kv => !isTTable kv.2).filter (fun kv => isTTable kv.2) = [] := by
    rw [List.filter_eq_nil_iff]
    intro a ha
    have := (List.mem_filter.mp ha).2
    simp only [Bool.not_eq_true'] at this
    simp [this]
  have hD : (kvs.filter fun kv => isTTable kv.2).filter (fun kv => isTTable kv.2) =
      kvs.filter fun kv => isTTable kv.2 :=
    List.filter_eq_self.mpr (fun a ha => (List.mem_filter.mp ha).2)
  simp only [tserP, List.filter_append, hA, hB, hC, hD, List.append_nil, List.nil_append]

/-! ## The YAML codec

Modelled from the spec: the `serde_yml` crate (not part of the repository).
Decoding targets the string-keyed Value model (`serde_json::Value`), so
mapping keys that resolve to non-string scalars (numbers, booleans, null,
flow collections) are rejected.  Encoding uses one canonical block style
(spec §4.3: the pretty flag is a no-op for YAML): two-space nesting,
`- ` items, `key: value` members with double-quoted keys and strings, and
the empty document decodes to null. -/

/-- Leading-space indentation of a line. -/
def yindent (l : List Char) : Nat := (l.takeWhile (fun c => c = ' ')).length

/-- A line's content after its indentation. -/
def ycontent (l : List Char) : List Char := l.dropWhile (fun c => c = ' ')

mutual

/-- Block-style YAML lines of a value at a given indentation. -/
def yencB (d : Nat) : Value → List (List Char)
  | .null => [List.replicate d ' ' ++ nullTok]
  | .bool true => [List.replicate d ' ' ++ trueTok]
  | .bool false => [List.replicate d ' ' ++ falseTok]
  | .int z => [List.replicate d ' ' ++ intChars z]
  | .float f => [List.replicate d ' ' ++ floatChars f]
  | .str s => [List.replicate d ' ' ++ quoteStr s]
  | .arr [] => [List.replicate d ' ' ++ ['[', ']']]
  | .arr (v :: vs) => yencItems d (v :: vs)
  | .obj [] => [List.replicate d ' ' ++ ['\x7b', '\x7d']]
  | .obj (kv :: kvs) => yencMems d (kv :: kvs)

/-- What follows a `-` or a `key:`: an inline scalar on the same line, or
a nested block on the following lines. -/
def ymemTail (d : Nat) : Value → List Char × List (List Char)
  | .null => (' ' :: nullTok, [])
  | .bool true => (' ' :: trueTok, [])
  | .bool false => (' ' :: falseTok, [])
  | .int z => (' ' :: intChars z, [])
  | .float f => (' ' :: floatChars f, [])
  | .str s => (' ' :: quoteStr s, [])
  | .arr [] => (' ' :: ['[', ']'], [])
  | .arr (v :: vs) => ([], yencItems (d+2) (v :: vs))
  | .obj [] => (' ' :: ['\x7b', '\x7d'], [])
  | .obj (kv :: kvs) => ([], yencMems (d+2) (kv :: kvs))

/-- Sequence items, one `- ...` each. -/
def yencItems (d : Nat) : List Value → List (List Char)
  | [] => []
  | v :: vs =>
    ((List.replicate d ' ' ++ '-' :: (ymemTail d v).1) :: (ymemTail d v).2) ++ yencItems d vs

/-- Mapping members, one `"key": ...` each. -/
def yencMems (d : Nat) : List (List Char × Value) → List (List Char)
  | [] => []
  | (k, v) :: kvs =>
    ((List.replicate d ' ' ++ (quoteStr k ++ ':' :: (ymemTail d v).1)) :: (ymemTail d v).2) ++
      yencMems d kvs

end

/-- Full YAML encoding (`serde_yml::to_string`). -/
def yencTop (v : Value) : List Char := renderLines (yencB 0 v)

/-- Resolve one whole plain or quoted YAML scalar token. -/
def parseYScalarTok (c : List Char) : Option Value :=
  if c = ['n', 'u', 'l', 'l'] then some .null
  else if c = ['t', 'r', 'u', 'e'] then some (.bool true)
  else if c = ['f', 'a', 'l', 's', 'e'] then some (.bool false)
  else if c = ['[', ']'] then some (.arr [])
  else if c = ['\x7b', '\x7d'] then some (.obj [])
  else
    match c with
    | [] => none
    | a :: t =>
      if a = '"' then
        match parseStrBody (t.length + 1) t with
        | none => none
        | some (p1, p2) => if p2.isEmpty then some (.str p1) else none
      else
        match parseNumRaw (a :: t) with
        | none => none
        | some (.inl z, r) => if r.isEmpty then some (.int z) else none
        | some (.inr f, r) => if r.isEmpty then some (.float f) else none

/-- Split a mapping line into its key and the part after the colon; keys
resolving to non-string scalars are not string keys and are refused. -/
def splitKey (c : List Char) : Option (List Char × List Char) :=
  match c with
  | [] => none
  | a :: t =>
    if a = '"' then
      match parseStrBody (t.length + 1) t with
      | none => none
      | some (k, r) =>
        match r with
        | [] => none
        | b :: r2 => if b = ':' then some (k, r2) else none
    else
      match (a :: t).dropWhile (fun x => !(x = ':')) with
      | [] => none
      | _ :: r2 =>
        match parseYScalarTok ((a :: t).takeWhile (fun x => !(x = ':'))) with
        | some _ => none
        | none => some ((a :: t).takeWhile (fun x => !(x = ':')), r2)

mutual

/-- Parse one block value at an expected indentation. -/
def parseYB : Nat → Nat → List (List Char) → Option (Value × List (List Char))
  | 0, _, _ => none
  | _+1, _, [] => none
  | n+1, d, l :: ls =>
    if yindent l = d then
      match ycontent l with
      | [] => none
      | a :: r =>
        if a = '-' then
          match r with
          | [] =>
            match parseYTail n d [] ls with
            | none => none
            | some (v, ls1) =>
              match parseYItems n d ls1 with
              | none => none
              | some (vs, ls2) => some (.arr (v :: vs), ls2)
          | b :: r2 =>
            if b = ' ' then
              match parseYTail n d (b :: r2) ls with
              | none => none
              | some (v, ls1) =>
                match parseYItems n d ls1 with
                | none => none
                | some (vs, ls2) => some (.arr (v :: vs), ls2)
            else
              match parseYScalarTok (a :: r) with
              | none => none
              | some v => some (v, ls)
        else
          match splitKey (a :: r) with
          | some (k, r2) =>
            match parseYTail n d r2 ls with
            | none => none
            | some (v, ls1) =>
              match parseYMems n d ls1 with
              | none => none
              | some (kvs, ls2) =>
                if k ∈ kvs.map Prod.fst then none
                else some (.obj ((k, v) :: kvs), ls2)
          | none =>
            match parseYScalarTok (a :: r) with
            | none => none
            | some v => some (v, ls)
    else none

/-- Parse what follows a `-` or `key:`: inline scalar or nested block. -/
def parseYTail : Nat → Nat → List Char → List (List Char) → Option (Value × List (List Char))
  | 0, _, _, _ => none
  | n+1, d, [], ls => parseYB n (d+2) ls
  | _+1, _, b :: r2, ls =>
    if b = ' ' then
      match parseYScalarTok r2 with
      | none => none
      | some v => some (v, ls)
    else none

/-- Parse the remaining items of a sequence block. -/
def parseYItems : Nat → Nat → List (List Char) → Option (List Value × List (List Char))
  | 0, _, _ => none
  | _+1, _, [] => some ([], [])
  | n+1, d, l :: ls =>
    if yindent l = d then
      match ycontent l with
      | [] => none
      | a :: r =>
        if a = '-' then
          match parseYTail n d r ls with
          | none => none
          | some (v, ls1) =>
            match parseYItems n d ls1 with
            | none => none
            | some (vs, ls2) => some (v :: vs, ls2)
        else none
    else some ([], l :: ls)

/-- Parse the remaining members of a mapping block, rejecting duplicates. -/
def parseYMems : Nat → Nat → List (List Char) →
    Option (List (List Char × Value) × List (List Char))
  | 0, _, _ => none
  | _+1, _, [] => some ([], [])
  | n+1, d, l :: ls =>
    if yindent l = d then
      match ycontent l with
      | [] => none
      | a :: r =>
        match splitKey (a :: r) with
        | none => none
        | some (k, r2) =>
          match parseYTail n d r2 ls with
          | none => none
          | some (v, ls1) =>
            match parseYMems n d ls1 with
            | none => none
            | some (kvs, ls2) =>
              if k ∈ kvs.map Prod.fst then none
              else some ((k, v) :: kvs, ls2)
    else some ([], l :: ls)

end

/-- YAML document decode (`serde_yml::from_str` into the Value model): the
empty document is null; otherwise one block at indentation zero. -/
def ydecode (s : List Char) : Except (List Char) Value :=
  let ls := (splitNl s).filter fun l => !l.isEmpty
  match ls with
  | [] => .ok .null
  | l :: t =>
    match parseYB (s.length + 1) 0 (l :: t) with
    | none => .error ['y', 'a', 'm', 'l']
    | some (v, []) => .ok v
    | some (v, _ :: _) => .error ['t', 'r', 'a', 'i', 'l']

theorem quoteStr_length_ge (k : List Char) : 2 ≤ (quoteStr k).length := by
  simp only [quoteStr, List.length_cons, List.length_append, List.length_singleton]
  omega

theorem dropWhile_all_nil {α : Type} (p : α → Bool) (l : List α)
    (h : ∀ a ∈ l, p a = true) : l.dropWhile p = [] ∧ l.takeWhile p = l := by
  have := takeWhile_app_all p l [] h trivial
  rw [List.append_nil] at this
  exact ⟨this.2, this.1⟩

theorem intChars_mem (z : Int) : ∀ c ∈ intChars z, c = '-' ∨ isDigitCh c = true := by
  intro c hc
  unfold intChars at hc
  split at hc
  · rcases List.mem_cons.mp hc with h | h
    · exact Or.inl h
    · exact Or.inr (natChars_digits _ c h)
  · exact Or.inr (natChars_digits _ c hc)

theorem floatChars_mem (f : JFloat) (hwf : floatWF f = true) :
    ∀ c ∈ floatChars f, c = '-' ∨ c = '.' ∨ isDigitCh c = true := by
  have hdig : ∀ d ∈ f.frac, d < 10 := by
    simp only [floatWF, Bool.and_eq_true, List.all_eq_true, decide_eq_true_eq] at hwf
    exact hwf.2
  intro c hc
  unfold floatChars at hc
  rcases List.mem_append.mp hc with h | h
  · rcases List.mem_append.mp h with h | h
    · split at h
      · simp only [List.mem_singleton] at h
        exact Or.inl h
      · simp at h
    · exact Or.inr (Or.inr (natChars_digits _ c h))
  · rcases List.mem_cons.mp h with h | h
    · exact Or.inr (Or.inl h)
    · rw [List.mem_map] at h
      obtain ⟨d, hd, hdc⟩ := h
      rw [← hdc]
      exact Or.inr (Or.inr (digitChar_digit (hdig d hd)))

theorem yindent_enc_line (d : Nat) (c : Char) (t : List Char) (h : (c = ' ') = False) :
    yindent (List.replicate d ' ' ++ c :: t) = d ∧
    ycontent (List.replicate d ' ' ++ c :: t) = c :: t := by
  have hall : ∀ a ∈ List.replicate d ' ', (fun x => x = ' ') a = true := by
    intro a ha
    rw [List.eq_of_mem_replicate ha]
    simp
  have := takeWhile_app_all (fun x => decide (x = ' ')) (List.replicate d ' ') (c :: t)
    (by intro a ha; rw [List.eq_of_mem_replicate ha]; simp) (by simp [h])
  refine ⟨?_, this.2⟩
  unfold yindent
  rw [this.1, List.length_replicate]

theorem parseYScalarTok_null : parseYScalarTok ['n', 'u', 'l', 'l'] = some .null := rfl

theorem parseYScalarTok_true : parseYScalarTok ['t', 'r', 'u', 'e'] = some (.bool true) := rfl

theorem parseYScalarTok_false : parseYScalarTok ['f', 'a', 'l', 's', 'e'] =
    some (.bool false) := rfl

theorem parseYScalarTok_arrNil : parseYScalarTok ['[', ']'] = some (.arr []) := rfl

theorem parseYScalarTok_objNil : parseYScalarTok ['\x7b', '\x7d'] = some (.obj []) := rfl

theorem parseYScalarTok_int (z : Int) : parseYScalarTok (intChars z) = some (.int z) := by
  obtain ⟨c, t, hct, hc⟩ := intChars_head z
  have h1 : intChars z ≠ ['n', 'u', 'l', 'l'] := by
    rw [hct]; intro he; injection he with he1 _
    exact numHead_ne (hc.imp_left id) (by decide) (by decide) he1
  have h2 : intChars z ≠ ['t', 'r', 'u', 'e'] := by
    rw [hct]; intro he; injection he with he1 _
    exact numHead_ne (hc.imp_left id) (by decide) (by decide) he1
  have h3 : intChars z ≠ ['f', 'a', 'l', 's', 'e'] := by
    rw [hct]; intro he; injection he with he1 _
    exact numHead_ne (hc.imp_left id) (by decide) (by decide) he1
  have h4 : intChars z ≠ ['[', ']'] := by
    rw [hct]; intro he; injection he with he1 _
    exact numHead_ne (hc.imp_left id) (by decide) (by decide) he1
  have h5 : intChars z ≠ ['\x7b', '\x7d'] := by
    rw [hct]; intro he; injection he with he1 _
    exact numHead_ne (hc.imp_left id) (by decide) (by decide) he1
  have h6 : (c = '"') = False := by
    simp only [eq_iff_iff, iff_false]
    intro he
    exact numHead_ne (hc.imp_left id) (by decide) (by decide) he
  have hnum : parseNumRaw (intChars z) = some (.inl z, []) := by
    have := parseNumRaw_int z [] trivial
    rwa [List.append_nil] at this
  rw [hct] at hnum
  simp only [parseYScalarTok, if_neg h1, if_neg h2, if_neg h3, if_neg h4, if_neg h5]
  rw [hct]
  simp [h6, hnum]

theorem parseYScalarTok_float (f : JFloat) (hwf : floatWF f = true) :
    parseYScalarTok (floatChars f) = some (.float f) := by
  obtain ⟨c, t, hct, hc⟩ := floatChars_head f
  have h1 : floatChars f ≠ ['n', 'u', 'l', 'l'] := by
    rw [hct]; intro he; injection he with he1 _
    exact numHead_ne (hc.imp_left id) (by decide) (by decide) he1
  have h2 : floatChars f ≠ ['t', 'r', 'u', 'e'] := by
    rw [hct]; intro he; injection he with he1 _
    exact numHead_ne (hc.imp_left id) (by decide) (by decide) he1
  have h3 : floatChars f ≠ ['f', 'a', 'l', 's', 'e'] := by
    rw [hct]; intro he; injection he with he1 _
    exact numHead_ne (hc.imp_left id) (by decide) (by decide) he1
  have h4 : floatChars f ≠ ['[', ']'] := by
    rw [hct]; intro he; injection he with he1 _
    exact numHead_ne (hc.imp_left id) (by decide) (by decide) he1
  have h5 : floatChars f ≠ ['\x7b', '\x7d'] := by
    rw [hct]; intro he; injection he with he1 _
    exact numHead_ne (hc.imp_left id) (by decide) (by decide) he1
  have h6 : (c = '"') = False := by
    simp only [eq_iff_iff, iff_false]
    intro he
    exact numHead_ne (hc.imp_left id) (by decide) (by decide) he
  have hnum : parseNumRaw (floatChars f) = some (.inr f, []) := by
    have := parseNumRaw_float f [] hwf trivial
    rwa [List.append_nil] at this
  rw [hct] at hnum
  simp only [parseYScalarTok, if_neg h1, if_neg h2, if_neg h3, if_neg h4, if_neg h5]
  rw [hct]
  simp [h6, hnum]

theorem parseYScalarTok_str (s : List Char) :
    parseYScalarTok (quoteStr s) = some (.str s) := by
  have h1 : quoteStr s ≠ ['n', 'u', 'l', 'l'] := by
    simp only [quoteStr]; intro he; injection he with he1 _; exact absurd he1 (by decide)
  have h2 : quoteStr s ≠ ['t', 'r', 'u', 'e'] := by
    simp only [quoteStr]; intro he; injection he with he1 _; exact absurd he1 (by decide)
  have h3 : quoteStr s ≠ ['f', 'a', 'l', 's', 'e'] := by
    simp only [quoteStr]; intro he; injection he with he1 _; exact absurd he1 (by decide)
  have h4 : quoteStr s ≠ ['[', ']'] := by
    simp only [quoteStr]; intro he; injection he with he1 _; exact absurd he1 (by decide)
  have h5 : quoteStr s ≠ ['\x7b', '\x7d'] := by
    simp only [quoteStr]; intro he; injection he with he1 _; exact absurd he1 (by decide)
  have hstr : parseStrBody ((escStr s ++ ['"']).length + 1) (escStr s ++ '"' :: []) =
      some (s, []) :=
    parseStrBody_escStr s _ [] (by
      have := escStr_length_ge s
      simp only [List.length_append, List.length_singleton]
      omega)
  simp only [List.length_append, List.length_singleton] at hstr
  simp only [parseYScalarTok, if_neg h1, if_neg h2, if_neg h3, if_neg h4, if_neg h5, quoteStr]
  simp [hstr]

theorem line_shape (d : Nat) (t : List Char) (hnl : '\n' ∉ t) (hne : t ≠ []) :
    '\n' ∉ (List.replicate d ' ' ++ t) ∧ (List.replicate d ' ' ++ t).isEmpty = false := by
  constructor
  · intro hm
    rcases List.mem_append.mp hm with h | h
    · exact absurd (List.eq_of_mem_replicate h) (by decide)
    · exact hnl h
  · rw [List.isEmpty_eq_false]
    intro he
    exact hne (List.append_eq_nil.mp he).2

theorem intChars_ne_nil (z : Int) : intChars z ≠ [] := by
  obtain ⟨c, t, hct, _⟩ := intChars_head z
  rw [hct]
  exact List.cons_ne_nil c t

theorem floatChars_ne_nil (f : JFloat) : floatChars f ≠ [] := by
  obtain ⟨c, t, hct, _⟩ := floatChars_head f
  rw [hct]
  exact List.cons_ne_nil c t

theorem yenc_shape : ∀ N : Nat,
    (∀ v d, WfV v → vsize v ≤ N → ∀ l ∈ yencB d v, '\n' ∉ l ∧ l.isEmpty = false) ∧
    (∀ v d, WfV v → vsize v ≤ N → '\n' ∉ (ymemTail d v).1 ∧
      (∀ l ∈ (ymemTail d v).2, '\n' ∉ l ∧ l.isEmpty = false)) ∧
    (∀ vs d, (∀ x ∈ vs, WfV x) → lsize vs ≤ N →
      ∀ l ∈ yencItems d vs, '\n' ∉ l ∧ l.isEmpty = false) ∧
    (∀ kvs d, (∀ kv ∈ kvs, WfV kv.2) → msize kvs ≤ N →
      ∀ l ∈ yencMems d kvs, '\n' ∉ l ∧ l.isEmpty = false) := by
  intro N
  induction N using Nat.strong_induction_on with
  | _ N ih =>
  refine ⟨?_, ?_, ?_, ?_⟩
  · intro v d hwf hN l hl
    cases v with
    | null =>
      simp only [yencB, List.mem_singleton] at hl
      subst hl
      exact line_shape d _ (by decide) (by decide)
    | bool b =>
      cases b <;>
        (simp only [yencB, List.mem_singleton] at hl
         subst hl
         exact line_shape d _ (by decide) (by decide))
    | int z =>
      simp only [yencB, List.mem_singleton] at hl
      subst hl
      exact line_shape d _ (intChars_no_nl z) (intChars_ne_nil z)
    | float f =>
      cases hwf with
      | float _ hf =>
      simp only [yencB, List.mem_singleton] at hl
      subst hl
      exact line_shape d _ (floatChars_no_nl f hf) (floatChars_ne_nil f)
    | str s =>
      simp only [yencB, List.mem_singleton] at hl
      subst hl
      exact line_shape d _ (quoteStr_no_nl s) (by simp [quoteStr])
    | arr vs =>
      cases vs with
      | nil =>
        simp only [yencB, List.mem_singleton] at hl
        subst hl
        exact line_shape d _ (by decide) (by decide)
      | cons v vs' =>
        have hlt : lsize (v :: vs') < N := by
          simp only [vsize] at hN
          omega
        exact (ih _ hlt).2.2.1 (v :: vs') d (WfV_arr hwf) le_rfl l (by rwa [yencB] at hl)
    | obj kvs =>
      cases kvs with
      | nil =>
        simp only [yencB, List.mem_singleton] at hl
        subst hl
        exact line_shape d _ (by decide) (by decide)
      | cons kv kvs' =>
        have hlt : msize (kv :: kvs') < N := by
          simp only [vsize] at hN
          omega
        exact (ih _ hlt).2.2.2 (kv :: kvs') d (WfV_obj hwf).2 le_rfl l (by rwa [yencB] at hl)
  · intro v d hwf hN
    cases v with
    | null => exact ⟨by simp only [ymemTail]; decide, by simp [ymemTail]⟩
    | bool b => cases b <;> exact ⟨by simp only [ymemTail]; decide, by simp [ymemTail]⟩
    | int z =>
      refine ⟨?_, by simp [ymemTail]⟩
      simp only [ymemTail]
      intro hm
      rcases List.mem_cons.mp hm with h | h
      · exact absurd h (by decide)
      · exact intChars_no_nl z h
    | float f =>
      cases hwf with
      | float _ hf =>
      refine ⟨?_, by simp [ymemTail]⟩
      simp only [ymemTail]
      intro hm
      rcases List.mem_cons.mp hm with h | h
      · exact absurd h (by decide)
      · exact floatChars_no_nl f hf h
    | str s =>
      refine ⟨?_, by simp [ymemTail]⟩
      simp only [ymemTail]
      intro hm
      rcases List.mem_cons.mp hm with h | h
      · exact absurd h (by decide)
      · exact quoteStr_no_nl s h
    | arr vs =>
      cases vs with
      | nil => exact ⟨by simp only [ymemTail]; decide, by simp [ymemTail]⟩
      | cons v vs' =>
        have hlt : lsize (v :: vs') < N := by
          simp only [vsize] at hN
          omega
        refine ⟨by simp [ymemTail], ?_⟩
        intro l hl
        exact (ih _ hlt).2.2.1 (v :: vs') (d+2) (WfV_arr hwf) le_rfl l
          (by rwa [ymemTail] at hl)
    | obj kvs =>
      cases kvs with
      | nil => exact ⟨by simp only [ymemTail]; decide, by simp [ymemTail]⟩
      | cons kv kvs' =>
        have hlt : msize (kv :: kvs') < N := by
          simp only [vsize] at hN
          omega
        refine ⟨by simp [ymemTail], ?_⟩
        intro l hl
        exact (ih _ hlt).2.2.2 (kv :: kvs') (d+2) (WfV_obj hwf).2 le_rfl l
          (by rwa [ymemTail] at hl)
  · intro vs d hwf hN l hl
    cases vs with
    | nil => simp [yencItems] at hl
    | cons v vs' =>
      have hwv : WfV v := hwf v (by simp)
      have hltv : vsize v < N := by
        simp only [lsize] at hN
        have := lsize_pos vs'
        omega
      have hltl : lsize vs' < N := by
        simp only [lsize] at hN
        have := vsize_pos v
        omega
      have htail := (ih _ hltv).2.1 v d hwv le_rfl
      rw [yencItems] at hl
      rcases List.mem_append.mp hl with h | h
      · rcases List.mem_cons.mp h with h | h
        · subst h
          refine line_shape d _ ?_ (by simp)
          intro hm
          rcases List.mem_cons.mp hm with h | h
          · exact absurd h (by decide)
          · exact htail.1 h
        · exact htail.2 l h
      · exact (ih _ hltl).2.2.1 vs' d (fun x hx => hwf x (by simp [hx])) le_rfl l h
  · intro kvs d hwf hN l hl
    cases kvs with
    | nil => simp [yencMems] at hl
    | cons kv kvs' =>
      obtain ⟨k, v⟩ := kv
      have hwv : WfV v := hwf (k, v) (by simp)
      have hltv : vsize v < N := by
        simp only [msize] at hN
        have := msize_pos kvs'
        omega
      have hltm : msize kvs' < N := by
        simp only [msize] at hN
        have := vsize_pos v
        omega
      have htail := (ih _ hltv).2.1 v d hwv le_rfl
      rw [yencMems] at hl
      rcases List.mem_append.mp hl with h | h
      · rcases List.mem_cons.mp h with h | h
        · subst h
          refine line_shape d _ ?_ (by simp [quoteStr])
          intro hm
          rcases List.mem_append.mp hm with h | h
          · exact quoteStr_no_nl k h
          · rcases List.mem_cons.mp h with h | h
            · exact absurd h (by decide)
            · exact htail.1 h
        · exact htail.2 l h
      · exact (ih _ hltm).2.2.2 kvs' d (fun x hx => hwf x (by simp [hx])) le_rfl l h

theorem renderLines_append (a b : List (List Char)) :
    renderLines (a ++ b) = renderLines a ++ renderLines b := by
  induction a with
  | nil => simp [renderLines]
  | cons l ls ih =>
    show l ++ '\n' :: renderLines (ls ++ b) = (l ++ '\n' :: renderLines ls) ++ renderLines b
    rw [ih]
    simp

theorem renderLines_cons (l : List Char) (ls : List (List Char)) :
    renderLines (l :: ls) = l ++ '\n' :: renderLines ls := rfl

theorem yenc_len : ∀ N : Nat,
    (∀ v d, vsize v ≤ N → vsize v ≤ (renderLines (yencB d v)).length + 1) ∧
    (∀ v d, vsize v ≤ N →
      vsize v ≤ (ymemTail d v).1.length + (renderLines (ymemTail d v).2).length) ∧
    (∀ v vs d, lsize (v :: vs) ≤ N →
      lsize (v :: vs) + d ≤ (renderLines (yencItems d (v :: vs))).length) ∧
    (∀ kv kvs d, msize (kv :: kvs) ≤ N →
      msize (kv :: kvs) + d ≤ (renderLines (yencMems d (kv :: kvs))).length) := by
  intro N
  induction N using Nat.strong_induction_on with
  | _ N ih =>
  refine ⟨?_, ?_, ?_, ?_⟩
  · intro v d hN
    cases v with
    | null => simp [yencB, renderLines, vsize]
    | bool b => cases b <;> simp [yencB, renderLines, vsize]
    | int z => simp [yencB, renderLines, vsize]
    | float f => simp [yencB, renderLines, vsize]
    | str s => simp [yencB, renderLines, vsize]
    | arr vs =>
      cases vs with
      | nil => simp [yencB, renderLines, vsize, lsize]
      | cons v vs' =>
        have hlt : lsize (v :: vs') < N := by
          simp only [vsize] at hN
          omega
        have h3 := (ih _ hlt).2.2.1 v vs' d le_rfl
        simp only [vsize, yencB]
        omega
    | obj kvs =>
      cases kvs with
      | nil => simp [yencB, renderLines, vsize, msize]
      | cons kv kvs' =>
        have hlt : msize (kv :: kvs') < N := by
          simp only [vsize] at hN
          omega
        have h4 := (ih _ hlt).2.2.2 kv kvs' d le_rfl
        simp only [vsize, yencB]
        omega
  · intro v d hN
    cases v with
    | null => simp [ymemTail, renderLines, vsize]
    | bool b => cases b <;> simp [ymemTail, renderLines, vsize]
    | int z => simp [ymemTail, renderLines, vsize]
    | float f => simp [ymemTail, renderLines, vsize]
    | str s => simp [ymemTail, renderLines, vsize]
    | arr vs =>
      cases vs with
      | nil => simp [ymemTail, renderLines, vsize, lsize]
      | cons v vs' =>
        have hlt : lsize (v :: vs') < N := by
          simp only [vsize] at hN
          omega
        have h3 := (ih _ hlt).2.2.1 v vs' (d+2) le_rfl
        simp only [vsize, ymemTail, List.length_nil]
        omega
    | obj kvs =>
      cases kvs with
      | nil => simp [ymemTail, renderLines, vsize, msize]
      | cons kv kvs' =>
        have hlt : msize (kv :: kvs') < N := by
          simp only [vsize] at hN
          omega
        have h4 := (ih _ hlt).2.2.2 kv kvs' (d+2) le_rfl
        simp only [vsize, ymemTail, List.length_nil]
        omega
  · intro v vs d hN
    have hltv : vsize v < N := by
      simp only [lsize] at hN
      have := lsize_pos vs
      omega
    have h2 := (ih _ hltv).2.1 v d le_rfl
    cases vs with
    | nil =>
      simp only [yencItems, List.append_nil, renderLines_cons, lsize,
        List.length_append, List.length_cons, List.length_replicate]
      omega
    | cons w ws =>
      have hltl : lsize (w :: ws) < N := by
        simp only [lsize] at hN ⊢
        have := vsize_pos v
        omega
      have h3 := (ih _ hltl).2.2.1 w ws d le_rfl
      rw [show yencItems d (v :: w :: ws) =
        ((List.replicate d ' ' ++ '-' :: (ymemTail d v).1) :: (ymemTail d v).2) ++
          yencItems d (w :: ws) from rfl]
      rw [renderLines_append, renderLines_cons]
      simp only [lsize, List.length_append, List.length_cons, List.length_replicate] at h3 ⊢
      omega
  · intro kv kvs d hN
    obtain ⟨k, v⟩ := kv
    have hltv : vsize v < N := by
      simp only [msize] at hN
      have := msize_pos kvs
      omega
    have h2 := (ih _ hltv).2.1 v d le_rfl
    have hq := quoteStr_length_ge k
    cases kvs with
    | nil =>
      simp only [yencMems, List.append_nil, renderLines_cons, msize,
        List.length_append, List.length_cons, List.length_replicate]
      omega
    | cons kw kws =>
      have hltm : msize (kw :: kws) < N := by
        simp only [msize] at hN ⊢
        have := vsize_pos v
        omega
      have h4 := (ih _ hltm).2.2.2 kw kws d le_rfl
      rw [show yencMems d ((k, v) :: kw :: kws) =
        ((List.replicate d ' ' ++ (quoteStr k ++ ':' :: (ymemTail d v).1)) ::
          (ymemTail d v).2) ++ yencMems d (kw :: kws) from rfl]
      rw [renderLines_append, renderLines_cons]
      simp only [msize, List.length_append, List.length_cons, List.length_replicate] at h4 ⊢
      omega

/-- The next line, if any, is indented strictly less than `d`. -/
def ylt (d : Nat) : List (List Char) → Prop
  | [] => True
  | l :: _ => yindent l < d

theorem ylt_mono {d d2 : Nat} {ls : List (List Char)} (h : ylt d ls) (hd : d ≤ d2) :
    ylt d2 ls := by
  cases ls with
  | nil => trivial
  | cons l t =>
    simp only [ylt] at h ⊢
    omega

theorem ymemTail_shape (d : Nat) (v : Value) :
    (ymemTail d v).1 = [] ∨ ∃ tok, (ymemTail d v).1 = ' ' :: tok := by
  cases v with
  | null => exact Or.inr ⟨_, rfl⟩
  | bool b => cases b <;> exact Or.inr ⟨_, rfl⟩
  | int z => exact Or.inr ⟨_, rfl⟩
  | float f => exact Or.inr ⟨_, rfl⟩
  | str s => exact Or.inr ⟨_, rfl⟩
  | arr vs =>
    cases vs with
    | nil => exact Or.inr ⟨_, rfl⟩
    | cons v vs' => exact Or.inl rfl
  | obj kvs =>
    cases kvs with
    | nil => exact Or.inr ⟨_, rfl⟩
    | cons kv kvs' => exact Or.inl rfl

theorem ylt_items (d : Nat) (vs : List Value) (rest : List (List Char))
    (h : ylt d rest) : ylt (d+2) (yencItems d vs ++ rest) := by
  cases vs with
  | nil =>
    rw [yencItems, List.nil_append]
    exact ylt_mono h (by omega)
  | cons v vs' =>
    rw [yencItems, List.cons_append, List.cons_append]
    show yindent (List.replicate d ' ' ++ '-' :: (ymemTail d v).1) < d + 2
    rw [(yindent_enc_line d '-' _ (by decide)).1]
    omega

theorem ylt_mems (d : Nat) (kvs : List (List Char × Value)) (rest : List (List Char))
    (h : ylt d rest) : ylt (d+2) (yencMems d kvs ++ rest) := by
  cases kvs with
  | nil =>
    rw [yencMems, List.nil_append]
    exact ylt_mono h (by omega)
  | cons kv kvs' =>
    obtain ⟨k, v⟩ := kv
    rw [yencMems, List.cons_append, List.cons_append]
    show yindent (List.replicate d ' ' ++ (quoteStr k ++ ':' :: (ymemTail d v).1)) < d + 2
    rw [show quoteStr k ++ ':' :: (ymemTail d v).1 =
      '"' :: (escStr k ++ ['"'] ++ ':' :: (ymemTail d v).1) by simp [quoteStr]]
    rw [(yindent_enc_line d '"' _ (by decide)).1]
    omega

theorem splitKey_plain_none {a : Char} {t : List Char} (ha : (a = '"') = False)
    (h : ∀ x ∈ a :: t, ¬ x = ':') : splitKey (a :: t) = none := by
  have hd := (dropWhile_all_nil (fun x => !(x = ':')) (a :: t)
    (by intro x hx; simpa using h x hx)).1
  simp only [splitKey, ha, if_false, hd]

theorem parseY_rt : ∀ n : Nat,
    (∀ v d rest, WfV v → vsize v ≤ n → ylt d rest →
      parseYB n d (yencB d v ++ rest) = some (v, rest)) ∧
    (∀ v d rest, WfV v → vsize v + 1 ≤ n → ylt (d+2) rest →
      parseYTail n d (ymemTail d v).1 ((ymemTail d v).2 ++ rest) = some (v, rest)) ∧
    (∀ vs d rest, (∀ x ∈ vs, WfV x) → lsize vs ≤ n → ylt d rest →
      parseYItems n d (yencItems d vs ++ rest) = some (vs, rest)) ∧
    (∀ kvs d rest, (∀ kv ∈ kvs, WfV kv.2) → (kvs.map Prod.fst).Nodup → msize kvs ≤ n →
      ylt d rest → parseYMems n d (yencMems d kvs ++ rest) = some (kvs, rest)) := by
  intro n
  induction n using Nat.strong_induction_on with
  | _ n ih =>
  cases n with
  | zero =>
    refine ⟨?_, ?_, ?_, ?_⟩
    · intro v d rest hwf hsz hrest
      have := vsize_pos v
      omega
    · intro v d rest hwf hsz hrest
      have := vsize_pos v
      omega
    · intro vs d rest hwf hsz hrest
      have := lsize_pos vs
      omega
    · intro kvs d rest hwf hnd hsz hrest
      have := msize_pos kvs
      omega
  | succ n =>
    obtain ⟨ihb, iht, ihi, ihm⟩ := ih n (by omega)
    refine ⟨?_, ?_, ?_, ?_⟩
    · intro v d rest hwf hsz hrest
      cases v with
      | null =>
        have hl := yindent_enc_line d 'n' ['u', 'l', 'l'] (by decide)
        rw [show yencB d Value.null = [List.replicate d ' ' ++ 'n' :: ['u', 'l', 'l']] from rfl,
          List.singleton_append]
        simp only [parseYB, hl.1, hl.2]
        simp +decide [splitKey, parseYScalarTok]
      | bool b =>
        cases b with
        | true =>
          have hl := yindent_enc_line d 't' ['r', 'u', 'e'] (by decide)
          rw [show yencB d (Value.bool true) =
            [List.replicate d ' ' ++ 't' :: ['r', 'u', 'e']] from rfl, List.singleton_append]
          simp only [parseYB, hl.1, hl.2]
          simp +decide [splitKey, parseYScalarTok]
        | false =>
          have hl := yindent_enc_line d 'f' ['a', 'l', 's', 'e'] (by decide)
          rw [show yencB d (Value.bool false) =
            [List.replicate d ' ' ++ 'f' :: ['a', 'l', 's', 'e']] from rfl,
            List.singleton_append]
          simp only [parseYB, hl.1, hl.2]
          simp +decide [splitKey, parseYScalarTok]
      | int z =>
        rw [show yencB d (Value.int z) = [List.replicate d ' ' ++ intChars z] from rfl,
          List.singleton_append]
        by_cases hz : z < 0
        · have hich : intChars z = '-' :: natChars (-z).toNat := by simp [intChars, hz]
          obtain ⟨b, tb, hnb⟩ : ∃ b tb, natChars (-z).toNat = b :: tb := by
            cases hnc : natChars (-z).toNat with
            | nil => exact absurd hnc (natChars_ne_nil _)
            | cons b tb => exact ⟨b, tb, rfl⟩
          have hbdig : isDigitCh b = true := natChars_digits _ b (by rw [hnb]; simp)
          have hbsp : (b = ' ') = False := by
            simp only [eq_iff_iff, iff_false]
            exact digit_ne hbdig (by decide)
          have htok := parseYScalarTok_int z
          rw [hich, hnb] at htok
          rw [hich, hnb]
          have hl := yindent_enc_line d '-' (b :: tb) (by decide)
          simp only [parseYB, hl.1, hl.2]
          simp +decide [hbsp, htok]
        · have hich : intChars z = natChars z.toNat := by simp [intChars, hz]
          obtain ⟨b, tb, hnb⟩ : ∃ b tb, natChars z.toNat = b :: tb := by
            cases hnc : natChars z.toNat with
            | nil => exact absurd hnc (natChars_ne_nil _)
            | cons b tb => exact ⟨b, tb, rfl⟩
          have hbdig : isDigitCh b = true := natChars_digits _ b (by rw [hnb]; simp)
          have hbsp : (b = ' ') = False := by
            simp only [eq_iff_iff, iff_false]
            exact digit_ne hbdig (by decide)
          have hbdash : (b = '-') = False := by
            simp only [eq_iff_iff, iff_false]
            exact digit_ne hbdig (by decide)
          have hsk : splitKey (b :: tb) = none := by
            refine splitKey_plain_none ?_ ?_
            · simp only [eq_iff_iff, iff_false]
              exact digit_ne hbdig (by decide)
            · intro x hx
              have hxd : isDigitCh x = true :=
                natChars_digits z.toNat x (by rw [hnb]; exact hx)
              exact digit_ne hxd (by decide)
          have htok := parseYScalarTok_int z
          rw [hich, hnb] at htok
          rw [hich]
          have hl := yindent_enc_line d b tb hbsp
          rw [hnb]
          simp only [parseYB, hl.1, hl.2]
          simp +decide [hbdash, hsk, htok]
      | float f =>
        have hff : floatWF f = true := by cases hwf with | float _ hf => exact hf
        rw [show yencB d (Value.float f) = [List.replicate d ' ' ++ floatChars f] from rfl,
          List.singleton_append]
        by_cases hneg : f.neg = true
        · have hfch : floatChars f = '-' :: (natChars f.ip ++ '.' :: f.frac.map digitChar) := by
            simp [floatChars, hneg]
          obtain ⟨b, tb, hnb⟩ : ∃ b tb, natChars f.ip = b :: tb := by
            cases hnc : natChars f.ip with
            | nil => exact absurd hnc (natChars_ne_nil _)
            | cons b tb => exact ⟨b, tb, rfl⟩
          have hbdig : isDigitCh b = true := natChars_digits _ b (by rw [hnb]; simp)
          have hbsp : (b = ' ') = False := by
            simp only [eq_iff_iff, iff_false]
            exact digit_ne hbdig (by decide)
          have htok := parseYScalarTok_float f hff
          rw [hfch, hnb] at htok
          simp only [List.cons_append] at htok
          rw [hfch, hnb]
          simp only [List.cons_append]
          have hl := yindent_enc_line d '-' (b :: (tb ++ '.' :: f.frac.map digitChar))
            (by decide)
          simp only [parseYB, hl.1, hl.2]
          simp +decide [hbsp, htok]
        · have hfch : floatChars f = natChars f.ip ++ '.' :: f.frac.map digitChar := by
            simp [floatChars, hneg]
          obtain ⟨b, tb, hnb⟩ : ∃ b tb, natChars f.ip = b :: tb := by
            cases hnc : natChars f.ip with
            | nil => exact absurd hnc (natChars_ne_nil _)
            | cons b tb => exact ⟨b, tb, rfl⟩
          have hbdig : isDigitCh b = true := natChars_digits _ b (by rw [hnb]; simp)
          have hbsp : (b = ' ') = False := by
            simp only [eq_iff_iff, iff_false]
            exact digit_ne hbdig (by decide)
          have hbdash : (b = '-') = False := by
            simp only [eq_iff_iff, iff_false]
            exact digit_ne hbdig (by decide)
          have hmemf : ∀ x ∈ floatChars f, ¬ x = ':' := by
            intro x hx
            rcases floatChars_mem f hff x hx with h | h | h
            · rw [h]; decide
            · rw [h]; decide
            · exact digit_ne h (by decide)
          have hsk : splitKey (b :: (tb ++ '.' :: f.frac.map digitChar)) = none := by
            refine splitKey_plain_none ?_ ?_
            · simp only [eq_iff_iff, iff_false]
              exact digit_ne hbdig (by decide)
            · intro x hx
              refine hmemf x ?_
              rw [hfch, hnb]
              exact hx
          have htok := parseYScalarTok_float f hff
          rw [hfch, hnb, List.cons_append] at htok
          rw [hfch, hnb, List.cons_append]
          have hl := yindent_enc_line d b (tb ++ '.' :: f.frac.map digitChar) hbsp
          simp only [parseYB, hl.1, hl.2]
          simp +decide [hbdash, hsk, htok]
      | str s =>
        rw [show yencB d (Value.str s) = [List.replicate d ' ' ++ quoteStr s] from rfl,
          List.singleton_append]
        have hqc : quoteStr s = '"' :: (escStr s ++ ['"']) := rfl
        have hl := yindent_enc_line d '"' (escStr s ++ ['"']) (by decide)
        have hsb : parseStrBody ((escStr s).length + 1 + 1) (escStr s ++ '"' :: []) =
            some (s, []) := parseStrBody_escStr s _ [] (by
          have := escStr_length_ge s
          omega)
        have hsk : splitKey ('"' :: (escStr s ++ ['"'])) = none := by
          simp only [splitKey, if_pos rfl, List.length_append, List.length_singleton]
          rw [show escStr s ++ ['"'] = escStr s ++ '"' :: [] from rfl, hsb]
          simp
        have htok := parseYScalarTok_str s
        rw [hqc] at htok
        rw [hqc]
        simp only [parseYB, hl.1, hl.2]
        simp +decide [hsk, htok]
      | arr vs =>
        cases vs with
        | nil =>
          have hl := yindent_enc_line d '[' [']'] (by decide)
          rw [show yencB d (Value.arr []) = [List.replicate d ' ' ++ '[' :: [']']] from rfl,
            List.singleton_append]
          simp only [parseYB, hl.1, hl.2]
          simp +decide [splitKey, parseYScalarTok]
        | cons v vs' =>
          have hwl := WfV_arr hwf
          have hwv : WfV v := hwl v (by simp)
          have hwvs : ∀ x ∈ vs', WfV x := fun x hx => hwl x (by simp [hx])
          have hszv : vsize v + 1 ≤ n := by
            simp only [vsize, lsize] at hsz
            have := lsize_pos vs'
            omega
          have hszl : lsize vs' ≤ n := by
            simp only [vsize, lsize] at hsz
            have := vsize_pos v
            omega
          have htail : parseYTail n d (ymemTail d v).1
              ((ymemTail d v).2 ++ (yencItems d vs' ++ rest)) =
              some (v, yencItems d vs' ++ rest) :=
            iht v d _ hwv hszv (ylt_items d vs' rest hrest)
          have hitems : parseYItems n d (yencItems d vs' ++ rest) = some (vs', rest) :=
            ihi vs' d rest hwvs hszl hrest
          rw [show yencB d (Value.arr (v :: vs')) =
            ((List.replicate d ' ' ++ '-' :: (ymemTail d v).1) :: (ymemTail d v).2) ++
              yencItems d vs' from rfl]
          simp only [List.cons_append, List.append_assoc]
          simp only [List.append_assoc] at htail
          rcases ymemTail_shape d v with hsh | ⟨tok, hsh⟩
          · rw [hsh] at htail ⊢
            have hl := yindent_enc_line d '-' ([] : List Char) (by decide)
            simp only [parseYB, hl.1, hl.2]
            simp +decide [htail, hitems]
          · rw [hsh] at htail ⊢
            have hl := yindent_enc_line d '-' (' ' :: tok) (by decide)
            simp only [parseYB, hl.1, hl.2]
            simp +decide [htail, hitems]
      | obj kvs =>
        cases kvs with
        | nil =>
          have hl := yindent_enc_line d '\x7b' ['\x7d'] (by decide)
          rw [show yencB d (Value.obj []) =
            [List.replicate d ' ' ++ '\x7b' :: ['\x7d']] from rfl, List.singleton_append]
          simp only [parseYB, hl.1, hl.2]
          simp +decide [splitKey, parseYScalarTok]
        | cons kv kvs' =>
          obtain ⟨k, v⟩ := kv
          obtain ⟨hnd, hwl⟩ := WfV_obj hwf
          simp only [List.map_cons, List.nodup_cons] at hnd
          have hwv : WfV v := hwl (k, v) (by simp)
          have hwvs : ∀ x ∈ kvs', WfV x.2 := fun x hx => hwl x (by simp [hx])
          have hszv : vsize v + 1 ≤ n := by
            simp only [vsize, msize] at hsz
            have := msize_pos kvs'
            omega
          have hszm : msize kvs' ≤ n := by
            simp only [vsize, msize] at hsz
            have := vsize_pos v
            omega
          have hline : List.replicate d ' ' ++ (quoteStr k ++ ':' :: (ymemTail d v).1) =
              List.replicate d ' ' ++ '"' :: (escStr k ++ '"' :: ':' :: (ymemTail d v).1) := by
            simp [quoteStr]
          have hl := yindent_enc_line d '"'
            (escStr k ++ '"' :: ':' :: (ymemTail d v).1) (by decide)
          have hsb : parseStrBody ((escStr k ++ '"' :: ':' :: (ymemTail d v).1).length + 1)
              (escStr k ++ '"' :: (':' :: (ymemTail d v).1)) =
              some (k, ':' :: (ymemTail d v).1) := by
            refine parseStrBody_escStr k _ _ ?_
            have := escStr_length_ge k
            simp only [List.length_append, List.length_cons]
            omega
          have hsk : splitKey ('"' :: (escStr k ++ '"' :: ':' :: (ymemTail d v).1)) =
              some (k, (ymemTail d v).1) := by
            simp only [splitKey, if_pos rfl, hsb]
            simp
          have htail : parseYTail n d (ymemTail d v).1
              ((ymemTail d v).2 ++ (yencMems d kvs' ++ rest)) =
              some (v, yencMems d kvs' ++ rest) :=
            iht v d _ hwv hszv (ylt_mems d kvs' rest hrest)
          have hmems : parseYMems n d (yencMems d kvs' ++ rest) = some (kvs', rest) :=
            ihm kvs' d rest hwvs hnd.2 hszm hrest
          rw [show yencB d (Value.obj ((k, v) :: kvs')) =
            ((List.replicate d ' ' ++ (quoteStr k ++ ':' :: (ymemTail d v).1)) ::
              (ymemTail d v).2) ++ yencMems d kvs' from rfl]
          rw [hline]
          simp only [List.cons_append, List.append_assoc]
          simp only [List.append_assoc] at htail
          simp only [parseYB, hl.1, hl.2]
          simp +decide [hsk, htail, hmems, hnd.1]
    · intro v d rest hwf hsz hrest
      cases v with
      | null =>
        rw [show (ymemTail d Value.null).1 = ' ' :: ['n', 'u', 'l', 'l'] from rfl,
          show (ymemTail d Value.null).2 = [] from rfl]
        simp +decide [parseYTail, parseYScalarTok]
      | bool b =>
        cases b with
        | true =>
          rw [show (ymemTail d (Value.bool true)).1 = ' ' :: ['t', 'r', 'u', 'e'] from rfl,
            show (ymemTail d (Value.bool true)).2 = [] from rfl]
          simp +decide [parseYTail, parseYScalarTok]
        | false =>
          rw [show (ymemTail d (Value.bool false)).1 = ' ' :: ['f', 'a', 'l', 's', 'e'] from rfl,
            show (ymemTail d (Value.bool false)).2 = [] from rfl]
          simp +decide [parseYTail, parseYScalarTok]
      | int z =>
        rw [show (ymemTail d (Value.int z)).1 = ' ' :: intChars z from rfl,
          show (ymemTail d (Value.int z)).2 = [] from rfl]
        simp +decide [parseYTail, parseYScalarTok_int z]
      | float f =>
        have hff : floatWF f = true := by cases hwf with | float _ hf => exact hf
        rw [show (ymemTail d (Value.float f)).1 = ' ' :: floatChars f from rfl,
          show (ymemTail d (Value.float f)).2 = [] from rfl]
        simp +decide [parseYTail, parseYScalarTok_float f hff]
      | str s =>
        rw [show (ymemTail d (Value.str s)).1 = ' ' :: quoteStr s from rfl,
          show (ymemTail d (Value.str s)).2 = [] from rfl]
        simp +decide [parseYTail, parseYScalarTok_str s]
      | arr vs =>
        cases vs with
        | nil =>
          rw [show (ymemTail d (Value.arr [])).1 = ' ' :: ['[', ']'] from rfl,
            show (ymemTail d (Value.arr [])).2 = [] from rfl]
          simp +decide [parseYTail, parseYScalarTok]
        | cons v vs' =>
          rw [show (ymemTail d (Value.arr (v :: vs'))).1 = [] from rfl,
            show (ymemTail d (Value.arr (v :: vs'))).2 = yencItems (d+2) (v :: vs') from rfl]
          rw [show yencItems (d+2) (v :: vs') = yencB (d+2) (Value.arr (v :: vs')) from rfl]
          simp only [parseYTail]
          exact ihb _ _ _ hwf (by omega) hrest
      | obj kvs =>
        cases kvs with
        | nil =>
          rw [show (ymemTail d (Value.obj [])).1 = ' ' :: ['\x7b', '\x7d'] from rfl,
            show (ymemTail d (Value.obj [])).2 = [] from rfl]
          simp +decide [parseYTail, parseYScalarTok]
        | cons kv kvs' =>
          rw [show (ymemTail d (Value.obj (kv :: kvs'))).1 = [] from rfl,
            show (ymemTail d (Value.obj (kv :: kvs'))).2 = yencMems (d+2) (kv :: kvs') from rfl]
          rw [show yencMems (d+2) (kv :: kvs') = yencB (d+2) (Value.obj (kv :: kvs')) from rfl]
          simp only [parseYTail]
          exact ihb _ _ _ hwf (by omega) hrest
    · intro vs d rest hwf hsz hrest
      cases vs with
      | nil =>
        rw [yencItems, List.nil_append]
        cases rest with
        | nil => simp [parseYItems]
        | cons l t =>
          have hlt : (yindent l = d) = False := by
            simp only [ylt] at hrest
            simp only [eq_iff_iff, iff_false]
            omega
          simp [parseYItems, hlt]
      | cons v vs' =>
        have hwv : WfV v := hwf v (by simp)
        have hwvs : ∀ x ∈ vs', WfV x := fun x hx => hwf x (by simp [hx])
        have hszv : vsize v + 1 ≤ n := by
          simp only [lsize] at hsz
          have := lsize_pos vs'
          omega
        have hszl : lsize vs' ≤ n := by
          simp only [lsize] at hsz
          have := vsize_pos v
          omega
        have htail : parseYTail n d (ymemTail d v).1
            ((ymemTail d v).2 ++ (yencItems d vs' ++ rest)) =
            some (v, yencItems d vs' ++ rest) :=
          iht v d _ hwv hszv (ylt_items d vs' rest hrest)
        have hitems : parseYItems n d (yencItems d vs' ++ rest) = some (vs', rest) :=
          ihi vs' d rest hwvs hszl hrest
        rw [show yencItems d (v :: vs') =
          ((List.replicate d ' ' ++ '-' :: (ymemTail d v).1) :: (ymemTail d v).2) ++
            yencItems d vs' from rfl]
        simp only [List.cons_append, List.append_assoc]
        simp only [List.append_assoc] at htail
        rcases ymemTail_shape d v with hsh | ⟨tok, hsh⟩
        · rw [hsh] at htail ⊢
          have hl := yindent_enc_line d '-' ([] : List Char) (by decide)
          simp only [parseYItems, hl.1, hl.2]
          simp +decide [htail, hitems]
        · rw [hsh] at htail ⊢
          have hl := yindent_enc_line d '-' (' ' :: tok) (by decide)
          simp only [parseYItems, hl.1, hl.2]
          simp +decide [htail, hitems]
    · intro kvs d rest hwf hnd hsz hrest
      cases kvs with
      | nil =>
        rw [yencMems, List.nil_append]
        cases rest with
        | nil => simp [parseYMems]
        | cons l t =>
          have hlt : (yindent l = d) = False := by
            simp only [ylt] at hrest
            simp only [eq_iff_iff, iff_false]
            omega
          simp [parseYMems, hlt]
      | cons kv kvs' =>
        obtain ⟨k, v⟩ := kv
        simp only [List.map_cons, List.nodup_cons] at hnd
        have hwv : WfV v := hwf (k, v) (by simp)
        have hwvs : ∀ x ∈ kvs', WfV x.2 := fun x hx => hwf x (by simp [hx])
        have hszv : vsize v + 1 ≤ n := by
          simp only [msize] at hsz
          have := msize_pos kvs'
          omega
        have hszm : msize kvs' ≤ n := by
          simp only [msize] at hsz
          have := vsize_pos v
          omega
        have hline : List.replicate d ' ' ++ (quoteStr k ++ ':' :: (ymemTail d v).1) =
            List.replicate d ' ' ++ '"' :: (escStr k ++ '"' :: ':' :: (ymemTail d v).1) := by
          simp [quoteStr]
        have hl := yindent_enc_line d '"'
          (escStr k ++ '"' :: ':' :: (ymemTail d v).1) (by decide)
        have hsb : parseStrBody ((escStr k ++ '"' :: ':' :: (ymemTail d v).1).length + 1)
            (escStr k ++ '"' :: (':' :: (ymemTail d v).1)) =
            some (k, ':' :: (ymemTail d v).1) := by
          refine parseStrBody_escStr k _ _ ?_
          have := escStr_length_ge k
          simp only [List.length_append, List.length_cons]
          omega
        have hsk : splitKey ('"' :: (escStr k ++ '"' :: ':' :: (ymemTail d v).1)) =
            some (k, (ymemTail d v).1) := by
          simp only [splitKey, if_pos rfl, hsb]
          simp
        have htail : parseYTail n d (ymemTail d v).1
            ((ymemTail d v).2 ++ (yencMems d kvs' ++ rest)) =
            some (v, yencMems d kvs' ++ rest) :=
          iht v d _ hwv hszv (ylt_mems d kvs' rest hrest)
        have hmems : parseYMems n d (yencMems d kvs' ++ rest) = some (kvs', rest) :=
          ihm kvs' d rest hwvs hnd.2 hszm hrest
        rw [show yencMems d ((k, v) :: kvs') =
          ((List.replicate d ' ' ++ (quoteStr k ++ ':' :: (ymemTail d v).1)) ::
            (ymemTail d v).2) ++ yencMems d kvs' from rfl]
        rw [hline]
        simp only [List.cons_append, List.append_assoc]
        simp only [List.append_assoc] at htail
        simp only [parseYMems, hl.1, hl.2]
        simp +decide [hsk, htail, hmems, hnd.1]

theorem parseYScalarTok_wf {c : List Char} {v : Value} (h : parseYScalarTok c = some v) :
    WfV v := by
  unfold parseYScalarTok at h
  split at h
  · injection h with h1
    rw [← h1]
    exact WfV.null
  · split at h
    · injection h with h1
      rw [← h1]
      exact WfV.bool _
    · split at h
      · injection h with h1
        rw [← h1]
        exact WfV.bool _
      · split at h
        · injection h with h1
          rw [← h1]
          exact WfV.arr [] (by simp)
        · split at h
          · injection h with h1
            rw [← h1]
            exact WfV.obj [] (by simp) (by simp)
          · split at h
            · cases h
            · split at h
              · split at h
                · cases h
                · split at h
                  · injection h with h1
                    rw [← h1]
                    exact WfV.str _
                  · cases h
              · split at h
                · cases h
                · split at h
                  · injection h with h1
                    rw [← h1]
                    exact WfV.int _
                  · cases h
                · split at h
                  · injection h with h1
                    rw [← h1]
                    exact WfV.float _ (parseNumRaw_float_wf (by assumption))
                  · cases h

theorem parseY_wf : ∀ n : Nat,
    (∀ d ls v rest, parseYB n d ls = some (v, rest) → WfV v) ∧
    (∀ d r ls v rest, parseYTail n d r ls = some (v, rest) → WfV v) ∧
    (∀ d ls vs rest, parseYItems n d ls = some (vs, rest) → ∀ v ∈ vs, WfV v) ∧
    (∀ d ls kvs rest, parseYMems n d ls = some (kvs, rest) →
      (∀ kv ∈ kvs, WfV kv.2) ∧ (kvs.map Prod.fst).Nodup) := by
  intro n
  induction n using Nat.strong_induction_on with
  | _ n ih =>
  cases n with
  | zero =>
    refine ⟨?_, ?_, ?_, ?_⟩
    · intro d ls v rest h
      simp [parseYB] at h
    · intro d r ls v rest h
      simp [parseYTail] at h
    · intro d ls vs rest h
      simp [parseYItems] at h
    · intro d ls kvs rest h
      simp [parseYMems] at h
  | succ n =>
    obtain ⟨ihb, iht, ihi, ihm⟩ := ih n (by omega)
    refine ⟨?_, ?_, ?_, ?_⟩
    · intro d ls v rest h
      cases ls with
      | nil => simp [parseYB] at h
      | cons l t =>
      simp only [parseYB] at h
      split at h
      · split at h
        · cases h
        · split at h
          · split at h
            · split at h
              · cases h
              · split at h
                · cases h
                · simp only [Option.some.injEq, Prod.mk.injEq] at h
                  rw [← h.1]
                  refine WfV.arr _ ?_
                  intro x hx
                  rcases List.mem_cons.mp hx with hx | hx
                  · subst hx
                    exact iht _ _ _ _ _ (by assumption)
                  · exact ihi _ _ _ _ (by assumption) x hx
            · split at h
              · split at h
                · cases h
                · split at h
                  · cases h
                  · simp only [Option.some.injEq, Prod.mk.injEq] at h
                    rw [← h.1]
                    refine WfV.arr _ ?_
                    intro x hx
                    rcases List.mem_cons.mp hx with hx | hx
                    · subst hx
                      exact iht _ _ _ _ _ (by assumption)
                    · exact ihi _ _ _ _ (by assumption) x hx
              · split at h
                · cases h
                · simp only [Option.some.injEq, Prod.mk.injEq] at h
                  rw [← h.1]
                  exact parseYScalarTok_wf (by assumption)
          · split at h
            · split at h
              · cases h
              · split at h
                · cases h
                · split at h
                  · cases h
                  · simp only [Option.some.injEq, Prod.mk.injEq] at h
                    rw [← h.1]
                    refine WfV.obj _ ?_ ?_
                    · rw [List.map_cons]
                      refine List.nodup_cons.mpr ⟨by assumption,
                        (ihm _ _ _ _ (by assumption)).2⟩
                    · intro x hx
                      rcases List.mem_cons.mp hx with hx | hx
                      · subst hx
                        exact iht _ _ _ _ _ (by assumption)
                      · exact (ihm _ _ _ _ (by assumption)).1 x hx
            · split at h
              · cases h
              · simp only [Option.some.injEq, Prod.mk.injEq] at h
                rw [← h.1]
                exact parseYScalarTok_wf (by assumption)
      · cases h
    · intro d r ls v rest h
      cases r with
      | nil =>
        simp only [parseYTail] at h
        exact ihb _ _ _ _ h
      | cons b r2 =>
        simp only [parseYTail] at h
        split at h
        · split at h
          · cases h
          · simp only [Option.some.injEq, Prod.mk.injEq] at h
            rw [← h.1]
            exact parseYScalarTok_wf (by assumption)
        · cases h
    · intro d ls vs rest h
      cases ls with
      | nil =>
        simp only [parseYItems, Option.some.injEq, Prod.mk.injEq] at h
        rw [← h.1]
        simp
      | cons l t =>
      simp only [parseYItems] at h
      split at h
      · split at h
        · cases h
        · split at h
          · split at h
            · cases h
            · split at h
              · cases h
              · simp only [Option.some.injEq, Prod.mk.injEq] at h
                rw [← h.1]
                intro x hx
                rcases List.mem_cons.mp hx with hx | hx
                · subst hx
                  exact iht _ _ _ _ _ (by assumption)
                · exact ihi _ _ _ _ (by assumption) x hx
          · cases h
      · simp only [Option.some.injEq, Prod.mk.injEq] at h
        rw [← h.1]
        simp
    · intro d ls kvs rest h
      cases ls with
      | nil =>
        simp only [parseYMems, Option.some.injEq, Prod.mk.injEq] at h
        rw [← h.1]
        exact ⟨by simp, by simp⟩
      | cons l t =>
      simp only [parseYMems] at h
      split at h
      · split at h
        · cases h
        · split at h
          · cases h
          · split at h
            · cases h
            · split at h
              · cases h
              · split at h
                · cases h
                · simp only [Option.some.injEq, Prod.mk.injEq] at h
                  rw [← h.1]
                  refine ⟨?_, ?_⟩
                  · intro x hx
                    rcases List.mem_cons.mp hx with hx | hx
                    · subst hx
                      exact iht _ _ _ _ _ (by assumption)
                    · exact (ihm _ _ _ _ (by assumption)).1 x hx
                  · rw [List.map_cons]
                    refine List.nodup_cons.mpr ⟨by assumption,
                      (ihm _ _ _ _ (by assumption)).2⟩
      · simp only [Option.some.injEq, Prod.mk.injEq] at h
        rw [← h.1]
        exact ⟨by simp, by simp⟩

theorem yencB_ne_nil (d : Nat) (v : Value) : yencB d v ≠ [] := by
  cases v with
  | null => simp [yencB]
  | bool b => cases b <;> simp [yencB]
  | int z => simp [yencB]
  | float f => simp [yencB]
  | str s => simp [yencB]
  | arr vs =>
    cases vs with
    | nil => simp [yencB]
    | cons v vs' =>
      rw [show yencB d (Value.arr (v :: vs')) =
        ((List.replicate d ' ' ++ '-' :: (ymemTail d v).1) :: (ymemTail d v).2) ++
          yencItems d vs' from rfl]
      simp
  | obj kvs =>
    cases kvs with
    | nil => simp [yencB]
    | cons kv kvs' =>
      obtain ⟨k, v⟩ := kv
      rw [show yencB d (Value.obj ((k, v) :: kvs')) =
        ((List.replicate d ' ' ++ (quoteStr k ++ ':' :: (ymemTail d v).1)) ::
          (ymemTail d v).2) ++ yencMems d kvs' from rfl]
      simp

theorem ydecode_wf {s : List Char} {v : Value} (h : ydecode s = .ok v) : WfV v := by
  simp only [ydecode] at h
  split at h
  · injection h with h1
    rw [← h1]
    exact WfV.null
  · split at h
    · cases h
    · injection h with h1
      rw [← h1]
      exact (parseY_wf _).1 _ _ _ _ (by assumption)
    · cases h

theorem ydecode_yencTop (v : Value) (hwf : WfV v) : ydecode (yencTop v) = .ok v := by
  have hshape := (yenc_shape (vsize v)).1 v 0 hwf le_rfl
  have hsplit : splitNl (renderLines (yencB 0 v)) = yencB 0 v ++ [[]] :=
    splitNl_renderLines _ (fun l hl => (hshape l hl).1)
  have hfilter := filter_nonempty_lines (yencB 0 v) (fun l hl => (hshape l hl).2)
  have hlen : vsize v ≤ (renderLines (yencB 0 v)).length + 1 :=
    (yenc_len (vsize v)).1 v 0 le_rfl
  have hrt : parseYB ((renderLines (yencB 0 v)).length + 1) 0 (yencB 0 v ++ []) =
      some (v, []) :=
    (parseY_rt _).1 v 0 [] hwf hlen trivial
  rw [List.append_nil] at hrt
  cases hy : yencB 0 v with
  | nil => exact absurd hy (yencB_ne_nil 0 v)
  | cons l t =>
    rw [hy] at hsplit hfilter hrt
    simp only [yencTop, ydecode]
    rw [hy, hsplit, hfilter]
    simp [hrt]

theorem jdecode_wf {s : List Char} {v : Value} (h : jdecode s = .ok v) : WfV v := by
  simp only [jdecode] at h
  split at h
  · cases h
  · split at h
    · injection h with h1
      rw [← h1]
      exact (parseJ_wf _).1 _ _ _ (by assumption)
    · cases h

/-! ## The source layer

Translated from `src/chapters/06-production/confconv/src`: the format
identifier (`format.rs`), the error taxonomy (`error.rs`), and the three
operations (`commands/convert.rs`, `commands/validate.rs`,
`commands/format.rs`).  I/O (reading files, stdin, writing output) stays with
the caller; the embedded functions take the text as a value. -/

/-- The closed format set (`format.rs`, `enum Format`). -/
inductive Format where
  | json
  | yaml
  | toml
deriving DecidableEq

/-- ASCII lower-casing, as `str::to_lowercase` acts on ASCII. -/
def lowerChar (c : Char) : Char :=
  if 'A' ≤ c ∧ c ≤ 'Z' then Char.ofNat (c.toNat + 32) else c

/-- Case-insensitive format-name match (`Format::from_extension`'s
`match ext.as_str()` after `to_lowercase`). -/
def parseFormatName (s : List Char) : Option Format :=
  if s.map lowerChar = ['j', 's', 'o', 'n'] then some .json
  else if s.map lowerChar = ['y', 'a', 'm', 'l'] then some .yaml
  else if s.map lowerChar = ['y', 'm', 'l'] then some .yaml
  else if s.map lowerChar = ['t', 'o', 'm', 'l'] then some .toml
  else none

/-- `path.rsplit('.').next()`: the part after the last dot, or the whole
path when it has no dot (`rsplit` always yields a first piece). -/
def afterLastDot (path : List Char) : List Char :=
  (path.reverse.takeWhile (fun c => !(c = '.'))).reverse

/-- `Format::from_extension` (`format.rs`, chapter 06). -/
def fromExtension (path : List Char) : Option Format :=
  parseFormatName (afterLastDot path)

/-- The error taxonomy (`error.rs`, `enum Error`): exactly five variants. -/
inductive Error where
  | fileRead (path : List Char)
  | fileWrite (path : List Char)
  | parse (format : List Char) (source : List Char)
  | convert (message : List Char)
  | unknownFormat (path : List Char)

/-- The `Error::Convert` message for stdin without `--from`
(`commands/convert.rs` line 21). -/
def stdinFromMsg : List Char := "从标准输入读取时必须指定 --from 参数".data

/-- The decode half of `convert` (`commands/convert.rs` lines 73-91): parse
the named format into the `serde_json::Value` pivot; TOML goes through the
TOML tree and `serde_json::to_value`. -/
def decodeValue (fmt : Format) (s : List Char) : Except Error Value :=
  match fmt with
  | .json =>
    match jdecode s with
    | .error e => .error (.parse ['J', 'S', 'O', 'N'] e)
    | .ok v => .ok v
  | .yaml =>
    match ydecode s with
    | .error e => .error (.parse ['Y', 'A', 'M', 'L'] e)
    | .ok v => .ok v
  | .toml =>
    match tdecode s with
    | .error e => .error (.parse ['T', 'O', 'M', 'L'] e)
    | .ok tv => .ok (tomlToJson tv)

/-- The encode half of `convert` (`commands/convert.rs` lines 94-125): JSON
compact or pretty by the flag; YAML one canonical style; TOML re-reads the
JSON text as a TOML tree (failing on nulls, `Error::Convert`) and renders it
compact or pretty, any render failure again `Error::Convert`. -/
def encodeValue (fmt : Format) (pretty : Bool) (v : Value) : Except Error (List Char) :=
  match fmt with
  | .json => .ok (if pretty then jencP 2 0 v else jencC v)
  | .yaml => .ok (yencTop v)
  | .toml =>
    match jsonToToml v with
    | .error e => .error (.convert e)
    | .ok tv =>
      match (if pretty then tserP tv else tserC tv) with
      | .error e => .error (.convert e)
      | .ok out => .ok out

/-- `convert` (`commands/convert.rs` lines 71-128). -/
def convert (input : List Char) (src dst : Format) (pretty : Bool) :
    Except Error (List Char) :=
  match decodeValue src input with
  | .error e => .error e
  | .ok v => encodeValue dst pretty v

/-- The parse-only body of `validate` (`commands/validate.rs` lines 25-44). -/
def validateContent (s : List Char) (fmt : Format) : Except Error Unit :=
  match decodeValue fmt s with
  | .error e => .error e
  | .ok _ => .ok ()

/-- `format_content` (`commands/format.rs` lines 41-81): decode, then
re-encode the same format pretty; JSON with the given indent width, YAML in
its one style, TOML with `toml::to_string_pretty`. -/
def formatContent (input : List Char) (fmt : Format) (indent : Nat) :
    Except Error (List Char) :=
  match fmt with
  | .json =>
    match jdecode input with
    | .error e => .error (.parse ['J', 'S', 'O', 'N'] e)
    | .ok v => .ok (jencP indent 0 v)
  | .yaml =>
    match ydecode input with
    | .error e => .error (.parse ['Y', 'A', 'M', 'L'] e)
    | .ok v => .ok (yencTop v)
  | .toml =>
    match tdecode input with
    | .error e => .error (.parse ['T', 'O', 'M', 'L'] e)
    | .ok tv =>
      match tserP tv with
      | .error e => .error (.convert e)
      | .ok out => .ok out

/-- Format resolution of `convert::run` (`commands/convert.rs` lines 18-43):
stdin (`-`) requires `--from` on pain of `Error::Convert`; a file path takes
the explicit format first, then the extension, else `Error::UnknownFormat`. -/
def resolveConvertFormat (input : List Char) (explicit : Option Format) :
    Except Error Format :=
  if input = ['-'] then
    match explicit with
    | some f => .ok f
    | none => .error (.convert stdinFromMsg)
  else
    match explicit with
    | some f => .ok f
    | none =>
      match fromExtension input with
      | some f => .ok f
      | none => .error (.unknownFormat input)

/-- Format resolution of `validate::run` (`commands/validate.rs` lines 9-13):
explicit format first, then the extension, else `Error::UnknownFormat`. -/
def resolveValidateFormat (file : List Char) (explicit : Option Format) :
    Except Error Format :=
  match explicit with
  | some f => .ok f
  | none =>
    match fromExtension file with
    | some f => .ok f
    | none => .error (.unknownFormat file)

/-- Format resolution of `format::run` (`commands/format.rs` lines 8-11): the
command takes no explicit format; the extension decides or the run fails. -/
def resolveFormatCmdFormat (file : List Char) : Except Error Format :=
  match fromExtension file with
  | some f => .ok f
  | none => .error (.unknownFormat file)

theorem splitNl_no_nl (s : List Char) (h : '\n' ∉ s) : splitNl s = [s] := by
  induction s with
  | nil => rfl
  | cons c t ih =>
    have hc : ¬ c = '\n' := fun hc => h (by simp [hc])
    have ht : '\n' ∉ t := fun hm => h (by simp [hm])
    simp only [splitNl, if_neg hc, ih ht]

theorem yindent_head {c : Char} (t : List Char) (h : (c = ' ') = False) :
    yindent (c :: t) = 0 ∧ ycontent (c :: t) = c :: t := by
  constructor
  · simp [yindent, List.takeWhile, h]
  · simp [ycontent, List.dropWhile, h]

theorem parseYScalarTok_int_trail (z : Int) (rest : List Char)
    (hr : isDigitCh ':' = false ∧ (':' : Char) ≠ '.') :
    parseYScalarTok (intChars z ++ ':' :: rest) = none := by
  obtain ⟨c, t, hct, hc⟩ := intChars_head z
  have h1 : intChars z ++ ':' :: rest ≠ ['n', 'u', 'l', 'l'] := by
    rw [hct, List.cons_append]; intro he; injection he with he1 _
    exact numHead_ne (hc.imp_left id) (by decide) (by decide) he1
  have h2 : intChars z ++ ':' :: rest ≠ ['t', 'r', 'u', 'e'] := by
    rw [hct, List.cons_append]; intro he; injection he with he1 _
    exact numHead_ne (hc.imp_left id) (by decide) (by decide) he1
  have h3 : intChars z ++ ':' :: rest ≠ ['f', 'a', 'l', 's', 'e'] := by
    rw [hct, List.cons_append]; intro he; injection he with he1 _
    exact numHead_ne (hc.imp_left id) (by decide) (by decide) he1
  have h4 : intChars z ++ ':' :: rest ≠ ['[', ']'] := by
    rw [hct, List.cons_append]; intro he; injection he with he1 _
    exact numHead_ne (hc.imp_left id) (by decide) (by decide) he1
  have h5 : intChars z ++ ':' :: rest ≠ ['\x7b', '\x7d'] := by
    rw [hct, List.cons_append]; intro he; injection he with he1 _
    exact numHead_ne (hc.imp_left id) (by decide) (by decide) he1
  have h6 : (c = '"') = False := by
    simp only [eq_iff_iff, iff_false]
    exact numHead_ne (hc.imp_left id) (by decide) (by decide)
  have hnum : parseNumRaw (intChars z ++ ':' :: rest) = some (.inl z, ':' :: rest) :=
    parseNumRaw_int z (':' :: rest) ⟨hr.1, hr.2⟩
  rw [hct, List.cons_append] at hnum
  simp only [parseYScalarTok, if_neg h1, if_neg h2, if_neg h3, if_neg h4, if_neg h5]
  rw [hct, List.cons_append]
  simp [h6, hnum]

theorem ydecode_int_key (z : Int) (rest : List Char) (h : '\n' ∉ rest) :
    ydecode (intChars z ++ ':' :: ' ' :: rest) = .error ['y', 'a', 'm', 'l'] := by
  have hnl : '\n' ∉ intChars z ++ ':' :: ' ' :: rest := by
    intro hm
    rcases List.mem_append.mp hm with hm | hm
    · exact intChars_no_nl z hm
    · rcases List.mem_cons.mp hm with hm | hm
      · exact absurd hm (by decide)
      · rcases List.mem_cons.mp hm with hm | hm
        · exact absurd hm (by decide)
        · exact h hm
  have hsplit := splitNl_no_nl _ hnl
  obtain ⟨c, t, hct, hc⟩ := intChars_head z
  have hcsp : (c = ' ') = False := by
    simp only [eq_iff_iff, iff_false]
    exact numHead_ne (hc.imp_left id) (by decide) (by decide)
  have hcq : (c = '"') = False := by
    simp only [eq_iff_iff, iff_false]
    exact numHead_ne (hc.imp_left id) (by decide) (by decide)
  have htok : parseYScalarTok (intChars z ++ ':' :: ' ' :: rest) = none :=
    parseYScalarTok_int_trail z (' ' :: rest) (by decide)
  have hkeytok : parseYScalarTok (intChars z) = some (.int z) := parseYScalarTok_int z
  have hnocolon : ∀ x ∈ intChars z, (fun x => !(x = ':')) x = true := by
    intro x hx
    rcases intChars_mem z x hx with hx2 | hx2
    · rw [hx2]; decide
    · simpa using digit_ne hx2 (by decide)
  have hspan := takeWhile_app_all (fun x => !(x = ':')) (intChars z) (':' :: ' ' :: rest)
    hnocolon (by simp)
  have hparse : parseYB ((intChars z ++ ':' :: ' ' :: rest).length + 1) 0
      ((intChars z ++ ':' :: ' ' :: rest) :: []) = none := by
    have hl := yindent_head (t ++ ':' :: ' ' :: rest) hcsp
    rw [hct, List.cons_append] at htok ⊢
    rcases hc with hc | hc
    · subst hc
      simp only [parseYB, hl.1, hl.2]
      cases ht2 : t ++ ':' :: ' ' :: rest with
      | nil => exact absurd ht2 (by simp)
      | cons b r2 =>
        have hbsp : (b = ' ') = False := by
          simp only [eq_iff_iff, iff_false]
          cases t with
          | nil =>
            simp only [List.nil_append] at ht2
            injection ht2 with hb _
            rw [← hb]; decide
          | cons tb tt =>
            simp only [List.cons_append] at ht2
            injection ht2 with hb _
            rw [← hb]
            rcases intChars_mem z tb (by rw [hct]; simp) with h2 | h2
            · rw [h2]; decide
            · exact digit_ne h2 (by decide)
        rw [ht2] at htok
        simp +decide [ht2, hbsp, htok]
    · have hcdash : (c = '-') = False := by
        simp only [eq_iff_iff, iff_false]
        exact digit_ne hc (by decide)
      have hsk : splitKey (c :: (t ++ ':' :: ' ' :: rest)) = none := by
        rw [hct, List.cons_append] at hspan
        rw [hct] at hkeytok
        simp only [splitKey, hcq, if_false, hspan.2, hspan.1, hkeytok]
      simp only [parseYB, hl.1, hl.2]
      simp +decide [hcdash, hsk, htok]
  have hfil : List.filter (fun l => !l.isEmpty) ((intChars z ++ ':' :: ' ' :: rest) :: []) =
      (intChars z ++ ':' :: ' ' :: rest) :: [] := by
    rw [hct, List.cons_append]
    simp
  simp only [ydecode, hsplit, hfil, hparse]

theorem tserP_ok_table {tv : TValue} {out : List Char} (h : tserP tv = .ok out) :
    ∃ kvs, tv = TValue.table kvs := by
  cases tv with
  | table kvs => exact ⟨kvs, rfl⟩
  | bool b => simp [tserP] at h
  | int z => simp [tserP] at h
  | float f => simp [tserP] at h
  | str s => simp [tserP] at h
  | array vs => simp [tserP] at h

/-! ## The claims -/

/-- C1: Same-format round-trip identity.  A well-formed Value encoded to a
format and decoded back by the same format's decoder comes out unchanged:
for JSON (the pretty rendering `convert` uses), for YAML (any pretty flag),
and for TOML on its representable subset (no Null anywhere and a Mapping at
the root, compact rendering). -/
theorem round_trip_identity (v : Value) (hwf : WfV v) :
    (∀ out, encodeValue .json true v = .ok out → decodeValue .json out = .ok v) ∧
    (∀ pretty out, encodeValue .yaml pretty v = .ok out → decodeValue .yaml out = .ok v) ∧
    (¬ ContainsNull v → (∃ kvs, v = .obj kvs) →
      ∃ out, encodeValue .toml false v = .ok out ∧ decodeValue .toml out = .ok v) := by
  refine ⟨?_, ?_, ?_⟩
  · intro out h
    have he : encodeValue .json true v = .ok (jencP 2 0 v) := rfl
    rw [he] at h
    injection h with h1
    rw [← h1]
    simp [decodeValue, jdecode_jencP 2 v hwf]
  · intro pretty out h
    have he : encodeValue .yaml pretty v = .ok (yencTop v) := rfl
    rw [he] at h
    injection h with h1
    rw [← h1]
    simp [decodeValue, ydecode_yencTop v hwf]
  · intro hnull hobj
    obtain ⟨tv, h1, h2, h3⟩ := jsonToToml_ok hnull
    have htwf : TWf tv := h3 hwf
    obtain ⟨kvs, hk⟩ := hobj
    obtain ⟨tkvs, htk⟩ : ∃ tkvs, tv = TValue.table tkvs := by
      subst hk
      simp only [jsonToToml] at h1
      split at h1
      · cases h1
      · injection h1 with he
        exact ⟨_, he.symm⟩
    subst htk
    refine ⟨renderLines (tserCLines tkvs), ?_, ?_⟩
    · simp [encodeValue, h1, tserC]
    · have hdec := tdecode_tserC tkvs htwf
      simp [decodeValue, hdec, h2]

/-- C1 witness: the round trip at the one-key document `{"a": 1}`. -/
theorem round_trip_identity_witness :
    (∀ out, encodeValue .json true (Value.obj [(['a'], Value.int 1)]) = .ok out →
      decodeValue .json out = .ok (Value.obj [(['a'], Value.int 1)])) ∧
    (∀ pretty out, encodeValue .yaml pretty (Value.obj [(['a'], Value.int 1)]) = .ok out →
      decodeValue .yaml out = .ok (Value.obj [(['a'], Value.int 1)])) ∧
    (¬ ContainsNull (Value.obj [(['a'], Value.int 1)]) →
      (∃ kvs, Value.obj [(['a'], Value.int 1)] = .obj kvs) →
      ∃ out, encodeValue .toml false (Value.obj [(['a'], Value.int 1)]) = .ok out ∧
        decodeValue .toml out = .ok (Value.obj [(['a'], Value.int 1)])) :=
  round_trip_identity (Value.obj [(['a'], Value.int 1)])
    (WfV.obj _ (by decide) (by
      intro kv hkv
      rcases List.mem_singleton.mp hkv with h
      rw [h]
      exact WfV.int 1))

/-- C2: The JSON decoder keeps object keys in the order encountered and
resolves duplicate keys last-write-wins: decoding any pretty-encoded
well-formed object returns its members in order, `{"b":1,"a":2}` decodes to
the members in source order, and `{"k":1,"k":2}` decodes successfully to the
single member `k = 2`. -/
theorem json_key_order_lww :
    (∀ kvs i, WfV (.obj kvs) → jdecode (jencP i 0 (.obj kvs)) = .ok (.obj kvs)) ∧
    (jdecode ['\x7b', '"', 'b', '"', ':', '1', ',', '"', 'a', '"', ':', '2', '\x7d'] =
      .ok (.obj [(['b'], .int 1), (['a'], .int 2)])) ∧
    (jdecode ['\x7b', '"', 'k', '"', ':', '1', ',', '"', 'k', '"', ':', '2', '\x7d'] =
      .ok (.obj [(['k'], .int 2)])) := by
  refine ⟨?_, rfl, rfl⟩
  intro kvs i hwf
  exact jdecode_jencP i _ hwf

/-- C3 counterexample: the dot-free path `json` is inferred as Json, so
format inference does not fail on every path without a dot. -/
theorem infer_dotfree_counterexample :
    fromExtension ['j', 's', 'o', 'n'] = some Format.json := rfl

/-- C3 (amended): `from_extension` matches the part after the last dot
case-insensitively against json/yaml/yml/toml — and on a dot-free path it
matches the whole path, because `rsplit('.').next()` returns the whole
string; there is no NoExtension failure. -/
theorem infer_amended :
    (∀ path, '.' ∉ path → fromExtension path = parseFormatName path) ∧
    (fromExtension ['x', '.', 'J', 'S', 'O', 'N'] = some .json) ∧
    (fromExtension ['x', '.', 'y', 'a', 'm', 'l'] = some .yaml) ∧
    (fromExtension ['x', '.', 'y', 'm', 'l'] = some .yaml) ∧
    (fromExtension ['x', '.', 't', 'o', 'm', 'l'] = some .toml) ∧
    (fromExtension ['x'] = none) ∧
    (∀ path, fromExtension path = parseFormatName (afterLastDot path)) := by
  refine ⟨?_, rfl, rfl, rfl, rfl, rfl, fun _ => rfl⟩
  intro path hdot
  have hall : ∀ a ∈ path.reverse, (fun c => !(c = '.')) a = true := by
    intro a ha
    have : a ∈ path := List.mem_reverse.mp ha
    have : ¬ a = '.' := fun he => hdot (he ▸ this)
    simpa using this
  have := (dropWhile_all_nil (fun c => !(c = '.')) path.reverse hall).2
  unfold fromExtension afterLastDot
  rw [this, List.reverse_reverse]

/-- C4 counterexample: encoding the bare sequence `[true]` to TOML fails
with the generic `Error::Convert`, not a distinguished unsupported-root
error kind. -/
theorem toml_root_counterexample :
    encodeValue .toml false (.arr [.bool true]) = .error (.convert ['r', 'o', 'o', 't']) := rfl

/-- C4 (amended): encoding a Value whose top level is not a Mapping into
TOML always fails, but the failure is the generic `Error::Convert`; the
error taxonomy has exactly five variants and no UnsupportedRoot. -/
theorem toml_root_amended :
    (∀ v pretty, (∀ kvs, v ≠ Value.obj kvs) →
      ∃ m, encodeValue .toml pretty v = .error (.convert m)) ∧
    (∀ e : Error, (∃ p, e = .fileRead p) ∨ (∃ p, e = .fileWrite p) ∨
      (∃ f s, e = .parse f s) ∨ (∃ m, e = .convert m) ∨ (∃ p, e = .unknownFormat p)) := by
  constructor
  · intro v pretty hno
    cases v with
    | null => exact ⟨['n', 'u', 'l', 'l'], by cases pretty <;> rfl⟩
    | bool b => exact ⟨['r', 'o', 'o', 't'], by cases pretty <;> cases b <;> rfl⟩
    | int z =>
      cases pretty <;> exact ⟨['r', 'o', 'o', 't'], by simp [encodeValue, jsonToToml, tserC, tserP]⟩
    | float f =>
      cases pretty <;> exact ⟨['r', 'o', 'o', 't'], by simp [encodeValue, jsonToToml, tserC, tserP]⟩
    | str s =>
      cases pretty <;> exact ⟨['r', 'o', 'o', 't'], by simp [encodeValue, jsonToToml, tserC, tserP]⟩
    | arr vs =>
      cases he : jsonToTomlL vs with
      | error e =>
        refine ⟨e, ?_⟩
        cases pretty <;> simp [encodeValue, jsonToToml, he]
      | ok tvs =>
        refine ⟨['r', 'o', 'o', 't'], ?_⟩
        cases pretty <;> simp [encodeValue, jsonToToml, he, tserC, tserP]
    | obj kvs => exact absurd rfl (hno kvs)
  · intro e
    cases e with
    | fileRead p => exact Or.inl ⟨p, rfl⟩
    | fileWrite p => exact Or.inr (Or.inl ⟨p, rfl⟩)
    | parse f s => exact Or.inr (Or.inr (Or.inl ⟨f, s, rfl⟩))
    | convert m => exact Or.inr (Or.inr (Or.inr (Or.inl ⟨m, rfl⟩)))
    | unknownFormat p => exact Or.inr (Or.inr (Or.inr (Or.inr ⟨p, rfl⟩)))

/-- C5: a Value containing a Null anywhere cannot be encoded to TOML: the
encode fails with the named `Error::Convert` and returns no output text, so
no key is dropped and no placeholder is substituted. -/
theorem toml_null_encode_error (v : Value) (pretty : Bool) (h : ContainsNull v) :
    ∃ m, encodeValue .toml pretty v = .error (.convert m) := by
  obtain ⟨e, he⟩ := jsonToToml_err h
  exact ⟨e, by simp [encodeValue, he]⟩

/-- C5 witness: the mapping `{"a": null}` fails to encode to TOML. -/
theorem toml_null_encode_error_witness :
    ∃ m, encodeValue .toml false (Value.obj [(['a'], Value.null)]) = .error (.convert m) :=
  toml_null_encode_error (Value.obj [(['a'], Value.null)]) false
    (ContainsNull.obj (List.mem_singleton.mpr rfl) ContainsNull.here)

/-- C6 counterexample: converting from standard input with no `--from`
fails with `Error::Convert` (a required-argument message), not with the
terminal `UnknownFormat` that the uniform policy promises. -/
theorem resolution_counterexample :
    resolveConvertFormat ['-'] none = .error (.convert stdinFromMsg) := rfl

/-- C6 (amended): an explicit format always wins and extension inference is
the fallback for convert and validate, with `UnknownFormat` when both are
absent on a file path; but stdin convert without `--from` fails with
`Error::Convert`, and the format command accepts no explicit format at all —
its extension inference is the only source. -/
theorem resolution_amended :
    (∀ input f, resolveConvertFormat input (some f) = .ok f) ∧
    (∀ input, input ≠ ['-'] → resolveConvertFormat input none =
      (match fromExtension input with
       | some f => .ok f
       | none => .error (.unknownFormat input))) ∧
    (resolveConvertFormat ['-'] none = .error (.convert stdinFromMsg)) ∧
    (∀ file f, resolveValidateFormat file (some f) = .ok f) ∧
    (∀ file, resolveValidateFormat file none =
      (match fromExtension file with
       | some f => .ok f
       | none => .error (.unknownFormat file))) ∧
    (∀ file, resolveFormatCmdFormat file =
      (match fromExtension file with
       | some f => .ok f
       | none => .error (.unknownFormat file))) := by
  refine ⟨?_, ?_, rfl, fun _ _ => rfl, fun _ => rfl, fun _ => rfl⟩
  · intro input f
    unfold resolveConvertFormat
    split <;> rfl
  · intro input hne
    unfold resolveConvertFormat
    rw [if_neg hne]

/-- C7: reformatting is idempotent: whenever `format_content` succeeds,
running it again on its own output returns that output unchanged, for every
format and indent width. -/
theorem format_idempotent (s : List Char) (fmt : Format) (indent : Nat) (out : List Char)
    (h : formatContent s fmt indent = .ok out) :
    formatContent out fmt indent = .ok out := by
  cases fmt with
  | json =>
    simp only [formatContent] at h ⊢
    split at h
    · cases h
    · next v hd =>
      injection h with h1
      rw [← h1]
      rw [jdecode_jencP indent v (jdecode_wf hd)]
  | yaml =>
    simp only [formatContent] at h ⊢
    split at h
    · cases h
    · next v hd =>
      injection h with h1
      rw [← h1]
      rw [ydecode_yencTop v (ydecode_wf hd)]
  | toml =>
    simp only [formatContent] at h ⊢
    split at h
    · cases h
    · next tv hd =>
      split at h
      · cases h
      · next out2 hts =>
        injection h with h1
        obtain ⟨kvs, hk⟩ := tserP_ok_table hts
        subst hk
        have htwf := tdecode_wf hd
        have hts2 : tserP (.table kvs) = .ok out := by rw [hts, h1]
        have hout : out = renderLines (tserCLines (kvs.filter fun kv => !isTTable kv.2) ++
            (kvs.filter fun kv => isTTable kv.2).flatMap fun kv =>
              ('[' :: (tkeyChars kv.1 ++ [']'])) :: tsectionBody kv.2) := by
          simp only [tserP] at hts2
          injection hts2 with h2
          exact h2.symm
        have hgoal : tdecode out = .ok (.table ((kvs.filter fun kv => !isTTable kv.2) ++
            kvs.filter fun kv => isTTable kv.2)) := by
          rw [hout]
          exact tdecode_tserP kvs htwf
        simp only [hgoal, tserP_reorder kvs, hts2]

/-- C7 witness: reformatting the pretty output of `{"a":1}` at indent 2
returns it unchanged. -/
theorem format_idempotent_witness :
    formatContent (jencP 2 0 (Value.obj [(['a'], Value.int 1)])) Format.json 2 =
      .ok (jencP 2 0 (Value.obj [(['a'], Value.int 1)])) :=
  format_idempotent ['\x7b', '"', 'a', '"', ':', '1', '\x7d'] Format.json 2
    (jencP 2 0 (Value.obj [(['a'], Value.int 1)])) rfl

/-- C8: pretty-formatting JSON honors the indent width exactly: formatting
`{"a":1}` at indent i prefixes the member line with i spaces, and in the
nested `{"a":{"b":1}}` the depth-two line gets exactly 2*i spaces and the
depth-one closing brace i spaces. -/
theorem json_indent_width (i : Nat) :
    formatContent ['\x7b', '"', 'a', '"', ':', '1', '\x7d'] .json i =
      .ok ('\x7b' :: '\n' :: (List.replicate i ' ' ++
        ('"' :: 'a' :: '"' :: ':' :: ' ' :: '1' :: '\n' :: ['\x7d']))) ∧
    formatContent ['\x7b', '"', 'a', '"', ':', '\x7b', '"', 'b', '"', ':', '1', '\x7d', '\x7d']
      .json i =
      .ok ('\x7b' :: '\n' :: (List.replicate i ' ' ++
        ('"' :: 'a' :: '"' :: ':' :: ' ' :: '\x7b' :: '\n' ::
          (List.replicate (i * 2) ' ' ++ ('"' :: 'b' :: '"' :: ':' :: ' ' :: '1' :: '\n' ::
            (List.replicate i ' ' ++ ('\x7d' :: '\n' :: ['\x7d']))))))) := by
  constructor
  · have hd : jdecode ['\x7b', '"', 'a', '"', ':', '1', '\x7d'] =
        .ok (.obj [(['a'], .int 1)]) := rfl
    simp only [formatContent, hd]
    simp +decide [jencP, jencPMems, quoteStr, escStr, escChar,
      show intChars 1 = ['1'] from rfl, Nat.mul_one]
  · have hd : jdecode ['\x7b', '"', 'a', '"', ':', '\x7b', '"', 'b', '"', ':', '1', '\x7d',
        '\x7d'] = .ok (.obj [(['a'], .obj [(['b'], .int 1)])]) := rfl
    simp only [formatContent, hd]
    simp +decide [jencP, jencPMems, quoteStr, escStr, escChar,
      show intChars 1 = ['1'] from rfl, Nat.mul_one]

/-- C9: a YAML mapping whose key is an integer scalar (`1: a` and, in
general, any integer literal key) is rejected with `Error::Parse` by the
decode path that convert and validate share, because decoding targets the
string-keyed Value model. -/
theorem yaml_nonstring_key_rejected (z : Int) (rest : List Char) (h : '\n' ∉ rest) :
    decodeValue .yaml (intChars z ++ ':' :: ' ' :: rest) =
      .error (.parse ['Y', 'A', 'M', 'L'] ['y', 'a', 'm', 'l']) ∧
    validateContent (intChars z ++ ':' :: ' ' :: rest) .yaml =
      .error (.parse ['Y', 'A', 'M', 'L'] ['y', 'a', 'm', 'l']) := by
  have hd := ydecode_int_key z rest h
  constructor
  · simp [decodeValue, hd]
  · simp [validateContent, decodeValue, hd]

/-- C9 witness: the document `1: a` is rejected by decode and validate. -/
theorem yaml_nonstring_key_rejected_witness :
    decodeValue .yaml (intChars 1 ++ ':' :: ' ' :: ['a']) =
      .error (.parse ['Y', 'A', 'M', 'L'] ['y', 'a', 'm', 'l']) ∧
    validateContent (intChars 1 ++ ':' :: ' ' :: ['a']) .yaml =
      .error (.parse ['Y', 'A', 'M', 'L'] ['y', 'a', 'm', 'l']) :=
  yaml_nonstring_key_rejected 1 ['a'] (by decide)

/-- C10: the empty document is treated asymmetrically: YAML validates it
(it decodes to null) and TOML validates it (it decodes to the empty table),
while JSON rejects it with a parse error. -/
theorem empty_document_asymmetry :
    validateContent [] .yaml = .ok () ∧
    decodeValue .yaml [] = .ok .null ∧
    validateContent [] .toml = .ok () ∧
    decodeValue .toml [] = .ok (.obj []) ∧
    validateContent [] .json =
      .error (.parse ['J', 'S', 'O', 'N'] ['s', 'y', 'n', 't', 'a', 'x']) :=
  ⟨rfl, rfl, rfl, rfl, rfl⟩
